import Mathlib

/-!
# Tic-Tac-Toe engine of the STM32L476RG project: win detection, placement, minimax

A shallow embedding of `Core/Src/winChecks.c`, `Core/Src/fieldController.c`,
`Core/Src/minimax.c`, `Core/Src/findRandom.c` and the game logic of `Core/Src/main.c`,
followed by theorems about the embedded functions.

Conventions of the embedding:
* the global `char field[maxFieldSize][maxFieldSize]` is a function `Board`, indexed
  row first exactly like the C array (`field[y][x]` is `field y x`);
* `fieldSize`, `toWin` and loop indices are natural numbers (the program only ever uses
  non-negative values for them), scores, `depth`, `alpha` and `beta` are integers;
  `Minimax` computes with them without a bound, which is the arithmetic of `int` for every
  remaining depth from 0 to 2147483638, and `Minimax32` is the same function with
  `score - depth` and `depth - 1` reduced to 32 bits;
* an access outside an array makes the result of `ComputerMove`, `gameInputEvent` and
  `optionsInputEvent` `none`; the functions with the suffix `Flat` follow the program
  through such an access of the field array;
* functions that write to the board return the new board next to their C result;
* `rand()` is an input: every function that may call it takes the returned value as an
  argument;
* drawing and UART traffic are left out, the global variables they share with the game
  logic are fields of `Session`.
-/

namespace TicTacToe

/-! ## gameConfiguration.h -/

def firstPlayerChar : Char := 'x'

def secondPlayerChar : Char := 'o'

def maxFieldSize : Nat := 5

/-- The end-of-string character, which marks a free cell. -/
def emptyChar : Char := Char.ofNat 0

/-- The game field, `field[row][column]`. -/
abbrev Board := Nat → Nat → Char

/-- The assignment `board[i][j] = c`. -/
def setCell (board : Board) (i j : Nat) (c : Char) : Board :=
  fun i' j' => if i' = i ∧ j' = j then c else board i' j'

/-- A board given by its rows; cells outside the listed rows are free. -/
def ofRows (rows : List (List Char)) : Board :=
  fun i j => (rows.getD i []).getD j emptyChar

/-! ## winChecks.c -/

/-- The inner loop shared by the four scanning functions:
`for (adder = ...; adder < fieldSize; adder++) { if (out of bounds) break; count; test }`.
`fuel` is the number of iterations left (`fieldSize - adder`), `inBounds adder = false`
is the `break`, `cell adder` is the cell visited at step `adder`. -/
def scanLoop (inBounds : Nat → Bool) (cell : Nat → Char) (toCheck : Char) (toWin : Nat) :
    Nat → Nat → Nat → Bool
  | 0, _, _ => false
  | fuel + 1, adder, inRow =>
    if inBounds adder then
      let inRow' := if cell adder = toCheck then inRow + 1 else 0
      if inRow' = toWin then true
      else scanLoop inBounds cell toCheck toWin fuel (adder + 1) inRow'
    else false

def checkWinHorizontally (field : Board) (toCheck : Char) (toWin fieldSize : Nat) : Bool :=
  (List.range fieldSize).any fun y =>
    scanLoop (fun _ => true) (fun x => field y x) toCheck toWin fieldSize 0 0

def checkWinVerticaly (field : Board) (toCheck : Char) (toWin fieldSize : Nat) : Bool :=
  (List.range fieldSize).any fun x =>
    scanLoop (fun _ => true) (fun y => field y x) toCheck toWin fieldSize 0 0

def leftToRightDiagonally (field : Board) (yStart : Nat) (toCheck : Char)
    (toWin fieldSize : Nat) : Bool :=
  (List.range fieldSize).any fun xStart =>
    scanLoop (fun adder => !(decide (xStart + adder ≥ fieldSize) || decide (yStart + adder ≥ fieldSize)))
      (fun adder => field (yStart + adder) (xStart + adder)) toCheck toWin fieldSize 0 0

def rightToLeftDiagonally (field : Board) (yStart : Nat) (toCheck : Char)
    (toWin fieldSize : Nat) : Bool :=
  (List.range fieldSize).reverse.any fun xStart =>
    scanLoop (fun adder => !(decide (xStart < adder) || decide (yStart + adder ≥ fieldSize)))
      (fun adder => field (yStart + adder) (xStart - adder)) toCheck toWin fieldSize 0 0

def checkWinDiagonaly (field : Board) (toCheck : Char) (toWin fieldSize : Nat) : Bool :=
  (List.range fieldSize).any fun yStart =>
    leftToRightDiagonally field yStart toCheck toWin fieldSize
      || rightToLeftDiagonally field yStart toCheck toWin fieldSize

def isDraw (field : Board) (fieldSize : Nat) : Bool :=
  (List.range fieldSize).all fun y =>
    (List.range fieldSize).all fun x =>
      !(field y x != firstPlayerChar && field y x != secondPlayerChar)

/-- The run length needed to win, `fieldSize > 3 ? fieldSize - 1 : 3`. -/
def toWinOf (fieldSize : Nat) : Nat :=
  if fieldSize > 3 then fieldSize - 1 else 3

/-- One round of the loop over `toCheck[i]` in `checkWin`. -/
def hasWon (field : Board) (toCheck : Char) (toWin fieldSize : Nat) : Bool :=
  checkWinHorizontally field toCheck toWin fieldSize
    || checkWinVerticaly field toCheck toWin fieldSize
    || checkWinDiagonaly field toCheck toWin fieldSize

def checkWin (field : Board) (fieldSize : Nat) : Char :=
  let toWin := toWinOf fieldSize
  if hasWon field firstPlayerChar toWin fieldSize then firstPlayerChar
  else if hasWon field secondPlayerChar toWin fieldSize then secondPlayerChar
  else if isDraw field fieldSize then 'd'
  else emptyChar

/-! ## fieldController.c -/

/-- The call `placeChar(x, y, toPlace)` on the global field: the returned flag and the
field afterwards. -/
def placeChar (field : Board) (x y : Nat) (toPlace : Char) : Bool × Board :=
  let isFree := field y x == emptyChar
  (isFree, setCell field y x (if isFree then toPlace else field y x))

/-! ## minimax.c -/

/-- The list written to `moves`, in the order it is written; `moveCount` is its length. -/
def GetAvailableMoves (board : Board) (size : Nat) : List (Nat × Nat) :=
  (List.range size).flatMap fun i =>
    ((List.range size).filter fun j => board i j == emptyChar).map fun j => (i, j)

/-- The loop of the maximizing branch of `Minimax`, from the state (`board`, `bestScore`,
`alpha`) over the moves still to try. `call` is the recursive call
`Minimax(board, size, depth - 1, false, alpha, beta)`. -/
def maxLoop (call : Board → Int → Int → Option (Int × Board)) (beta : Int) :
    List (Nat × Nat) → Board → Int → Int → Option (Int × Board)
  | [], board, bestScore, _ => some (bestScore, board)
  | (x, y) :: rest, board, bestScore, alpha =>
    match call (setCell board x y secondPlayerChar) alpha beta with
    | none => none
    | some (score, board1) =>
      let bestScore := max bestScore score
      let board2 := setCell board1 x y emptyChar
      let alpha := max alpha bestScore
      if beta ≤ alpha then some (bestScore, board2)
      else maxLoop call beta rest board2 bestScore alpha

/-- The loop of the minimizing branch of `Minimax`. -/
def minLoop (call : Board → Int → Int → Option (Int × Board)) (alpha : Int) :
    List (Nat × Nat) → Board → Int → Int → Option (Int × Board)
  | [], board, bestScore, _ => some (bestScore, board)
  | (x, y) :: rest, board, bestScore, beta =>
    match call (setCell board x y firstPlayerChar) alpha beta with
    | none => none
    | some (score, board1) =>
      let bestScore := min bestScore score
      let board2 := setCell board1 x y emptyChar
      let beta := min beta bestScore
      if beta ≤ alpha then some (bestScore, board2)
      else minLoop call alpha rest board2 bestScore beta

/-- The terminal score computed at the top of `Minimax`. -/
def statusScore (gameStatus : Char) : Int :=
  if gameStatus = secondPlayerChar then 10
  else if gameStatus = firstPlayerChar then -10
  else 0

/-- The function `Minimax`: the returned score and the board after the call. The first
argument bounds the nesting of recursive calls; `none` means the bound was too small.
Scores and depth are unbounded integers here; `Minimax32` reduces the two subtractions to
32-bit `int` and returns the same for every depth from 0 to 2147483638
(`Minimax32_eq_Minimax`). -/
def Minimax : Nat → Board → Nat → Int → Bool → Int → Int → Option (Int × Board)
  | 0, _, _, _, _, _, _ => none
  | fuel + 1, board, size, depth, isMaximizing, alpha, beta =>
    let gameStatus := checkWin board size
    let score := statusScore gameStatus
    if score = 10 ∨ score = -10 then some (score - depth, board)
    else if depth = 0 ∨ isDraw board size = true then some (0, board)
    else
      let moves := GetAvailableMoves board size
      if isMaximizing then
        maxLoop (fun b a be => Minimax fuel b size (depth - 1) false a be) beta
          moves board (-1000) alpha
      else
        minLoop (fun b a be => Minimax fuel b size (depth - 1) true a be) alpha
          moves board 1000 beta

/-- The loop of `ComputerMove`; `bestMove = none` stands for the initial `{ -1, -1 }`. -/
def rootLoop (call : Board → Option (Int × Board)) :
    List (Nat × Nat) → Board → Int → Option (Nat × Nat) → Option (Board × Option (Nat × Nat))
  | [], board, _, bestMove => some (board, bestMove)
  | (x, y) :: rest, board, bestScore, bestMove =>
    match call (setCell board x y secondPlayerChar) with
    | none => none
    | some (moveScore, board1) =>
      let board2 := setCell board1 x y emptyChar
      if moveScore > bestScore then rootLoop call rest board2 moveScore (some (x, y))
      else rootLoop call rest board2 bestScore bestMove

/-- The depth cutoff chosen by `ComputerMove`. -/
def maxDepthOf (size : Nat) : Int :=
  if size ≤ 3 then 9 else if size ≤ 4 then 4 else 3

/-- The function `ComputerMove`: the board after the call. The result is `none` when the
final write would use the initial `bestMove = { -1, -1 }`, which is outside the array. -/
def ComputerMove (board : Board) (size : Nat) : Option Board :=
  let moves := GetAvailableMoves board size
  let maxDepth := maxDepthOf size
  match rootLoop (fun b => Minimax (size * size + 1) b size maxDepth false (-1000) 1000)
      moves board (-1000) none with
  | some (board1, some (x, y)) => some (setCell board1 x y secondPlayerChar)
  | _ => none

/-! ## Scores without the board threading -/

/-- The scores computed by `maxLoop`, with the board passed by value. -/
def maxLoopScore (call : Nat × Nat → Int → Int → Int) (beta : Int) :
    List (Nat × Nat) → Int → Int → Int
  | [], bestScore, _ => bestScore
  | m :: rest, bestScore, alpha =>
    let bestScore := max bestScore (call m alpha beta)
    let alpha := max alpha bestScore
    if beta ≤ alpha then bestScore else maxLoopScore call beta rest bestScore alpha

/-- The scores computed by `minLoop`, with the board passed by value. -/
def minLoopScore (call : Nat × Nat → Int → Int → Int) (alpha : Int) :
    List (Nat × Nat) → Int → Int → Int
  | [], bestScore, _ => bestScore
  | m :: rest, bestScore, beta =>
    let bestScore := min bestScore (call m alpha beta)
    let beta := min beta bestScore
    if beta ≤ alpha then bestScore else minLoopScore call alpha rest bestScore beta

/-- The score returned by `Minimax`, as a function of the board alone. -/
def MinimaxScore : Nat → Board → Nat → Int → Bool → Int → Int → Int
  | 0, _, _, _, _, _, _ => 0
  | fuel + 1, board, size, depth, isMaximizing, alpha, beta =>
    let score := statusScore (checkWin board size)
    if score = 10 ∨ score = -10 then score - depth
    else if depth = 0 ∨ isDraw board size = true then 0
    else
      let moves := GetAvailableMoves board size
      if isMaximizing then
        maxLoopScore (fun m a be =>
          MinimaxScore fuel (setCell board m.1 m.2 secondPlayerChar) size (depth - 1) false a be)
          beta moves (-1000) alpha
      else
        minLoopScore (fun m a be =>
          MinimaxScore fuel (setCell board m.1 m.2 firstPlayerChar) size (depth - 1) true a be)
          alpha moves 1000 beta

/-- The choice made by the loop of `ComputerMove`, from the scores of the moves. -/
def pickBest (score : Nat × Nat → Int) :
    List (Nat × Nat) → Int → Option (Nat × Nat) → Option (Nat × Nat)
  | [], _, bestMove => bestMove
  | m :: rest, bestScore, bestMove =>
    if score m > bestScore then pickBest score rest (score m) (some m)
    else pickBest score rest bestScore bestMove

/-- The move committed by `ComputerMove`. -/
def bestMoveOf (board : Board) (size : Nat) : Option (Nat × Nat) :=
  pickBest (fun m => MinimaxScore (size * size + 1) (setCell board m.1 m.2 secondPlayerChar)
    size (maxDepthOf size) false (-1000) 1000) (GetAvailableMoves board size) (-1000) none

/-! ## Specification vocabulary -/

/-- Every cell of the active region is free or holds one of the two marks. -/
def wellFormed (board : Board) (size : Nat) : Prop :=
  ∀ i < size, ∀ j < size,
    board i j = emptyChar ∨ board i j = firstPlayerChar ∨ board i j = secondPlayerChar

instance (board : Board) (size : Nat) : Decidable (wellFormed board size) := by
  unfold wellFormed; infer_instance

/-- Some row of the region holds `toWin` consecutive cells equal to `m`. -/
def rowLine (board : Board) (size toWin : Nat) (m : Char) : Prop :=
  ∃ r < size, ∃ c < size, c + toWin ≤ size ∧ ∀ k < toWin, board r (c + k) = m

/-- Some column of the region holds `toWin` consecutive cells equal to `m`. -/
def colLine (board : Board) (size toWin : Nat) (m : Char) : Prop :=
  ∃ r < size, ∃ c < size, r + toWin ≤ size ∧ ∀ k < toWin, board (r + k) c = m

/-- Some down-right diagonal of the region holds `toWin` consecutive cells equal to `m`. -/
def downRightLine (board : Board) (size toWin : Nat) (m : Char) : Prop :=
  ∃ r < size, ∃ c < size, r + toWin ≤ size ∧ c + toWin ≤ size ∧
    ∀ k < toWin, board (r + k) (c + k) = m

/-- Some down-left diagonal of the region holds `toWin` consecutive cells equal to `m`. -/
def downLeftLine (board : Board) (size toWin : Nat) (m : Char) : Prop :=
  ∃ r < size, ∃ c < size, r + toWin ≤ size ∧ toWin ≤ c + 1 ∧
    ∀ k < toWin, board (r + k) (c - k) = m

/-- A line of `toWin` consecutive `m` cells inside the `size` x `size` region. -/
def hasLine (board : Board) (size toWin : Nat) (m : Char) : Prop :=
  rowLine board size toWin m ∨ colLine board size toWin m ∨
    downRightLine board size toWin m ∨ downLeftLine board size toWin m

instance (board : Board) (size toWin : Nat) (m : Char) : Decidable (hasLine board size toWin m) := by
  unfold hasLine rowLine colLine downRightLine downLeftLine; infer_instance

/-! ## Boards used as concrete inputs -/

/-- The all-empty board. -/
def emptyBoard : Board := ofRows []

/-- A 5x5 board with four `o` in the top row and nothing else. -/
def fourInARow : Board := ofRows [['o', 'o', 'o', 'o']]

/-- A full 3x3 board without any line of three. -/
def fullNoLine : Board := ofRows [['x', 'o', 'x'], ['x', 'o', 'o'], ['o', 'x', 'x']]

/-- A 3x3 board with a row of `x` and a row of `o`. -/
def bothLines : Board := ofRows [['x', 'x', 'x'], ['o', 'o', 'o']]

/-- A 3x3 board with `x` in the top-left corner. -/
def cornerTaken : Board := ofRows [['x']]

/-- The number of free cells of the region. -/
def emptyCount (board : Board) (size : Nat) : Nat :=
  (GetAvailableMoves board size).toFinset.card

/-- Row-major order of the cells: lower row first, then lower column. -/
def rowMajorBefore (p q : Nat × Nat) : Prop :=
  p.1 < q.1 ∨ (p.1 = q.1 ∧ p.2 < q.2)

/-- A 3x3 position with two free cells. -/
def twoLeft : Board := ofRows [['x', 'o', 'x'], ['x', 'o', 'o'], ['o']]

/-! ## Reference search without pruning -/

/-- Plain minimax as the specification describes the search when the window is left out:
the terminal scores, the depth cutoff and the move order of `Minimax`, the maximizing side
taking the maximum over all candidate moves (from -1000) and the minimizing side the
minimum (from 1000). -/
def referenceMinimax : Nat → Board → Nat → Int → Bool → Int
  | 0, _, _, _, _ => 0
  | fuel + 1, board, size, depth, isMaximizing =>
    let score := statusScore (checkWin board size)
    if score = 10 ∨ score = -10 then score - depth
    else if depth = 0 ∨ isDraw board size = true then 0
    else
      let moves := GetAvailableMoves board size
      if isMaximizing then
        moves.foldl (fun best m => max best
          (referenceMinimax fuel (setCell board m.1 m.2 secondPlayerChar) size (depth - 1) false))
          (-1000)
      else
        moves.foldl (fun best m => min best
          (referenceMinimax fuel (setCell board m.1 m.2 firstPlayerChar) size (depth - 1) true))
          1000

/-- The move selection of the specification on top of `referenceMinimax`: every free cell
is scored as a prospective `o` placement, the first cell of strictly highest score is
taken and `o` is written there. -/
def referenceComputerMove (board : Board) (size : Nat) : Option Board :=
  (pickBest (fun m => referenceMinimax (size * size + 1)
      (setCell board m.1 m.2 secondPlayerChar) size (maxDepthOf size) false)
    (GetAvailableMoves board size) (-1000) none).map
    fun m => setCell board m.1 m.2 secondPlayerChar

/-- How a result `r` computed with the window (`alpha`, `beta`) relates to the exact
value `v`: equal inside the window, on the same side outside. -/
def windowAgrees (v r alpha beta : Int) : Prop :=
  (v ≤ alpha → r ≤ alpha) ∧ (alpha < v → v < beta → r = v) ∧ (beta ≤ v → beta ≤ r)

/-! ## The 3x3 board spelled out -/

/-- The three cells `p`, `q`, `r` all hold `m`. -/
def lineOf (board : Board) (m : Char) (p q r : Nat × Nat) : Bool :=
  board p.1 p.2 == m && board q.1 q.2 == m && board r.1 r.2 == m

/-- One of the eight lines of the 3x3 board holds three `m`. -/
def won3 (board : Board) (m : Char) : Bool :=
  lineOf board m (0, 0) (0, 1) (0, 2) || lineOf board m (1, 0) (1, 1) (1, 2) ||
  lineOf board m (2, 0) (2, 1) (2, 2) || lineOf board m (0, 0) (1, 0) (2, 0) ||
  lineOf board m (0, 1) (1, 1) (2, 1) || lineOf board m (0, 2) (1, 2) (2, 2) ||
  lineOf board m (0, 0) (1, 1) (2, 2) || lineOf board m (0, 2) (1, 1) (2, 0)

/-- The cells of the 3x3 board in row-major order. -/
def cells3 : List (Nat × Nat) :=
  [(0, 0), (0, 1), (0, 2), (1, 0), (1, 1), (1, 2), (2, 0), (2, 1), (2, 2)]

/-- The free cells of the 3x3 board in row-major order. -/
def moves3 (board : Board) : List (Nat × Nat) :=
  cells3.filter fun m => board m.1 m.2 == emptyChar

/-- Every cell of the 3x3 board holds a mark. -/
def full3 (board : Board) : Bool :=
  cells3.all fun m => board m.1 m.2 == firstPlayerChar || board m.1 m.2 == secondPlayerChar

/-- The result of `checkWin` on the 3x3 board, read off the eight lines. -/
def status3 (board : Board) : Char :=
  if won3 board firstPlayerChar then firstPlayerChar
  else if won3 board secondPlayerChar then secondPlayerChar
  else if full3 board then 'd'
  else emptyChar

/-- The search `safeFor` below, computed with `status3` and `moves3`. -/
def safeFast : Nat → Bool → Board → Bool
  | 0, _, _ => false
  | n + 1, oToMove, board =>
    let status := status3 board
    if status = firstPlayerChar then false
    else if status ≠ emptyChar then true
    else if oToMove then
      (moves3 board).any fun m =>
        safeFast n false (setCell board m.1 m.2 secondPlayerChar)
    else
      (moves3 board).all fun m =>
        safeFast n true (setCell board m.1 m.2 firstPlayerChar)

/-! ## Play on the 3x3 board with the computer moving first -/

/-- Looking at most the given number of plies ahead on the 3x3 board: `x` has not won and
cannot force a win. With `oToMove` the next mark is an `o` on some free cell, otherwise
an `x` on any free cell. -/
def safeFor : Nat → Bool → Board → Bool
  | 0, _, _ => false
  | n + 1, oToMove, board =>
    let status := checkWin board 3
    if status = firstPlayerChar then false
    else if status ≠ emptyChar then true
    else if oToMove then
      (GetAvailableMoves board 3).any fun m =>
        safeFor n false (setCell board m.1 m.2 secondPlayerChar)
    else
      (GetAvailableMoves board 3).all fun m =>
        safeFor n true (setCell board m.1 m.2 firstPlayerChar)

/-- The boards on which the computer is about to move in a 3x3 game that starts from the
empty board, in which every `o` is placed by `ComputerMove` and every `x` by `placeChar`
on an arbitrary free cell, and that goes on while `checkWin` reports an ongoing game. -/
inductive AiToMove : Board → Prop
  | start : AiToMove emptyBoard
  | reply (board after : Board) (x y : Nat) :
      AiToMove board → ComputerMove board 3 = some after →
      checkWin after 3 = emptyChar → x < 3 → y < 3 →
      (placeChar after x y firstPlayerChar).1 = true →
      checkWin (placeChar after x y firstPlayerChar).2 3 = emptyChar →
      AiToMove (placeChar after x y firstPlayerChar).2

instance (p q : Nat × Nat) : Decidable (rowMajorBefore p q) := by
  unfold rowMajorBefore; infer_instance

/-! ## Bounds on the plain minimax value of a 3x3 position, by search -/

/-- The order in which the bound searches below try the cells. -/
def tryOrder : List (Nat × Nat) :=
  [(1, 1), (0, 0), (0, 2), (2, 0), (2, 2), (0, 1), (1, 0), (1, 2), (2, 1)]

/-- The free cells of the 3x3 board in the order of `tryOrder`. -/
def tryMoves (board : Board) : List (Nat × Nat) :=
  tryOrder.filter fun m => board m.1 m.2 == emptyChar

/-- A search deciding `t ≤ referenceMinimax fuel board 3 depth isMaximizing`: the
maximizing side needs one move that reaches `t`, the minimizing side needs all moves to. -/
def atLeast3 : Nat → Board → Int → Bool → Int → Bool
  | 0, _, _, _, t => decide (t ≤ 0)
  | fuel + 1, board, depth, isMaximizing, t =>
    if won3 board firstPlayerChar then decide (t ≤ -10 - depth)
    else if won3 board secondPlayerChar then decide (t ≤ 10 - depth)
    else if depth = 0 ∨ full3 board = true then decide (t ≤ 0)
    else if isMaximizing then
      decide (t ≤ -1000) || (tryMoves board).any fun m =>
        atLeast3 fuel (setCell board m.1 m.2 secondPlayerChar) (depth - 1) false t
    else
      decide (t ≤ 1000) && (tryMoves board).all fun m =>
        atLeast3 fuel (setCell board m.1 m.2 firstPlayerChar) (depth - 1) true t

/-- A search deciding `referenceMinimax fuel board 3 depth isMaximizing ≤ t`. -/
def atMost3 : Nat → Board → Int → Bool → Int → Bool
  | 0, _, _, _, t => decide (0 ≤ t)
  | fuel + 1, board, depth, isMaximizing, t =>
    if won3 board firstPlayerChar then decide (-10 - depth ≤ t)
    else if won3 board secondPlayerChar then decide (10 - depth ≤ t)
    else if depth = 0 ∨ full3 board = true then decide (0 ≤ t)
    else if isMaximizing then
      decide (-1000 ≤ t) && (tryMoves board).all fun m =>
        atMost3 fuel (setCell board m.1 m.2 secondPlayerChar) (depth - 1) false t
    else
      decide (1000 ≤ t) || (tryMoves board).any fun m =>
        atMost3 fuel (setCell board m.1 m.2 firstPlayerChar) (depth - 1) true t

/-- A checkable reason for `ComputerMove` to put `o` on the cell `m` of a 3x3 board: `m` is
free, the move to `m` is worth at least `v`, every free cell before `m` in row-major order
is worth less than `v` and every free cell after `m` at most `v`. -/
def certifies (board : Board) (m : Nat × Nat) (v : Int) : Bool :=
  (moves3 board).contains m && (moves3 board).all fun p =>
    if p = m then atLeast3 10 (setCell board p.1 p.2 secondPlayerChar) 9 false v
    else if rowMajorBefore p m then
      atMost3 10 (setCell board p.1 p.2 secondPlayerChar) 9 false (v - 1)
    else atMost3 10 (setCell board p.1 p.2 secondPlayerChar) 9 false v

/-- The 3x3 position `o _ _ / x o x / _ x _`, in which `o` at row 2, column 2 wins at once. -/
def delayedWin : Board :=
  ofRows [['o', emptyChar, emptyChar], ['x', 'o', 'x'], [emptyChar, 'x', emptyChar]]

/-! ## findRandom.c -/

/-- The array `positions` filled by the scan of `findRandom`, in the order it is filled;
`count` is its length. -/
def findPositions (board : Board) (size : Nat) (toFind : Char) : List (Nat × Nat) :=
  (List.range size).flatMap fun i =>
    ((List.range size).filter fun j => board i j == toFind).map fun j => (i, j)

/-- The call `findRandom(board, size, &x, &y, toFind)`: the returned flag and the values of
`*x` and `*y` afterwards. `x` and `y` are the values before the call, `r` is the value that
`rand()` returns when it is called. -/
def findRandom (board : Board) (size : Nat) (x y : Nat) (toFind : Char) (r : Nat) :
    Bool × Nat × Nat :=
  let positions := findPositions board size toFind
  let count := positions.length
  if count = 0 then (false, x, y)
  else
    let randomIndex := r % count
    (true, (positions.getD randomIndex (0, 0)).1, (positions.getD randomIndex (0, 0)).2)

/-- The call `findRandomXO(board, size, &x1, &y1, &x2, &y2)`: the returned flag, then
(`*x1`, `*y1`) and (`*x2`, `*y2`) afterwards. `r1` and `r2` are the values of `rand()` in
the first and in the second call of `findRandom`. -/
def findRandomXO (board : Board) (size : Nat) (x1 y1 x2 y2 : Nat) (r1 r2 : Nat) :
    Bool × (Nat × Nat) × (Nat × Nat) :=
  let res1 := findRandom board size x1 y1 firstPlayerChar r1
  let res2 := findRandom board size x2 y2 secondPlayerChar r2
  (res1.1 && res2.1, (res1.2.1, res1.2.2), (res2.2.1, res2.2.2))

/-! ## main.c: the game session -/

inductive gameStates
  | mainMenu
  | game
  | options
  | gameResult
  deriving DecidableEq

/-- The global variables of `main.c` and `fieldController.c` that the game logic uses. -/
structure Session where
  field : Board
  fieldSize : Nat
  singlePlayerFlag : Bool
  customModeFlag : Bool
  movesToNextRemoval : Int
  currentState : gameStates
  lastWinner : Char
  activeCellX : Int
  activeCellY : Int
  playerFlag : Bool
  isGameToContinue : Bool

/-- A call made while an input event is handled, with the arguments it receives. -/
inductive Call
  | computerMove (board : Board) (size : Nat)
  | findRandomXO (board : Board) (size : Nat)

/-- The effect of handling one input event: the session afterwards, `none` when a write
or read outside the field array happens, and the calls made on the way. -/
structure StepResult where
  next : Option Session
  calls : List Call

/-- The key codes of line feed and carriage return. -/
def lineFeed : Char := Char.ofNat 10

def carriageReturn : Char := Char.ofNat 13

/-- The function `clearField`. -/
def clearField (field : Board) : Board :=
  fun i j => if i < maxFieldSize ∧ j < maxFieldSize then emptyChar else field i j

/-- The function `setupNewGame`. -/
def setupNewGame (s : Session) : Session :=
  { s with
    field := clearField s.field
    isGameToContinue := false
    playerFlag := true
    activeCellX := 0
    activeCellY := 0 }

/-- The state changes of `drawGame` (drawing left out): when `checkWin` reports a result,
the result is stored, the state becomes `gameResult` and `winScreen` sets the active cell
to (-1, -1). -/
def drawGame (s : Session) : Session :=
  let winner := checkWin s.field s.fieldSize
  if winner ≠ emptyChar then
    { s with lastWinner := winner, currentState := gameStates.gameResult,
             activeCellX := -1, activeCellY := -1 }
  else s

/-- The function `computersTurn`. -/
def computersTurn (s : Session) : StepResult :=
  let s1 := { s with playerFlag := !s.playerFlag }
  let s2 := drawGame s1
  { calls := [Call.computerMove s2.field s2.fieldSize]
    next := (ComputerMove s2.field s2.fieldSize).map fun board =>
      { s2 with field := board, playerFlag := !s2.playerFlag } }

/-- The removal branch of `gameInputEvent`: `findRandomXO` is called with the
uninitialised locals `x1`, `y1`, `x2`, `y2` (their values are only read after a successful
call, which has set all four) and, on success, `field[y1][x1]` and `field[y2][x2]` are
cleared. -/
def removalStep (field : Board) (fieldSize : Nat) (r1 r2 : Nat) : Board :=
  let res := findRandomXO field fieldSize 0 0 0 0 r1 r2
  if res.1 then
    setCell (setCell field res.2.1.2 res.2.1.1 emptyChar) res.2.2.2 res.2.2.1 emptyChar
  else field

/-- The custom-mode block of `gameInputEvent` after a successful placement: the field and
`movesToNextRemoval` afterwards and the calls made. -/
def customModeStep (field : Board) (fieldSize : Nat) (singlePlayerFlag : Bool)
    (movesToNextRemoval : Int) (r1 r2 : Nat) : Board × Int × List Call :=
  if movesToNextRemoval ≤ -1 then
    (field, (if singlePlayerFlag then (r1 % 3 + 2 : Int) else (r1 % 3 + 2) * 2) - 1, [])
  else if movesToNextRemoval = 0 then
    (removalStep field fieldSize r1 r2, movesToNextRemoval - 1,
      [Call.findRandomXO field fieldSize])
  else (field, movesToNextRemoval - 1, [])

/-- The branch of `gameInputEvent` for line feed and carriage return. -/
def confirmPlacement (s : Session) (r1 r2 : Nat) : StepResult :=
  if s.activeCellX < 0 ∨ s.activeCellY < 0 ∨
      (maxFieldSize : Int) ≤ s.activeCellX ∨ (maxFieldSize : Int) ≤ s.activeCellY then
    { next := none, calls := [] }
  else
    let placed := placeChar s.field s.activeCellX.toNat s.activeCellY.toNat
      (if s.playerFlag then firstPlayerChar else secondPlayerChar)
    let isFree := placed.1
    let custom :=
      if isFree && s.customModeFlag then
        customModeStep placed.2 s.fieldSize s.singlePlayerFlag s.movesToNextRemoval r1 r2
      else (placed.2, s.movesToNextRemoval, [])
    let s1 := { s with isGameToContinue := true, field := custom.1,
                       movesToNextRemoval := custom.2.1 }
    if s.singlePlayerFlag && isFree then
      { next := (computersTurn s1).next, calls := custom.2.2 ++ (computersTurn s1).calls }
    else
      { next := some { s1 with playerFlag := if isFree then !s1.playerFlag else s1.playerFlag }
        calls := custom.2.2 }

/-- The function `gameInputEvent` for the received byte `key`; `r1` and `r2` are the values
returned by the first and the second call of `rand()`, if they are made. -/
def gameInputEvent (s : Session) (key : Char) (r1 r2 : Nat) : StepResult :=
  if key = 'a' then
    { next := some { s with activeCellX :=
        if s.activeCellX - 1 < 0 then 0 else s.activeCellX - 1 }, calls := [] }
  else if key = 'd' then
    { next := some { s with activeCellX :=
        if s.activeCellX + 1 > (s.fieldSize : Int) - 1 then (s.fieldSize : Int) - 1
        else s.activeCellX + 1 }, calls := [] }
  else if key = 'w' then
    { next := some { s with activeCellY :=
        if s.activeCellY - 1 < 0 then 0 else s.activeCellY - 1 }, calls := [] }
  else if key = 's' then
    { next := some { s with activeCellY :=
        if s.activeCellY + 1 > (s.fieldSize : Int) - 1 then (s.fieldSize : Int) - 1
        else s.activeCellY + 1 }, calls := [] }
  else if key = lineFeed ∨ key = carriageReturn then confirmPlacement s r1 r2
  else if key = 'q' then
    { next := some { s with currentState := gameStates.mainMenu }, calls := [] }
  else { next := some s, calls := [] }

/-- The occupied cells of the region. -/
def occupiedCells (board : Board) (size : Nat) : Finset (Nat × Nat) :=
  (Finset.range size ×ˢ Finset.range size).filter fun p => board p.1 p.2 ≠ emptyChar

/-- The number of occupied cells of the region. -/
def occupiedCount (board : Board) (size : Nat) : Nat :=
  (occupiedCells board size).card

/-- The number of cells of the region that hold `m`. -/
def markCount (board : Board) (size : Nat) (m : Char) : Nat :=
  ((Finset.range size ×ˢ Finset.range size).filter fun p => board p.1 p.2 = m).card

/-! ## Sessions used as concrete inputs -/

/-- A 3x3 board with `x` at row 0, column 1 and `o` in the centre. -/
def offDiagonal : Board :=
  ofRows [[emptyChar, 'x', emptyChar], [emptyChar, 'o', emptyChar]]

/-- A two-player 3x3 session in custom mode with the removal due: the board is
`offDiagonal`, it is the turn of `x` and the cursor is on row 0, column 2. -/
def removalDue : Session :=
  { field := offDiagonal, fieldSize := 3, singlePlayerFlag := false, customModeFlag := true,
    movesToNextRemoval := 0, currentState := gameStates.game, lastWinner := emptyChar,
    activeCellX := 2, activeCellY := 0, playerFlag := true, isGameToContinue := true }

/-- The 3x3 board `x x o / o o x / x o _`. -/
def oneLeft : Board :=
  ofRows [['x', 'x', 'o'], ['o', 'o', 'x'], ['x', 'o', emptyChar]]

/-- A single-player 3x3 session without custom mode: the board is `oneLeft`, it is the turn
of `x` and the cursor is on the last free cell, row 2, column 2. -/
def lastCell : Session :=
  { field := oneLeft, fieldSize := 3, singlePlayerFlag := true, customModeFlag := false,
    movesToNextRemoval := -1, currentState := gameStates.game, lastWinner := emptyChar,
    activeCellX := 2, activeCellY := 2, playerFlag := true, isGameToContinue := true }

/-- A 3x3 session in the main menu, before a game is started. -/
def idle3 : Session :=
  { field := emptyBoard, fieldSize := 3, singlePlayerFlag := false, customModeFlag := false,
    movesToNextRemoval := -1, currentState := gameStates.mainMenu, lastWinner := emptyChar,
    activeCellX := 0, activeCellY := 0, playerFlag := true, isGameToContinue := false }

/-- The entry "New 1p" of the main menu (case 3 of `mainMenuInputEvent`). -/
def newSinglePlayerGame (s : Session) : Session :=
  { setupNewGame s with singlePlayerFlag := true, currentState := gameStates.game }

/-- One received byte while the state is `game`: `HAL_UART_RxCpltCallback` calls
`gameInputEvent`, then the main loop redraws with `drawGame`. -/
def gameEvent (s : Session) (key : Char) (r1 r2 : Nat) : Option Session :=
  if s.currentState = gameStates.game then (gameInputEvent s key r1 r2).next.map drawGame
  else none

/-- A sequence of received bytes handled in the state `game`, with `rand()` returning 0. -/
def playKeys : Session → List Char → Option Session
  | s, [] => some s
  | s, key :: rest =>
    match gameEvent s key 0 0 with
    | none => none
    | some s' => playKeys s' rest

/-- A single-player 3x3 session in the state `game`, without custom mode, with `x` to move. -/
def stage (board : Board) (cursorX cursorY : Int) (continued : Bool) : Session :=
  { field := board, fieldSize := 3, singlePlayerFlag := true, customModeFlag := false,
    movesToNextRemoval := -1, currentState := gameStates.game, lastWinner := emptyChar,
    activeCellX := cursorX, activeCellY := cursorY, playerFlag := true,
    isGameToContinue := continued }

/-- The boards of a single-player 3x3 game: `x` on (0,0), `o` on (1,1), `x` on (0,1), `o` on
(0,2), `x` on (2,0), `o` on (1,0), `x` on (1,2), `o` on (2,1), `x` on (2,2). -/
def game0 : Board := clearField emptyBoard

def game1 : Board := setCell game0 0 0 firstPlayerChar

def game2 : Board := setCell game1 1 1 secondPlayerChar

def game3 : Board := setCell game2 0 1 firstPlayerChar

def game4 : Board := setCell game3 0 2 secondPlayerChar

def game5 : Board := setCell game4 2 0 firstPlayerChar

def game6 : Board := setCell game5 1 0 secondPlayerChar

def game7 : Board := setCell game6 1 2 firstPlayerChar

def game8 : Board := setCell game7 2 1 secondPlayerChar

def game9 : Board := setCell game8 2 2 firstPlayerChar

/-- The keys of that game up to the last placement: confirm, right, confirm, left, down,
down, confirm, up, right, right, confirm, down. -/
def drawnGameKeys : List Char :=
  [lineFeed, 'd', lineFeed, 'a', 's', 's', lineFeed, 'w', 'd', 'd', lineFeed, 's']

/-- A two-player 3x3 session in custom mode whose removal counter is not armed: as
`removalDue`, with `movesToNextRemoval` at -1. -/
def armingDue : Session :=
  { removalDue with movesToNextRemoval := -1 }

/-- A two-player 3x3 session in custom mode with two placements left before the removal. -/
def removalAhead : Session :=
  { removalDue with movesToNextRemoval := 2 }

/-- The 3x3 board `x x _ / o o _ / _ _ _`. -/
def twoInRows : Board := ofRows [['x', 'x'], ['o', 'o']]

/-- The calls `placeChar(x, y, m)` for the marks `m` of a list, one after the other on the
same cell: the returned flags in order and the field after the last call. -/
def placeAll (field : Board) (x y : Nat) : List Char → List Bool × Board
  | [] => ([], field)
  | m :: rest =>
    ((placeChar field x y m).1 :: (placeAll (placeChar field x y m).2 x y rest).1,
      (placeAll (placeChar field x y m).2 x y rest).2)

/-- The sessions reached from `start` by calls of `gameInputEvent` with keys satisfying
`allowed` (with any values of `rand()`) and by redraws of the main loop (`drawGame`). A
call that leaves the arrays has no successor here; `GameReaches` follows such calls. -/
inductive ReachesBy (allowed : Char → Prop) (start : Session) : Session → Prop
  | start : ReachesBy allowed start start
  | input (s s' : Session) (key : Char) (r1 r2 : Nat) :
      ReachesBy allowed start s → allowed key →
      (gameInputEvent s key r1 r2).next = some s' → ReachesBy allowed start s'
  | redraw (s : Session) : ReachesBy allowed start s → ReachesBy allowed start (drawGame s)


/-- A 4x4 board whose only marks are `x` on the short diagonal (0,1), (1,2), (2,3). -/
def shortDiagonal : Board :=
  ofRows [[emptyChar, 'x'], [emptyChar, emptyChar, 'x'], [emptyChar, emptyChar, emptyChar, 'x']]

/-- The board with rows and columns exchanged. -/
def transpose (board : Board) : Board :=
  fun i j => board j i

/-- A 3x3 position with `x` to move: `x` wins at once on row 2, column 2, and the earlier
move to row 0, column 0 leaves `o` without a defence. -/
def doubleThreat : Board :=
  ofRows [[emptyChar, 'o'], [emptyChar, emptyChar, 'o'], ['x', 'x']]

/-- The scores that `Minimax` can produce at depth `d`: 0, or `10 - k` (from a win of `o`),
or `-10 - k` (from a win of `x`), for some `k` from 0 to `d`. -/
def scoreShape (d r : Int) : Prop :=
  r = 0 ∨ ∃ k : Int, 0 ≤ k ∧ k ≤ d ∧ (r = 10 - k ∨ r = -10 - k)

/-! ## The assignments made by `Minimax` -/

/-- One assignment `board[row][col] = after` made inside `Minimax`: `byMaximizer` is the
`isMaximizing` flag of the call that makes it, `before` the content of the cell just
before it. -/
structure CellWrite where
  byMaximizer : Bool
  row : Nat
  col : Nat
  before : Char
  after : Char

/-- The maximizing loop of `Minimax` as `maxLoop`, returning also the assignments made, in
order: the placement of `o`, the assignments of the recursive call, the restoring
assignment. -/
def maxLoopWrites (call : Board → Int → Int → Option (Int × Board × List CellWrite))
    (beta : Int) :
    List (Nat × Nat) → Board → Int → Int → Option (Int × Board × List CellWrite)
  | [], board, bestScore, _ => some (bestScore, board, [])
  | (x, y) :: rest, board, bestScore, alpha =>
    match call (setCell board x y secondPlayerChar) alpha beta with
    | none => none
    | some (score, board1, inner) =>
      let bestScore := max bestScore score
      let board2 := setCell board1 x y emptyChar
      let alpha := max alpha bestScore
      let made : List CellWrite :=
        { byMaximizer := true, row := x, col := y, before := board x y,
          after := secondPlayerChar } :: inner ++
        [{ byMaximizer := true, row := x, col := y, before := board1 x y,
           after := emptyChar }]
      if beta ≤ alpha then some (bestScore, board2, made)
      else
        match maxLoopWrites call beta rest board2 bestScore alpha with
        | none => none
        | some (result, board3, later) => some (result, board3, made ++ later)

/-- The minimizing loop of `Minimax` as `minLoop`, returning also the assignments made. -/
def minLoopWrites (call : Board → Int → Int → Option (Int × Board × List CellWrite))
    (alpha : Int) :
    List (Nat × Nat) → Board → Int → Int → Option (Int × Board × List CellWrite)
  | [], board, bestScore, _ => some (bestScore, board, [])
  | (x, y) :: rest, board, bestScore, beta =>
    match call (setCell board x y firstPlayerChar) alpha beta with
    | none => none
    | some (score, board1, inner) =>
      let bestScore := min bestScore score
      let board2 := setCell board1 x y emptyChar
      let beta := min beta bestScore
      let made : List CellWrite :=
        { byMaximizer := false, row := x, col := y, before := board x y,
          after := firstPlayerChar } :: inner ++
        [{ byMaximizer := false, row := x, col := y, before := board1 x y,
           after := emptyChar }]
      if beta ≤ alpha then some (bestScore, board2, made)
      else
        match minLoopWrites call alpha rest board2 bestScore beta with
        | none => none
        | some (result, board3, later) => some (result, board3, made ++ later)

/-- The function `Minimax` as above, returning also the list of all assignments to cells
of the board made during the call, in order. -/
def MinimaxWrites :
    Nat → Board → Nat → Int → Bool → Int → Int → Option (Int × Board × List CellWrite)
  | 0, _, _, _, _, _, _ => none
  | fuel + 1, board, size, depth, isMaximizing, alpha, beta =>
    let gameStatus := checkWin board size
    let score := statusScore gameStatus
    if score = 10 ∨ score = -10 then some (score - depth, board, [])
    else if depth = 0 ∨ isDraw board size = true then some (0, board, [])
    else
      let moves := GetAvailableMoves board size
      if isMaximizing then
        maxLoopWrites (fun b a be => MinimaxWrites fuel b size (depth - 1) false a be) beta
          moves board (-1000) alpha
      else
        minLoopWrites (fun b a be => MinimaxWrites fuel b size (depth - 1) true a be) alpha
          moves board 1000 beta

/-- An assignment inside the region that either puts the mark of the side that makes it
(`o` for the maximizing side, `x` for the minimizing side) on an empty cell, or empties a
cell holding that mark. -/
def placesOrRestores (size : Nat) (w : CellWrite) : Prop :=
  w.row < size ∧ w.col < size ∧
    ((w.before = emptyChar ∧
        w.after = (if w.byMaximizer then secondPlayerChar else firstPlayerChar)) ∨
      (w.before = (if w.byMaximizer then secondPlayerChar else firstPlayerChar) ∧
        w.after = emptyChar))

/-! ## minimax.c with the arithmetic of `int` -/

/-- The value that a 32-bit `int` holds when an operation on `int` values has the
mathematical result `n`: the number in the range from -2147483648 to 2147483647 that
differs from `n` by a multiple of 2^32. -/
def wrapInt (n : Int) : Int :=
  (n + 2147483648) % 4294967296 - 2147483648

/-- The function `Minimax` with its two subtractions, `score - depth` and `depth - 1`, done
in 32-bit `int`. The comparisons and the choice of the larger or smaller score cannot leave
the range. The first argument bounds the nesting of recursive calls, as in `Minimax`. -/
def Minimax32 : Nat → Board → Nat → Int → Bool → Int → Int → Option (Int × Board)
  | 0, _, _, _, _, _, _ => none
  | fuel + 1, board, size, depth, isMaximizing, alpha, beta =>
    let gameStatus := checkWin board size
    let score := statusScore gameStatus
    if score = 10 ∨ score = -10 then some (wrapInt (score - depth), board)
    else if depth = 0 ∨ isDraw board size = true then some (0, board)
    else
      let moves := GetAvailableMoves board size
      if isMaximizing then
        maxLoop (fun b a be => Minimax32 fuel b size (wrapInt (depth - 1)) false a be) beta
          moves board (-1000) alpha
      else
        minLoop (fun b a be => Minimax32 fuel b size (wrapInt (depth - 1)) true a be) alpha
          moves board 1000 beta

/-! ## main.c: events that reach outside the field array

`field[y][x]` is the byte at offset `maxFieldSize * y + x` from `field[0][0]`. With an index
of -1 this byte can lie before the array: `ComputerMove` writes `board[-1][-1]` when it
found no move, and `placeChar` reads and writes `field[activeCellY][activeCellX]` with the
active cell at -1 after a finished game. The functions below follow the program through
these events. The bytes before the array belong to other objects of the program; they are
taken to be none of the variables of `Session`, so that a write to them changes no field of
the session, and the byte read from them is an input, `stray`. -/

/-- The function `ComputerMove`, the write through the initial `bestMove = { -1, -1 }`
included: that write goes to the byte at offset -6, before the array, and the cells of the
array stay as the loop left them. -/
def ComputerMoveFlat (board : Board) (size : Nat) : Board :=
  let moves := GetAvailableMoves board size
  let maxDepth := maxDepthOf size
  match rootLoop (fun b => Minimax (size * size + 1) b size maxDepth false (-1000) 1000)
      moves board (-1000) none with
  | some (board1, some (x, y)) => setCell board1 x y secondPlayerChar
  | some (board1, none) => board1
  | none => board

/-- The call `placeChar(x, y, toPlace)` for any `int` values of `x` and `y`. An offset from
0 to 24 is the cell in row `offset / 5`, column `offset % 5` of the array; for any other
offset the byte read is `stray` and no cell of the array is written. -/
def placeCharFlat (field : Board) (x y : Int) (toPlace stray : Char) : Bool × Board :=
  let offset := (maxFieldSize : Int) * y + x
  if 0 ≤ offset ∧ offset < (maxFieldSize : Int) * maxFieldSize then
    placeChar field (offset % maxFieldSize).toNat (offset / maxFieldSize).toNat toPlace
  else (stray == emptyChar, field)

/-- The function `computersTurn`, followed through a call of `ComputerMove` that finds no
move. -/
def computersTurnFlat (s : Session) : Session :=
  let s1 := { s with playerFlag := !s.playerFlag }
  let s2 := drawGame s1
  { s2 with field := ComputerMoveFlat s2.field s2.fieldSize, playerFlag := !s2.playerFlag }

/-- The branch of `gameInputEvent` for line feed and carriage return, for any position of
the active cell. -/
def confirmPlacementFlat (s : Session) (r1 r2 : Nat) (stray : Char) : Session :=
  let placed := placeCharFlat s.field s.activeCellX s.activeCellY
    (if s.playerFlag then firstPlayerChar else secondPlayerChar) stray
  let isFree := placed.1
  let custom :=
    if isFree && s.customModeFlag then
      customModeStep placed.2 s.fieldSize s.singlePlayerFlag s.movesToNextRemoval r1 r2
    else (placed.2, s.movesToNextRemoval, [])
  let s1 := { s with isGameToContinue := true, field := custom.1,
                     movesToNextRemoval := custom.2.1 }
  if s.singlePlayerFlag && isFree then computersTurnFlat s1
  else { s1 with playerFlag := if isFree then !s1.playerFlag else s1.playerFlag }

/-- The function `gameInputEvent` for the received byte `key`, as a total function: the
session after the call, whether or not the call stays inside the field array. -/
def gameInputEventFlat (s : Session) (key : Char) (r1 r2 : Nat) (stray : Char) : Session :=
  if key = 'a' then
    { s with activeCellX := if s.activeCellX - 1 < 0 then 0 else s.activeCellX - 1 }
  else if key = 'd' then
    { s with activeCellX :=
        if s.activeCellX + 1 > (s.fieldSize : Int) - 1 then (s.fieldSize : Int) - 1
        else s.activeCellX + 1 }
  else if key = 'w' then
    { s with activeCellY := if s.activeCellY - 1 < 0 then 0 else s.activeCellY - 1 }
  else if key = 's' then
    { s with activeCellY :=
        if s.activeCellY + 1 > (s.fieldSize : Int) - 1 then (s.fieldSize : Int) - 1
        else s.activeCellY + 1 }
  else if key = lineFeed ∨ key = carriageReturn then confirmPlacementFlat s r1 r2 stray
  else if key = 'q' then { s with currentState := gameStates.mainMenu }
  else s


/-! ## main.c: the menus and the event loop -/

/-- The globals of main.c used by the input handlers: those of `Session`, the selected
buttons of the main menu and of the options menu, the labels of the options menu (a
two-dimensional `char` array, rows padded with the empty character) and the theme flag. -/
structure App where
  session : Session
  activeMainButton : Int
  activeOptionButton : Int
  optionsButtons : Nat → Nat → Char
  invertThemeFlag : Bool

def mainMenuButtonsCount : Int := 4

def optionsButtonsCount : Int := 5

def sizeButtonsCount : Int := 3

/-- The initial value of `optionsButtons`. -/
def initialOptionsButtons : Nat → Nat → Char :=
  ofRows ["+5x5".toList, "-4x4".toList, "-3x3".toList, "-Custom Rules".toList,
    "-Light theme".toList]

/-- The state at start-up: the initial values of the globals. The field, `lastWinner` and
the rest of static storage start as zero. -/
def initialApp : App :=
  { session :=
      { field := emptyBoard, fieldSize := maxFieldSize, singlePlayerFlag := false,
        customModeFlag := false, movesToNextRemoval := -1,
        currentState := gameStates.mainMenu, lastWinner := emptyChar, activeCellX := 0,
        activeCellY := 0, playerFlag := true, isGameToContinue := false }
    activeMainButton := 2
    activeOptionButton := 1
    optionsButtons := initialOptionsButtons
    invertThemeFlag := false }

/-- The function `winScreen`, without the drawing. -/
def winScreen (s : Session) : Session :=
  { s with activeCellX := -1, activeCellY := -1 }

/-- The function `mainMenuInputEvent` for the received byte `key`. -/
def mainMenuInputEvent (a : App) (key : Char) : App :=
  if key = 'w' then
    { a with activeMainButton :=
        if a.activeMainButton - 1 < 1 then 1 else a.activeMainButton - 1 }
  else if key = 's' then
    { a with activeMainButton :=
        if a.activeMainButton + 1 > mainMenuButtonsCount then mainMenuButtonsCount
        else a.activeMainButton + 1 }
  else if key = lineFeed ∨ key = carriageReturn then
    if a.activeMainButton = 1 then
      if a.session.isGameToContinue then
        { a with session := { a.session with currentState := gameStates.game } }
      else a
    else if a.activeMainButton = 2 then
      { a with session := { setupNewGame a.session with
          singlePlayerFlag := false, currentState := gameStates.game } }
    else if a.activeMainButton = 3 then
      { a with session := { setupNewGame a.session with
          singlePlayerFlag := true, currentState := gameStates.game } }
    else if a.activeMainButton = 4 then
      { a with session := { a.session with currentState := gameStates.options } }
    else a
  else a

/-- The loop `for (i = 0; i < sizeButtonsCount; i++) optionsButtons[i][0] = '-'`. -/
def clearSizeMarks (buttons : Nat → Nat → Char) : Nat → Nat → Char :=
  (List.range sizeButtonsCount.toNat).foldl (fun b i => setCell b i 0 '-') buttons

/-- The statement `optionsButtons[i][0] = optionsButtons[i][0] == '+' ? '-' : '+'`. -/
def toggleMark (buttons : Nat → Nat → Char) (i : Nat) : Nat → Nat → Char :=
  setCell buttons i 0 (if buttons i 0 = '+' then '-' else '+')

/-- The function `optionsInputEvent` for the received byte `key`. The result is `none` when
`optionsButtons[activeOptionButton - 1]` would be read before the start of the array. The
field size is a natural number in this model: the value `optionsButtons[..][1] - '0'` is
computed as an integer and converted. -/
def optionsInputEvent (a : App) (key : Char) : Option App :=
  if key = 'w' then
    some { a with activeOptionButton :=
      if a.activeOptionButton - 1 < 1 then 1 else a.activeOptionButton - 1 }
  else if key = 's' then
    some { a with activeOptionButton :=
      if a.activeOptionButton + 1 > optionsButtonsCount then optionsButtonsCount
      else a.activeOptionButton + 1 }
  else if key = lineFeed ∨ key = carriageReturn then
    if a.activeOptionButton ≤ sizeButtonsCount then
      if a.activeOptionButton - 1 < 0 then none
      else
        let cleared := clearSizeMarks a.optionsButtons
        let index := (a.activeOptionButton - 1).toNat
        let size : Int := ((cleared index 1).toNat : Int) - (('0' : Char).toNat : Int)
        some { a with
          session := { setupNewGame a.session with fieldSize := size.toNat }
          optionsButtons := setCell cleared index 0 '+' }
    else if a.activeOptionButton = optionsButtonsCount - 1 then
      some { a with
        optionsButtons := toggleMark a.optionsButtons (optionsButtonsCount - 2).toNat
        session := { a.session with customModeFlag := !a.session.customModeFlag } }
    else
      some { a with
        optionsButtons := toggleMark a.optionsButtons (optionsButtonsCount - 1).toNat
        invertThemeFlag := !a.invertThemeFlag }
  else if key = 'q' then
    some { a with session := { a.session with currentState := gameStates.mainMenu } }
  else some a

/-- The function `gameResultInputEvent` for the received byte `key`. -/
def gameResultInputEvent (a : App) (key : Char) : App :=
  if key = 'q' then
    { a with session := { a.session with currentState := gameStates.mainMenu } }
  else a

/-- The callback `HAL_UART_RxCpltCallback`: the received byte goes to the handler of the
current state. `r1` and `r2` are the values of `rand()`, if it is called, and `stray` is
the byte before the field array, if it is read. In the state `game` the call of
`gameInputEvent` is followed to its end whether or not it stays inside the field array.
The result is `none` only where `optionsInputEvent` would read before the start of
`optionsButtons`. -/
def inputEvent (a : App) (key : Char) (r1 r2 : Nat) (stray : Char) : Option App :=
  match a.session.currentState with
  | gameStates.mainMenu => some (mainMenuInputEvent a key)
  | gameStates.game => some { a with session := gameInputEventFlat a.session key r1 r2 stray }
  | gameStates.options => optionsInputEvent a key
  | gameStates.gameResult => some (gameResultInputEvent a key)

/-- The redraw of the main loop (the body of `if (isNeedToUpdate)`), without the drawing:
`drawGame` in the state `game`, `winScreen` in the state `gameResult`. -/
def redraw (a : App) : App :=
  match a.session.currentState with
  | gameStates.game => { a with session := drawGame a.session }
  | gameStates.gameResult => { a with session := winScreen a.session }
  | _ => a

/-- The states reached from start-up by received bytes (with any values of `rand()` and of
the byte before the field array) and redraws of the main loop, in any order. A received
byte has no successor only where `inputEvent` is `none`, which happens in no state
reached (`app_invariant`). -/
inductive AppReaches : App → Prop
  | start : AppReaches initialApp
  | input (a a' : App) (key : Char) (r1 r2 : Nat) (stray : Char) :
      AppReaches a → inputEvent a key r1 r2 stray = some a' → AppReaches a'
  | redraw (a : App) : AppReaches a → AppReaches (redraw a)

/-- The options menu with the second button, "4x4", selected. -/
def sizeFourSelected : App :=
  { initialApp with
    session := { initialApp.session with currentState := gameStates.options }
    activeMainButton := 4
    activeOptionButton := 2 }

/-- The state after "4x4" has been confirmed in the options menu. -/
def sizeFourChosen : App :=
  { sizeFourSelected with
    session := { setupNewGame sizeFourSelected.session with fieldSize := 4 }
    optionsButtons := setCell (clearSizeMarks initialOptionsButtons) 1 0 '+' }

/-- A two-player 5x5 game in custom mode after the first placement, with `rand()`
returning 7: `x` is on row 0, column 0 and the removal counter is at 5. -/
def customGameStarted : App :=
  { session :=
      { field := setCell (clearField emptyBoard) 0 0 firstPlayerChar, fieldSize := 5,
        singlePlayerFlag := false, customModeFlag := true, movesToNextRemoval := 5,
        currentState := gameStates.game, lastWinner := emptyChar, activeCellX := 0,
        activeCellY := 0, playerFlag := false, isGameToContinue := true }
    activeMainButton := 2
    activeOptionButton := 4
    optionsButtons := toggleMark initialOptionsButtons 3
    invertThemeFlag := false }
/-- The sessions of one game: those reached from `start` by the bytes that
`HAL_UART_RxCpltCallback` passes to `gameInputEvent`, which it does while the state is
`game`, with any values of `rand()` and of the byte before the array, and by the redraws
of the main loop, `drawGame` in the state `game` and `winScreen` in the state `gameResult`,
in any order. Every byte has a successor. -/
inductive GameReaches (start : Session) : Session → Prop
  | start : GameReaches start start
  | input (s : Session) (key : Char) (r1 r2 : Nat) (stray : Char) :
      GameReaches start s → s.currentState = gameStates.game →
      GameReaches start (gameInputEventFlat s key r1 r2 stray)
  | redraw (s : Session) :
      GameReaches start s → s.currentState = gameStates.game →
      GameReaches start (drawGame s)
  | result (s : Session) :
      GameReaches start s → s.currentState = gameStates.gameResult →
      GameReaches start (winScreen s)

/-- The session after the last placement of the game of `drawnGameKeys`: the human has
filled the board with the ninth mark, the game is a draw and `ComputerMove` has found no
move. -/
def boardFilled : Session :=
  { field := game9, fieldSize := 3, singlePlayerFlag := true, customModeFlag := false,
    movesToNextRemoval := -1, currentState := gameStates.gameResult, lastWinner := 'd',
    activeCellX := -1, activeCellY := -1, playerFlag := true, isGameToContinue := true }

/-- The main menu after "3x3" has been confirmed in the options menu and "New 1p" has been
selected. -/
def sizeThreeChosen : App :=
  { session :=
      { field := clearField emptyBoard, fieldSize := 3, singlePlayerFlag := false,
        customModeFlag := false, movesToNextRemoval := -1,
        currentState := gameStates.mainMenu, lastWinner := emptyChar, activeCellX := 0,
        activeCellY := 0, playerFlag := true, isGameToContinue := false }
    activeMainButton := 3
    activeOptionButton := 3
    optionsButtons := setCell (clearSizeMarks initialOptionsButtons) 2 0 '+'
    invertThemeFlag := false }

/-- The state after a single-player 3x3 game has been started from `sizeThreeChosen` and
played with the keys `drawnGameKeys` and a last confirm, which fills the board. -/
def drawnGamePlayed : App :=
  { sizeThreeChosen with session := boardFilled }

/-! ## Win detection -/

theorem scanLoop_iff (inBounds : Nat → Bool) (cell : Nat → Char) (toCheck : Char) (toWin : Nat)
    (hmono : ∀ i j, i ≤ j → inBounds j = true → inBounds i = true) (hw : 0 < toWin) :
    ∀ fuel adder inRow, inRow < toWin → inRow ≤ adder →
      (∀ j, adder - inRow ≤ j → j < adder → cell j = toCheck) →
      (scanLoop inBounds cell toCheck toWin fuel adder inRow = true ↔
        ∃ s, adder - inRow ≤ s ∧ s + toWin ≤ adder + fuel ∧
          ∀ k, k < toWin → inBounds (s + k) = true ∧ cell (s + k) = toCheck) := by
  intro fuel
  induction fuel with
  | zero =>
    intro adder inRow h1 h2 _
    simp only [scanLoop, Bool.false_eq_true, false_iff]
    rintro ⟨s, hs1, hs2, _⟩
    omega
  | succ fuel ih =>
    intro adder inRow h1 h2 hprev
    unfold scanLoop
    by_cases hb : inBounds adder = true
    · by_cases hc : cell adder = toCheck
      · by_cases he : inRow + 1 = toWin
        · simp only [hb, hc, he, if_true]
          simp only [true_iff]
          refine ⟨adder - inRow, le_refl _, by omega, ?_⟩
          intro k hk
          have hle : adder - inRow + k ≤ adder := by omega
          refine ⟨hmono _ _ hle hb, ?_⟩
          by_cases hlt : adder - inRow + k < adder
          · exact hprev _ (by omega) hlt
          · have : adder - inRow + k = adder := by omega
            rw [this]; exact hc
        · simp only [hb, hc, he, if_true, if_false]
          rw [ih (adder + 1) (inRow + 1) (by omega) (by omega)]
          · constructor
            · rintro ⟨s, hs1, hs2, hs3⟩
              exact ⟨s, by omega, by omega, hs3⟩
            · rintro ⟨s, hs1, hs2, hs3⟩
              exact ⟨s, by omega, by omega, hs3⟩
          · intro j hj1 hj2
            by_cases hlt : j < adder
            · exact hprev j (by omega) hlt
            · have : j = adder := by omega
              rw [this]; exact hc
      · have h0 : ¬ (0 = toWin) := by omega
        simp only [hb, hc, h0, if_true, if_false]
        rw [ih (adder + 1) 0 hw (by omega) (by intro j hj1 hj2; omega)]
        constructor
        · rintro ⟨s, hs1, hs2, hs3⟩
          exact ⟨s, by omega, by omega, hs3⟩
        · rintro ⟨s, hs1, hs2, hs3⟩
          refine ⟨s, ?_, by omega, hs3⟩
          by_contra hlt
          have hk : adder - s < toWin := by omega
          have := (hs3 (adder - s) hk).2
          have e : s + (adder - s) = adder := by omega
          rw [e] at this
          exact hc this
    · simp only [hb, Bool.false_eq_true, if_false, false_iff]
      rintro ⟨s, hs1, hs2, hs3⟩
      by_cases hle : s ≤ adder
      · have hk : adder - s < toWin := by omega
        have := (hs3 (adder - s) hk).1
        have e : s + (adder - s) = adder := by omega
        rw [e] at this
        exact hb this
      · have := (hs3 0 hw).1
        exact hb (hmono adder (s + 0) (by omega) this)

theorem checkWinHorizontally_iff (field : Board) (toCheck : Char) (toWin fieldSize : Nat)
    (hw : 0 < toWin) :
    checkWinHorizontally field toCheck toWin fieldSize = true ↔
      rowLine field fieldSize toWin toCheck := by
  unfold checkWinHorizontally rowLine
  simp only [List.any_eq_true, List.mem_range]
  constructor
  · rintro ⟨y, hy, h⟩
    rw [scanLoop_iff _ _ _ _ (fun _ _ _ _ => rfl) hw fieldSize 0 0 hw (le_refl _)
      (by intro j _ h2; omega)] at h
    obtain ⟨s, _, hs2, hs3⟩ := h
    exact ⟨y, hy, s, by omega, by omega, fun k hk => (hs3 k hk).2⟩
  · rintro ⟨r, hr, c, _, hc, h⟩
    refine ⟨r, hr, ?_⟩
    rw [scanLoop_iff _ _ _ _ (fun _ _ _ _ => rfl) hw fieldSize 0 0 hw (le_refl _)
      (by intro j _ h2; omega)]
    exact ⟨c, by omega, by omega, fun k hk => ⟨rfl, h k hk⟩⟩

theorem checkWinVerticaly_iff (field : Board) (toCheck : Char) (toWin fieldSize : Nat)
    (hw : 0 < toWin) :
    checkWinVerticaly field toCheck toWin fieldSize = true ↔
      colLine field fieldSize toWin toCheck := by
  unfold checkWinVerticaly colLine
  simp only [List.any_eq_true, List.mem_range]
  constructor
  · rintro ⟨x, hx, h⟩
    rw [scanLoop_iff _ _ _ _ (fun _ _ _ _ => rfl) hw fieldSize 0 0 hw (le_refl _)
      (by intro j _ h2; omega)] at h
    obtain ⟨s, _, hs2, hs3⟩ := h
    exact ⟨s, by omega, x, hx, by omega, fun k hk => (hs3 k hk).2⟩
  · rintro ⟨r, _, c, hc, hr, h⟩
    refine ⟨c, hc, ?_⟩
    rw [scanLoop_iff _ _ _ _ (fun _ _ _ _ => rfl) hw fieldSize 0 0 hw (le_refl _)
      (by intro j _ h2; omega)]
    exact ⟨r, by omega, by omega, fun k hk => ⟨rfl, h k hk⟩⟩

theorem leftToRightDiagonally_iff (field : Board) (yStart : Nat) (toCheck : Char)
    (toWin fieldSize : Nat) (hw : 0 < toWin) :
    leftToRightDiagonally field yStart toCheck toWin fieldSize = true ↔
      ∃ xStart < fieldSize, ∃ s, yStart + s + toWin ≤ fieldSize ∧ xStart + s + toWin ≤ fieldSize ∧
        ∀ k < toWin, field (yStart + s + k) (xStart + s + k) = toCheck := by
  unfold leftToRightDiagonally
  simp only [List.any_eq_true, List.mem_range]
  have hmono : ∀ xStart : Nat, ∀ i j : Nat, i ≤ j →
      (!(decide (xStart + j ≥ fieldSize) || decide (yStart + j ≥ fieldSize))) = true →
      (!(decide (xStart + i ≥ fieldSize) || decide (yStart + i ≥ fieldSize))) = true := by
    intro xStart i j hij h
    simp only [Bool.not_eq_true', Bool.or_eq_false_iff, decide_eq_false_iff_not, not_le,
      ge_iff_le] at h ⊢
    omega
  constructor
  · rintro ⟨x, hx, h⟩
    rw [scanLoop_iff _ _ _ _ (hmono x) hw fieldSize 0 0 hw (le_refl _)
      (by intro j _ h2; omega)] at h
    obtain ⟨s, _, hs2, hs3⟩ := h
    have hlast := (hs3 (toWin - 1) (by omega)).1
    simp only [Bool.not_eq_true', Bool.or_eq_false_iff, decide_eq_false_iff_not, not_le,
      ge_iff_le] at hlast
    refine ⟨x, hx, s, by omega, by omega, fun k hk => ?_⟩
    have := (hs3 k hk).2
    simpa [Nat.add_assoc] using this
  · rintro ⟨x, hx, s, h1, h2, h⟩
    refine ⟨x, hx, ?_⟩
    rw [scanLoop_iff _ _ _ _ (hmono x) hw fieldSize 0 0 hw (le_refl _)
      (by intro j _ h2; omega)]
    refine ⟨s, by omega, by omega, fun k hk => ⟨?_, ?_⟩⟩
    · simp only [Bool.not_eq_true', Bool.or_eq_false_iff, decide_eq_false_iff_not, not_le,
        ge_iff_le]
      omega
    · have := h k hk
      simpa [Nat.add_assoc] using this

theorem rightToLeftDiagonally_iff (field : Board) (yStart : Nat) (toCheck : Char)
    (toWin fieldSize : Nat) (hw : 0 < toWin) :
    rightToLeftDiagonally field yStart toCheck toWin fieldSize = true ↔
      ∃ xStart < fieldSize, ∃ s, yStart + s + toWin ≤ fieldSize ∧ s + toWin ≤ xStart + 1 ∧
        ∀ k < toWin, field (yStart + s + k) (xStart - s - k) = toCheck := by
  unfold rightToLeftDiagonally
  simp only [List.any_eq_true, List.mem_reverse, List.mem_range]
  have hmono : ∀ xStart : Nat, ∀ i j : Nat, i ≤ j →
      (!(decide (xStart < j) || decide (yStart + j ≥ fieldSize))) = true →
      (!(decide (xStart < i) || decide (yStart + i ≥ fieldSize))) = true := by
    intro xStart i j hij h
    simp only [Bool.not_eq_true', Bool.or_eq_false_iff, decide_eq_false_iff_not, not_le,
      not_lt, ge_iff_le] at h ⊢
    omega
  constructor
  · rintro ⟨x, hx, h⟩
    rw [scanLoop_iff _ _ _ _ (hmono x) hw fieldSize 0 0 hw (le_refl _)
      (by intro j _ h2; omega)] at h
    obtain ⟨s, _, hs2, hs3⟩ := h
    have hlast := (hs3 (toWin - 1) (by omega)).1
    simp only [Bool.not_eq_true', Bool.or_eq_false_iff, decide_eq_false_iff_not, not_le,
      not_lt, ge_iff_le] at hlast
    refine ⟨x, hx, s, by omega, by omega, fun k hk => ?_⟩
    have := (hs3 k hk).2
    simpa [Nat.add_assoc, Nat.sub_sub] using this
  · rintro ⟨x, hx, s, h1, h2, h⟩
    refine ⟨x, hx, ?_⟩
    rw [scanLoop_iff _ _ _ _ (hmono x) hw fieldSize 0 0 hw (le_refl _)
      (by intro j _ h2; omega)]
    refine ⟨s, by omega, by omega, fun k hk => ⟨?_, ?_⟩⟩
    · simp only [Bool.not_eq_true', Bool.or_eq_false_iff, decide_eq_false_iff_not, not_le,
        not_lt, ge_iff_le]
      omega
    · have := h k hk
      simpa [Nat.add_assoc, Nat.sub_sub] using this


theorem checkWinDiagonaly_iff (field : Board) (toCheck : Char) (toWin fieldSize : Nat)
    (hw : 0 < toWin) :
    checkWinDiagonaly field toCheck toWin fieldSize = true ↔
      (downRightLine field fieldSize toWin toCheck ∨ downLeftLine field fieldSize toWin toCheck) := by
  unfold checkWinDiagonaly downRightLine downLeftLine
  simp only [List.any_eq_true, List.mem_range, Bool.or_eq_true,
    leftToRightDiagonally_iff _ _ _ _ _ hw, rightToLeftDiagonally_iff _ _ _ _ _ hw]
  constructor
  · rintro ⟨y, hy, h | h⟩
    · obtain ⟨x, _, s, h1, h2, h3⟩ := h
      exact Or.inl ⟨y + s, by omega, x + s, by omega, h1, h2, h3⟩
    · obtain ⟨x, hx, s, h1, h2, h3⟩ := h
      refine Or.inr ⟨y + s, by omega, x - s, by omega, h1, by omega, h3⟩
  · rintro (h | h)
    · obtain ⟨r, hr, c, hc, h1, h2, h3⟩ := h
      exact ⟨r, hr, Or.inl ⟨c, hc, 0, by omega, by omega, by simpa using h3⟩⟩
    · obtain ⟨r, hr, c, hc, h1, h2, h3⟩ := h
      exact ⟨r, hr, Or.inr ⟨c, hc, 0, by omega, by omega, by simpa using h3⟩⟩

theorem hasWon_iff (field : Board) (toCheck : Char) (toWin fieldSize : Nat) (hw : 0 < toWin) :
    hasWon field toCheck toWin fieldSize = true ↔ hasLine field fieldSize toWin toCheck := by
  unfold hasWon hasLine
  simp only [Bool.or_eq_true, checkWinHorizontally_iff _ _ _ _ hw,
    checkWinVerticaly_iff _ _ _ _ hw, checkWinDiagonaly_iff _ _ _ _ hw, or_assoc]

theorem toWinOf_pos (fieldSize : Nat) : 0 < toWinOf fieldSize := by
  unfold toWinOf; split <;> omega

theorem isDraw_iff (field : Board) (fieldSize : Nat) :
    isDraw field fieldSize = true ↔
      ∀ y < fieldSize, ∀ x < fieldSize,
        field y x = firstPlayerChar ∨ field y x = secondPlayerChar := by
  unfold isDraw
  simp only [List.all_eq_true, List.mem_range, Bool.not_eq_true', Bool.and_eq_false_iff,
    bne_eq_false_iff_eq]

theorem marks_distinct :
    firstPlayerChar ≠ secondPlayerChar ∧ firstPlayerChar ≠ 'd' ∧ firstPlayerChar ≠ emptyChar ∧
      secondPlayerChar ≠ 'd' ∧ secondPlayerChar ≠ emptyChar ∧ 'd' ≠ emptyChar := by
  decide

theorem checkWin_eq_first_iff (field : Board) (fieldSize : Nat) :
    checkWin field fieldSize = firstPlayerChar ↔
      hasLine field fieldSize (toWinOf fieldSize) firstPlayerChar := by
  rw [← hasWon_iff _ _ _ _ (toWinOf_pos fieldSize)]
  obtain ⟨h1, h2, h3, _, _, _⟩ := marks_distinct
  unfold checkWin
  by_cases hx : hasWon field firstPlayerChar (toWinOf fieldSize) fieldSize = true
  · simp only [hx, if_true]
  · by_cases ho : hasWon field secondPlayerChar (toWinOf fieldSize) fieldSize = true
    · simp only [hx, ho, if_true, if_false, Bool.false_eq_true, iff_false]
      exact fun h => h1 h.symm
    · by_cases hd : isDraw field fieldSize = true
      · simp only [hx, ho, hd, if_true, if_false, Bool.false_eq_true, iff_false]
        exact fun h => h2 h.symm
      · simp only [hx, ho, hd, if_false, Bool.false_eq_true, iff_false]
        exact fun h => h3 h.symm

theorem checkWin_eq_second_iff (field : Board) (fieldSize : Nat) :
    checkWin field fieldSize = secondPlayerChar ↔
      (¬ hasLine field fieldSize (toWinOf fieldSize) firstPlayerChar ∧
        hasLine field fieldSize (toWinOf fieldSize) secondPlayerChar) := by
  rw [← hasWon_iff _ _ _ _ (toWinOf_pos fieldSize), ← hasWon_iff _ _ _ _ (toWinOf_pos fieldSize)]
  obtain ⟨h1, _, _, h4, h5, _⟩ := marks_distinct
  unfold checkWin
  by_cases hx : hasWon field firstPlayerChar (toWinOf fieldSize) fieldSize = true
  · simp only [hx, if_true, not_true_eq_false, false_and, iff_false]
    exact h1
  · by_cases ho : hasWon field secondPlayerChar (toWinOf fieldSize) fieldSize = true
    · simp only [hx, ho, if_true, if_false, Bool.false_eq_true, not_false_eq_true, and_self]
    · by_cases hd : isDraw field fieldSize = true
      · simp only [hx, ho, hd, if_true, if_false, Bool.false_eq_true, and_false, iff_false]
        exact fun h => h4 h.symm
      · simp only [hx, ho, hd, if_false, Bool.false_eq_true, and_false, iff_false]
        exact fun h => h5 h.symm

theorem checkWin_no_line (field : Board) (fieldSize : Nat)
    (hx : ¬ hasLine field fieldSize (toWinOf fieldSize) firstPlayerChar)
    (ho : ¬ hasLine field fieldSize (toWinOf fieldSize) secondPlayerChar) :
    checkWin field fieldSize = if isDraw field fieldSize then 'd' else emptyChar := by
  rw [← hasWon_iff _ _ _ _ (toWinOf_pos fieldSize)] at hx ho
  unfold checkWin
  simp only [hx, ho, Bool.false_eq_true, if_false]

theorem toWinOf_eq (size toWin : Nat)
    (hsize : (size = 3 ∧ toWin = 3) ∨ (size = 4 ∧ toWin = 3) ∨ (size = 5 ∧ toWin = 4)) :
    toWinOf size = toWin := by
  rcases hsize with ⟨h1, h2⟩ | ⟨h1, h2⟩ | ⟨h1, h2⟩ <;> subst h1 <;> subst h2 <;> rfl

/-- C1: for size 3, 4, 5 (run length 3, 3, 4) `checkWin` returns `x` exactly when some row,
column, down-right or down-left diagonal of the region holds `toWin` consecutive `x`, and
returns `o` exactly when there is no such `x` line and there is such an `o` line. No
assumption on the cell contents is needed. -/
theorem checkWin_reports_winner (field : Board) (size toWin : Nat)
    (hsize : (size = 3 ∧ toWin = 3) ∨ (size = 4 ∧ toWin = 3) ∨ (size = 5 ∧ toWin = 4)) :
    (checkWin field size = firstPlayerChar ↔ hasLine field size toWin firstPlayerChar) ∧
    (checkWin field size = secondPlayerChar ↔
      (¬ hasLine field size toWin firstPlayerChar ∧ hasLine field size toWin secondPlayerChar)) := by
  rw [← toWinOf_eq size toWin hsize]
  exact ⟨checkWin_eq_first_iff field size, checkWin_eq_second_iff field size⟩

/-- C1 at the 5x5 board with four `o` in a row: the result is `o`. -/
theorem checkWin_reports_winner_witness :
    ((5 = 3 ∧ 4 = 3) ∨ (5 = 4 ∧ 4 = 3) ∨ (5 = 5 ∧ 4 = 4)) ∧
      checkWin fourInARow 5 = secondPlayerChar :=
  ⟨by decide,
    (checkWin_reports_winner fourInARow 5 4 (by decide)).2.mpr ⟨by decide, by decide⟩⟩

/-- C2: for size 3, 4, 5 and a well-formed board on which neither mark has a line of
`toWin` cells, `checkWin` returns `d` when every cell of the region is occupied and the
empty character when some cell of the region is empty. -/
theorem checkWin_draw_or_ongoing (field : Board) (size toWin : Nat)
    (hsize : (size = 3 ∧ toWin = 3) ∨ (size = 4 ∧ toWin = 3) ∨ (size = 5 ∧ toWin = 4))
    (hwf : wellFormed field size)
    (hx : ¬ hasLine field size toWin firstPlayerChar)
    (ho : ¬ hasLine field size toWin secondPlayerChar) :
    ((∀ i < size, ∀ j < size, field i j ≠ emptyChar) → checkWin field size = 'd') ∧
    ((∃ i < size, ∃ j < size, field i j = emptyChar) → checkWin field size = emptyChar) := by
  rw [← toWinOf_eq size toWin hsize] at hx ho
  rw [checkWin_no_line field size hx ho]
  obtain ⟨_, _, h3, _, h5, _⟩ := marks_distinct
  constructor
  · intro hfull
    have hd : isDraw field size = true := by
      rw [isDraw_iff]
      intro y hy x hx'
      rcases hwf y hy x hx' with h | h | h
      · exact absurd h (hfull y hy x hx')
      · exact Or.inl h
      · exact Or.inr h
    simp only [hd, if_true]
  · rintro ⟨i, hi, j, hj, he⟩
    have hd : ¬ isDraw field size = true := by
      rw [isDraw_iff]
      intro h
      rcases h i hi j hj with h | h
      · exact h3 (h.symm.trans he)
      · exact h5 (h.symm.trans he)
    simp only [hd, Bool.false_eq_true, if_false]

/-- C2 at a full 3x3 board without a line: the result is a draw. -/
theorem checkWin_draw_or_ongoing_witness :
    wellFormed fullNoLine 3 ∧ checkWin fullNoLine 3 = 'd' :=
  ⟨by decide,
    (checkWin_draw_or_ongoing fullNoLine 3 3 (by decide) (by decide) (by decide)
      (by decide)).1 (by decide)⟩

/-- C3: for size 3, 4, 5, when both `x` and `o` have a line of `toWin` cells, `checkWin`
returns `x`, whether or not the board is full. -/
theorem checkWin_first_player_priority (field : Board) (size toWin : Nat)
    (hsize : (size = 3 ∧ toWin = 3) ∨ (size = 4 ∧ toWin = 3) ∨ (size = 5 ∧ toWin = 4))
    (hx : hasLine field size toWin firstPlayerChar)
    (_ho : hasLine field size toWin secondPlayerChar) :
    checkWin field size = firstPlayerChar := by
  rw [← toWinOf_eq size toWin hsize] at hx
  exact (checkWin_eq_first_iff field size).mpr hx

/-- C3 at a 3x3 board with a row of `x` above a row of `o`. -/
theorem checkWin_first_player_priority_witness :
    hasLine bothLines 3 3 firstPlayerChar ∧ hasLine bothLines 3 3 secondPlayerChar ∧
      checkWin bothLines 3 = firstPlayerChar :=
  ⟨by decide, by decide,
    checkWin_first_player_priority bothLines 3 3 (by decide) (by decide) (by decide)⟩

/-! ## Placement -/

theorem setCell_same (board : Board) (i j : Nat) (c : Char) : setCell board i j c i j = c := by
  simp [setCell]

theorem setCell_other (board : Board) (i j i' j' : Nat) (c : Char) (h : i' ≠ i ∨ j' ≠ j) :
    setCell board i j c i' j' = board i' j' := by
  unfold setCell
  rw [if_neg]
  rintro ⟨h1, h2⟩
  rcases h with h | h
  · exact h h1
  · exact h h2

theorem setCell_self (board : Board) (i j : Nat) : setCell board i j (board i j) = board := by
  funext i' j'
  unfold setCell
  split
  · next h => rw [h.1, h.2]
  · rfl

/-- C4: if `field[y][x]` is empty, `placeChar(x, y, mark)` returns true, the cell holds
`mark` afterwards and every other cell is unchanged; if it is not empty, `placeChar`
returns false and the board is unchanged. -/
theorem placeChar_spec (field : Board) (x y : Nat) (mark : Char) :
    (field y x = emptyChar →
      (placeChar field x y mark).1 = true ∧ (placeChar field x y mark).2 y x = mark ∧
        ∀ i j, (i ≠ y ∨ j ≠ x) → (placeChar field x y mark).2 i j = field i j) ∧
    (field y x ≠ emptyChar →
      (placeChar field x y mark).1 = false ∧ (placeChar field x y mark).2 = field) := by
  constructor
  · intro h
    simp only [placeChar, h, beq_self_eq_true, if_true, true_and]
    exact ⟨setCell_same _ _ _ _, fun i j hij => setCell_other _ _ _ _ _ _ hij⟩
  · intro h
    have hb : (field y x == emptyChar) = false := beq_false_of_ne h
    simp only [placeChar, hb, Bool.false_eq_true, if_false, true_and]
    exact setCell_self field y x

/-- C4 on the 3x3 board with `x` in the corner: placing `o` at the free centre succeeds,
placing `o` on the corner is refused and changes nothing. -/
theorem placeChar_spec_witness :
    ((placeChar cornerTaken 1 1 'o').1 = true ∧ (placeChar cornerTaken 1 1 'o').2 1 1 = 'o') ∧
    ((placeChar cornerTaken 0 0 'o').1 = false ∧ (placeChar cornerTaken 0 0 'o').2 = cornerTaken) :=
  ⟨⟨((placeChar_spec cornerTaken 1 1 'o').1 (by decide)).1,
      ((placeChar_spec cornerTaken 1 1 'o').1 (by decide)).2.1⟩,
    (placeChar_spec cornerTaken 0 0 'o').2 (by decide)⟩

/-! ## Terminal scores of `Minimax` -/

theorem statusScore_cases (c : Char) :
    (c = secondPlayerChar ∧ statusScore c = 10) ∨
    (c = firstPlayerChar ∧ statusScore c = -10) ∨
    (c ≠ secondPlayerChar ∧ c ≠ firstPlayerChar ∧ statusScore c = 0) := by
  unfold statusScore
  by_cases h1 : c = secondPlayerChar
  · exact Or.inl ⟨h1, by simp [h1]⟩
  · by_cases h2 : c = firstPlayerChar
    · exact Or.inr (Or.inl ⟨h2, by rw [if_neg h1, if_pos h2]⟩)
    · exact Or.inr (Or.inr ⟨h1, h2, by simp [h1, h2]⟩)

/-- C9: `Minimax` returns 0 when `checkWin` reports a draw, at any depth, and returns 0
when `depth` is 0 and `checkWin` reports an ongoing game. -/
theorem Minimax_zero_score (fuel : Nat) (board : Board) (size : Nat) (depth : Int)
    (isMaximizing : Bool) (alpha beta : Int) :
    (checkWin board size = 'd' →
      Minimax (fuel + 1) board size depth isMaximizing alpha beta = some (0, board)) ∧
    (depth = 0 → checkWin board size = emptyChar →
      Minimax (fuel + 1) board size depth isMaximizing alpha beta = some (0, board)) := by
  obtain ⟨_, h2, h3, h4, h5, _⟩ := marks_distinct
  constructor
  · intro h
    have hs : statusScore (checkWin board size) = 0 := by
      rcases statusScore_cases (checkWin board size) with ⟨h', _⟩ | ⟨h', _⟩ | ⟨_, _, h'⟩
      · exact absurd (h'.symm.trans h) h4
      · exact absurd (h'.symm.trans h) h2
      · exact h'
    have hd : isDraw board size = true := by
      by_contra hd
      have hc : checkWin board size = firstPlayerChar ∨ checkWin board size = secondPlayerChar ∨
          checkWin board size = emptyChar := by
        unfold checkWin
        simp only [hd, if_false]
        split
        · exact Or.inl rfl
        · split
          · exact Or.inr (Or.inl rfl)
          · exact Or.inr (Or.inr rfl)
      rcases hc with hc | hc | hc
      · exact h2 (hc.symm.trans h)
      · exact h4 (hc.symm.trans h)
      · exact marks_distinct.2.2.2.2.2 (h.symm.trans hc)
    simp [Minimax, hs, hd]
  · intro hdepth h
    have hs : statusScore (checkWin board size) = 0 := by
      rcases statusScore_cases (checkWin board size) with ⟨h', _⟩ | ⟨h', _⟩ | ⟨_, _, h'⟩
      · exact absurd (h'.symm.trans h) h5
      · exact absurd (h'.symm.trans h) h3
      · exact h'
    simp [Minimax, hs, hdepth]

/-- C9 on a full 3x3 board without a line (depth 5) and on the empty 3x3 board (depth 0). -/
theorem Minimax_zero_score_witness :
    Minimax 1 fullNoLine 3 5 true (-1000) 1000 = some (0, fullNoLine) ∧
    Minimax 1 emptyBoard 3 0 false (-1000) 1000 = some (0, emptyBoard) :=
  ⟨(Minimax_zero_score 0 fullNoLine 3 5 true (-1000) 1000).1 (by decide),
    (Minimax_zero_score 0 emptyBoard 3 0 false (-1000) 1000).2 rfl (by decide)⟩

/-! ## The move list and the free cells -/

theorem mem_GetAvailableMoves (board : Board) (size : Nat) (m : Nat × Nat) :
    m ∈ GetAvailableMoves board size ↔
      m.1 < size ∧ m.2 < size ∧ board m.1 m.2 = emptyChar := by
  unfold GetAvailableMoves
  simp only [List.mem_flatMap, List.mem_map, List.mem_filter, List.mem_range, beq_iff_eq]
  constructor
  · rintro ⟨i, hi, j, ⟨hj, he⟩, rfl⟩
    exact ⟨hi, hj, he⟩
  · rintro ⟨h1, h2, h3⟩
    exact ⟨m.1, h1, m.2, ⟨h2, h3⟩, rfl⟩

theorem setCell_restore (board : Board) (i j : Nat) (c : Char) (h : board i j = emptyChar) :
    setCell (setCell board i j c) i j emptyChar = board := by
  funext i' j'
  unfold setCell
  by_cases hij : i' = i ∧ j' = j
  · simp only [hij, and_self, if_true]
    exact h.symm
  · simp only [hij, if_false]

theorem emptyCount_setCell_lt (board : Board) (size i j : Nat) (c : Char)
    (hm : (i, j) ∈ GetAvailableMoves board size) (hc : c ≠ emptyChar) :
    emptyCount (setCell board i j c) size < emptyCount board size := by
  unfold emptyCount
  apply Finset.card_lt_card
  rw [Finset.ssubset_iff_of_subset]
  · refine ⟨(i, j), List.mem_toFinset.mpr hm, ?_⟩
    rw [List.mem_toFinset, mem_GetAvailableMoves]
    rintro ⟨_, _, h⟩
    rw [setCell_same] at h
    exact hc h
  · intro p hp
    rw [List.mem_toFinset, mem_GetAvailableMoves] at hp ⊢
    refine ⟨hp.1, hp.2.1, ?_⟩
    by_cases h : p.1 = i ∧ p.2 = j
    · have := hp.2.2
      rw [h.1, h.2, setCell_same] at this
      exact absurd this hc
    · have := hp.2.2
      rw [setCell_other _ _ _ _ _ _ (by tauto)] at this
      exact this

theorem emptyCount_le (board : Board) (size : Nat) : emptyCount board size ≤ size * size := by
  unfold emptyCount
  have hsub : (GetAvailableMoves board size).toFinset ⊆
      Finset.range size ×ˢ Finset.range size := by
    intro p hp
    rw [List.mem_toFinset, mem_GetAvailableMoves] at hp
    simp only [Finset.mem_product, Finset.mem_range]
    exact ⟨hp.1, hp.2.1⟩
  calc (GetAvailableMoves board size).toFinset.card
      ≤ (Finset.range size ×ˢ Finset.range size).card := Finset.card_le_card hsub
    _ = size * size := by simp

/-! ## `Minimax` restores the board and computes `MinimaxScore` -/

theorem maxLoop_eq (call : Board → Int → Int → Option (Int × Board))
    (score : Nat × Nat → Int → Int → Int) (beta : Int) (board : Board) :
    ∀ (ms : List (Nat × Nat)) (bestScore alpha : Int),
      (∀ m ∈ ms, board m.1 m.2 = emptyChar) →
      (∀ m ∈ ms, ∀ a be, call (setCell board m.1 m.2 secondPlayerChar) a be =
        some (score m a be, setCell board m.1 m.2 secondPlayerChar)) →
      maxLoop call beta ms board bestScore alpha =
        some (maxLoopScore score beta ms bestScore alpha, board) := by
  intro ms
  induction ms with
  | nil => intro bestScore alpha _ _; rfl
  | cons m rest ih =>
    intro bestScore alpha hfree hcall
    obtain ⟨x, y⟩ := m
    have h1 := hcall (x, y) (List.mem_cons_self _ _) alpha beta
    have h2 := hfree (x, y) (List.mem_cons_self _ _)
    simp only at h1 h2
    simp only [maxLoop, maxLoopScore, h1, setCell_restore board x y _ h2]
    split
    · rfl
    · exact ih _ _ (fun m hm => hfree m (List.mem_cons_of_mem _ hm))
        (fun m hm => hcall m (List.mem_cons_of_mem _ hm))

theorem minLoop_eq (call : Board → Int → Int → Option (Int × Board))
    (score : Nat × Nat → Int → Int → Int) (alpha : Int) (board : Board) :
    ∀ (ms : List (Nat × Nat)) (bestScore beta : Int),
      (∀ m ∈ ms, board m.1 m.2 = emptyChar) →
      (∀ m ∈ ms, ∀ a be, call (setCell board m.1 m.2 firstPlayerChar) a be =
        some (score m a be, setCell board m.1 m.2 firstPlayerChar)) →
      minLoop call alpha ms board bestScore beta =
        some (minLoopScore score alpha ms bestScore beta, board) := by
  intro ms
  induction ms with
  | nil => intro bestScore beta _ _; rfl
  | cons m rest ih =>
    intro bestScore beta hfree hcall
    obtain ⟨x, y⟩ := m
    have h1 := hcall (x, y) (List.mem_cons_self _ _) alpha beta
    have h2 := hfree (x, y) (List.mem_cons_self _ _)
    simp only at h1 h2
    simp only [minLoop, minLoopScore, h1, setCell_restore board x y _ h2]
    split
    · rfl
    · exact ih _ _ (fun m hm => hfree m (List.mem_cons_of_mem _ hm))
        (fun m hm => hcall m (List.mem_cons_of_mem _ hm))

theorem Minimax_eq_score :
    ∀ (fuel : Nat) (board : Board) (size : Nat) (depth : Int) (isMaximizing : Bool)
      (alpha beta : Int), emptyCount board size < fuel →
      Minimax fuel board size depth isMaximizing alpha beta =
        some (MinimaxScore fuel board size depth isMaximizing alpha beta, board) := by
  intro fuel
  induction fuel with
  | zero => intro board size depth isMaximizing alpha beta h; omega
  | succ fuel ih =>
    intro board size depth isMaximizing alpha beta hfuel
    unfold Minimax MinimaxScore
    simp only
    split
    · rfl
    · split
      · rfl
      · have hfree : ∀ m ∈ GetAvailableMoves board size, board m.1 m.2 = emptyChar :=
          fun m hm => ((mem_GetAvailableMoves board size m).mp hm).2.2
        have hlt : ∀ m ∈ GetAvailableMoves board size, ∀ c, c ≠ emptyChar →
            emptyCount (setCell board m.1 m.2 c) size < fuel := by
          intro m hm c hc
          have := emptyCount_setCell_lt board size m.1 m.2 c hm hc
          omega
        cases isMaximizing with
        | true =>
          simp only [if_true]
          exact maxLoop_eq _ _ beta board _ _ _ hfree
            (fun m hm a be => ih _ size (depth - 1) false a be
              (hlt m hm _ marks_distinct.2.2.2.2.1))
        | false =>
          simp only [Bool.false_eq_true, if_false]
          exact minLoop_eq _ _ alpha board _ _ _ hfree
            (fun m hm a be => ih _ size (depth - 1) true a be
              (hlt m hm _ marks_distinct.2.2.1))

/-! ## `ComputerMove` commits the move chosen by `pickBest` -/

theorem rootLoop_eq (call : Board → Option (Int × Board)) (score : Nat × Nat → Int)
    (board : Board) :
    ∀ (ms : List (Nat × Nat)) (bestScore : Int) (bestMove : Option (Nat × Nat)),
      (∀ m ∈ ms, board m.1 m.2 = emptyChar) →
      (∀ m ∈ ms, call (setCell board m.1 m.2 secondPlayerChar) =
        some (score m, setCell board m.1 m.2 secondPlayerChar)) →
      rootLoop call ms board bestScore bestMove =
        some (board, pickBest score ms bestScore bestMove) := by
  intro ms
  induction ms with
  | nil => intro bestScore bestMove _ _; rfl
  | cons m rest ih =>
    intro bestScore bestMove hfree hcall
    obtain ⟨x, y⟩ := m
    have h1 := hcall (x, y) (List.mem_cons_self _ _)
    have h2 := hfree (x, y) (List.mem_cons_self _ _)
    simp only at h1 h2
    simp only [rootLoop, pickBest, h1, setCell_restore board x y _ h2]
    split
    · exact ih _ _ (fun m hm => hfree m (List.mem_cons_of_mem _ hm))
        (fun m hm => hcall m (List.mem_cons_of_mem _ hm))
    · exact ih _ _ (fun m hm => hfree m (List.mem_cons_of_mem _ hm))
        (fun m hm => hcall m (List.mem_cons_of_mem _ hm))

theorem ComputerMove_eq (board : Board) (size : Nat) :
    ComputerMove board size =
      (bestMoveOf board size).map fun m => setCell board m.1 m.2 secondPlayerChar := by
  unfold ComputerMove bestMoveOf
  simp only
  rw [rootLoop_eq _ (fun m => MinimaxScore (size * size + 1)
      (setCell board m.1 m.2 secondPlayerChar) size (maxDepthOf size) false (-1000) 1000) board]
  · cases pickBest _ (GetAvailableMoves board size) (-1000) none with
    | none => rfl
    | some m => rfl
  · exact fun m hm => ((mem_GetAvailableMoves board size m).mp hm).2.2
  · intro m hm
    apply Minimax_eq_score
    have := emptyCount_le (setCell board m.1 m.2 secondPlayerChar) size
    omega

/-- What the selection loop of `ComputerMove` returns: either a move of the list that beats
the incoming best score, everything before it and is not beaten by anything after it, or
the incoming best move when no score exceeds the incoming best score. -/
theorem pickBest_spec (score : Nat × Nat → Int) :
    ∀ (ms : List (Nat × Nat)) (bestScore : Int) (bestMove : Option (Nat × Nat)),
      (∃ m pre post, ms = pre ++ m :: post ∧ pickBest score ms bestScore bestMove = some m ∧
        bestScore < score m ∧ (∀ p ∈ pre, score p < score m) ∧ (∀ q ∈ post, score q ≤ score m)) ∨
      (pickBest score ms bestScore bestMove = bestMove ∧ ∀ m ∈ ms, score m ≤ bestScore) := by
  intro ms
  induction ms with
  | nil =>
    intro bestScore bestMove
    exact Or.inr ⟨rfl, fun m hm => absurd hm (List.not_mem_nil m)⟩
  | cons m rest ih =>
    intro bestScore bestMove
    unfold pickBest
    by_cases h : score m > bestScore
    · simp only [h, if_true]
      rcases ih (score m) (some m) with ⟨m', pre, post, h1, h2, h3, h4, h5⟩ | ⟨h1, h2⟩
      · refine Or.inl ⟨m', m :: pre, post, by rw [h1]; rfl, h2, by omega, ?_, h5⟩
        intro p hp
        rcases List.mem_cons.mp hp with rfl | hp
        · exact h3
        · exact h4 p hp
      · exact Or.inl ⟨m, [], rest, rfl, h1, h, fun p hp => absurd hp (List.not_mem_nil p), h2⟩
    · simp only [h, if_false]
      rcases ih bestScore bestMove with ⟨m', pre, post, h1, h2, h3, h4, h5⟩ | ⟨h1, h2⟩
      · refine Or.inl ⟨m', m :: pre, post, by rw [h1]; rfl, h2, h3, ?_, h5⟩
        intro p hp
        rcases List.mem_cons.mp hp with rfl | hp
        · omega
        · exact h4 p hp
      · refine Or.inr ⟨h1, ?_⟩
        intro p hp
        rcases List.mem_cons.mp hp with rfl | hp
        · omega
        · exact h2 p hp

/-! ## Range of the scores -/

theorem wellFormed_setCell (board : Board) (size i j : Nat) (c : Char)
    (hwf : wellFormed board size) (hc : c = firstPlayerChar ∨ c = secondPlayerChar) :
    wellFormed (setCell board i j c) size := by
  intro i' hi' j' hj'
  by_cases h : i' = i ∧ j' = j
  · rw [h.1, h.2, setCell_same]
    exact Or.inr hc
  · rw [setCell_other _ _ _ _ _ _ (by tauto)]
    exact hwf i' hi' j' hj'

theorem moves_ne_nil_of_not_isDraw (board : Board) (size : Nat) (hwf : wellFormed board size)
    (hd : ¬ isDraw board size = true) : GetAvailableMoves board size ≠ [] := by
  rw [isDraw_iff] at hd
  push_neg at hd
  obtain ⟨y, hy, x, hx, h1, h2⟩ := hd
  have hm : (y, x) ∈ GetAvailableMoves board size := by
    rw [mem_GetAvailableMoves]
    refine ⟨hy, hx, ?_⟩
    rcases hwf y hy x hx with h | h | h
    · exact h
    · exact absurd h h1
    · exact absurd h h2
  exact List.ne_nil_of_mem hm

theorem maxLoopScore_bounds (call : Nat × Nat → Int → Int → Int) (beta lo hi : Int)
    (hlo : -1000 ≤ lo) :
    ∀ (ms : List (Nat × Nat)) (bestScore alpha : Int),
      (∀ m ∈ ms, ∀ a be, lo ≤ call m a be ∧ call m a be ≤ hi) →
      ((bestScore = -1000 ∧ ms ≠ []) ∨ (lo ≤ bestScore ∧ bestScore ≤ hi)) →
      lo ≤ maxLoopScore call beta ms bestScore alpha ∧
        maxLoopScore call beta ms bestScore alpha ≤ hi := by
  intro ms
  induction ms with
  | nil =>
    intro bestScore alpha _ h
    rcases h with ⟨_, h⟩ | h
    · exact absurd rfl h
    · exact h
  | cons m rest ih =>
    intro bestScore alpha hcall h
    have hc := hcall m (List.mem_cons_self _ _) alpha beta
    have hb : lo ≤ max bestScore (call m alpha beta) ∧ max bestScore (call m alpha beta) ≤ hi := by
      rcases h with ⟨h, _⟩ | h
      · rw [h, max_eq_right (by omega)]; exact hc
      · exact ⟨le_max_of_le_left h.1, max_le h.2 hc.2⟩
    unfold maxLoopScore
    simp only
    split
    · exact hb
    · exact ih _ _ (fun m hm => hcall m (List.mem_cons_of_mem _ hm)) (Or.inr hb)

theorem minLoopScore_bounds (call : Nat × Nat → Int → Int → Int) (alpha lo hi : Int)
    (hhi : hi ≤ 1000) :
    ∀ (ms : List (Nat × Nat)) (bestScore beta : Int),
      (∀ m ∈ ms, ∀ a be, lo ≤ call m a be ∧ call m a be ≤ hi) →
      ((bestScore = 1000 ∧ ms ≠ []) ∨ (lo ≤ bestScore ∧ bestScore ≤ hi)) →
      lo ≤ minLoopScore call alpha ms bestScore beta ∧
        minLoopScore call alpha ms bestScore beta ≤ hi := by
  intro ms
  induction ms with
  | nil =>
    intro bestScore beta _ h
    rcases h with ⟨_, h⟩ | h
    · exact absurd rfl h
    · exact h
  | cons m rest ih =>
    intro bestScore beta hcall h
    have hc := hcall m (List.mem_cons_self _ _) alpha beta
    have hb : lo ≤ min bestScore (call m alpha beta) ∧ min bestScore (call m alpha beta) ≤ hi := by
      rcases h with ⟨h, _⟩ | h
      · rw [h, min_eq_right (by omega)]; exact hc
      · exact ⟨le_min h.1 hc.1, min_le_of_left_le h.2⟩
    unfold minLoopScore
    simp only
    split
    · exact hb
    · exact ih _ _ (fun m hm => hcall m (List.mem_cons_of_mem _ hm)) (Or.inr hb)

/-- On a well-formed board and for a depth between 0 and 990, the score of `Minimax` lies
between `-10 - depth` and `10`. -/
theorem MinimaxScore_bounds :
    ∀ (fuel : Nat) (board : Board) (size : Nat) (depth : Int) (isMaximizing : Bool)
      (alpha beta : Int), wellFormed board size → 0 ≤ depth → depth ≤ 990 →
      -10 - depth ≤ MinimaxScore fuel board size depth isMaximizing alpha beta ∧
        MinimaxScore fuel board size depth isMaximizing alpha beta ≤ 10 := by
  intro fuel
  induction fuel with
  | zero =>
    intro board size depth isMaximizing alpha beta _ h0 _
    simp only [MinimaxScore]
    omega
  | succ fuel ih =>
    intro board size depth isMaximizing alpha beta hwf h0 h990
    unfold MinimaxScore
    simp only
    split
    · next h =>
      rcases h with h | h <;> rw [h] <;> omega
    · split
      · omega
      · next _ h =>
        push_neg at h
        have hne := moves_ne_nil_of_not_isDraw board size hwf h.2
        have hd : depth ≠ 0 := h.1
        cases isMaximizing with
        | true =>
          simp only [if_true]
          apply maxLoopScore_bounds _ _ _ _ (by omega) _ _ _ _ (Or.inl ⟨rfl, hne⟩)
          intro m _ a be
          have := ih (setCell board m.1 m.2 secondPlayerChar) size (depth - 1) false a be
            (wellFormed_setCell _ _ _ _ _ hwf (Or.inr rfl)) (by omega) (by omega)
          omega
        | false =>
          simp only [Bool.false_eq_true, if_false]
          apply minLoopScore_bounds _ _ _ _ (by omega) _ _ _ _ (Or.inl ⟨rfl, hne⟩)
          intro m _ a be
          have := ih (setCell board m.1 m.2 firstPlayerChar) size (depth - 1) true a be
            (wellFormed_setCell _ _ _ _ _ hwf (Or.inl rfl)) (by omega) (by omega)
          omega

theorem maxDepthOf_bounds (size : Nat) : 0 ≤ maxDepthOf size ∧ maxDepthOf size ≤ 9 := by
  unfold maxDepthOf
  split
  · omega
  · split <;> omega

/-! ## Order of the move list -/

theorem GetAvailableMoves_sorted (board : Board) (size : Nat) :
    (GetAvailableMoves board size).Pairwise rowMajorBefore := by
  unfold GetAvailableMoves
  rw [List.pairwise_flatMap]
  constructor
  · intro i _
    rw [List.pairwise_map]
    exact ((List.pairwise_lt_range size).sublist (List.filter_sublist _)).imp
      (fun h => Or.inr ⟨rfl, h⟩)
  · refine (List.pairwise_lt_range size).imp ?_
    intro a b hab x hx y hy
    rw [List.mem_map] at hx hy
    obtain ⟨_, _, rfl⟩ := hx
    obtain ⟨_, _, rfl⟩ := hy
    exact Or.inl hab

/-! ## The score does not depend on the recursion bound -/

theorem maxLoopScore_congr (c1 c2 : Nat × Nat → Int → Int → Int) (beta : Int) :
    ∀ (ms : List (Nat × Nat)) (bestScore alpha : Int),
      (∀ m ∈ ms, ∀ a be, c1 m a be = c2 m a be) →
      maxLoopScore c1 beta ms bestScore alpha = maxLoopScore c2 beta ms bestScore alpha := by
  intro ms
  induction ms with
  | nil => intro _ _ _; rfl
  | cons m rest ih =>
    intro bestScore alpha h
    unfold maxLoopScore
    simp only [h m (List.mem_cons_self _ _)]
    split
    · rfl
    · exact ih _ _ (fun m hm => h m (List.mem_cons_of_mem _ hm))

theorem minLoopScore_congr (c1 c2 : Nat × Nat → Int → Int → Int) (alpha : Int) :
    ∀ (ms : List (Nat × Nat)) (bestScore beta : Int),
      (∀ m ∈ ms, ∀ a be, c1 m a be = c2 m a be) →
      minLoopScore c1 alpha ms bestScore beta = minLoopScore c2 alpha ms bestScore beta := by
  intro ms
  induction ms with
  | nil => intro _ _ _; rfl
  | cons m rest ih =>
    intro bestScore beta h
    unfold minLoopScore
    simp only [h m (List.mem_cons_self _ _)]
    split
    · rfl
    · exact ih _ _ (fun m hm => h m (List.mem_cons_of_mem _ hm))

theorem MinimaxScore_fuel :
    ∀ (f1 f2 : Nat) (board : Board) (size : Nat) (depth : Int) (isMaximizing : Bool)
      (alpha beta : Int), emptyCount board size < f1 → emptyCount board size < f2 →
      MinimaxScore f1 board size depth isMaximizing alpha beta =
        MinimaxScore f2 board size depth isMaximizing alpha beta := by
  intro f1
  induction f1 with
  | zero => intro f2 board size depth isMaximizing alpha beta h; omega
  | succ f1 ih =>
    intro f2 board size depth isMaximizing alpha beta h1 h2
    cases f2 with
    | zero => omega
    | succ f2 =>
      unfold MinimaxScore
      simp only
      split
      · rfl
      · split
        · rfl
        · have hlt : ∀ m ∈ GetAvailableMoves board size, ∀ c, c ≠ emptyChar →
              emptyCount (setCell board m.1 m.2 c) size < f1 ∧
              emptyCount (setCell board m.1 m.2 c) size < f2 := by
            intro m hm c hc
            have := emptyCount_setCell_lt board size m.1 m.2 c hm hc
            omega
          cases isMaximizing with
          | true =>
            simp only [if_true]
            apply maxLoopScore_congr
            intro m hm a be
            exact ih f2 _ size (depth - 1) false a be
              (hlt m hm _ marks_distinct.2.2.2.2.1).1 (hlt m hm _ marks_distinct.2.2.2.2.1).2
          | false =>
            simp only [Bool.false_eq_true, if_false]
            apply minLoopScore_congr
            intro m hm a be
            exact ih f2 _ size (depth - 1) true a be
              (hlt m hm _ marks_distinct.2.2.1).1 (hlt m hm _ marks_distinct.2.2.1).2

/-! ## The move committed by `ComputerMove` -/

theorem maxDepthOf_eq (size : Nat) (D : Int)
    (hsize : (size = 3 ∧ D = 9) ∨ (size = 4 ∧ D = 4) ∨ (size = 5 ∧ D = 3)) :
    maxDepthOf size = D := by
  rcases hsize with ⟨h1, h2⟩ | ⟨h1, h2⟩ | ⟨h1, h2⟩ <;> subst h1 <;> subst h2 <;> rfl

/-- The selection made by `ComputerMove` on a well-formed board with a free cell: a move
of the list whose score is maximal and strictly above the scores of all earlier moves. -/
theorem bestMoveOf_spec (board : Board) (size : Nat) (hwf : wellFormed board size)
    (hempty : ∃ i < size, ∃ j < size, board i j = emptyChar) :
    ∃ best pre post, GetAvailableMoves board size = pre ++ best :: post ∧
      bestMoveOf board size = some best ∧
      (∀ p ∈ pre,
        MinimaxScore (size * size + 1) (setCell board p.1 p.2 secondPlayerChar) size
          (maxDepthOf size) false (-1000) 1000 <
        MinimaxScore (size * size + 1) (setCell board best.1 best.2 secondPlayerChar) size
          (maxDepthOf size) false (-1000) 1000) ∧
      (∀ q ∈ post,
        MinimaxScore (size * size + 1) (setCell board q.1 q.2 secondPlayerChar) size
          (maxDepthOf size) false (-1000) 1000 ≤
        MinimaxScore (size * size + 1) (setCell board best.1 best.2 secondPlayerChar) size
          (maxDepthOf size) false (-1000) 1000) := by
  obtain ⟨i, hi, j, hj, he⟩ := hempty
  have hmem : (i, j) ∈ GetAvailableMoves board size :=
    (mem_GetAvailableMoves board size (i, j)).mpr ⟨hi, hj, he⟩
  rcases pickBest_spec (fun m => MinimaxScore (size * size + 1)
      (setCell board m.1 m.2 secondPlayerChar) size (maxDepthOf size) false (-1000) 1000)
      (GetAvailableMoves board size) (-1000) none with
    ⟨m, pre, post, h1, h2, _, h4, h5⟩ | ⟨_, h2⟩
  · exact ⟨m, pre, post, h1, h2, h4, h5⟩
  · exfalso
    have hb := (MinimaxScore_bounds (size * size + 1) (setCell board i j secondPlayerChar) size
      (maxDepthOf size) false (-1000) 1000
      (wellFormed_setCell _ _ _ _ _ hwf (Or.inr rfl)) (maxDepthOf_bounds size).1
      (by have := (maxDepthOf_bounds size).2; omega)).1
    have h9 := (maxDepthOf_bounds size).2
    have := h2 (i, j) hmem
    simp only at this
    omega

/-- C5: for size 3, 4, 5 and a well-formed board with a free cell in the region,
`ComputerMove` returns with a board that differs from the one it was given in exactly one
cell; that cell is inside the region, was free before and holds `o` afterwards. -/
theorem ComputerMove_single_placement (board : Board) (size : Nat)
    (_hsize : size = 3 ∨ size = 4 ∨ size = 5) (hwf : wellFormed board size)
    (hempty : ∃ i < size, ∃ j < size, board i j = emptyChar) :
    ∃ after, ComputerMove board size = some after ∧
      ∃ i < size, ∃ j < size, board i j = emptyChar ∧ after i j = secondPlayerChar ∧
        after i j ≠ board i j ∧ ∀ i' j', (i' ≠ i ∨ j' ≠ j) → after i' j' = board i' j' := by
  obtain ⟨best, pre, post, hlist, hbest, _, _⟩ := bestMoveOf_spec board size hwf hempty
  have hmem : best ∈ GetAvailableMoves board size := by
    rw [hlist]; exact List.mem_append_right _ (List.mem_cons_self _ _)
  rw [mem_GetAvailableMoves] at hmem
  refine ⟨setCell board best.1 best.2 secondPlayerChar, ?_, best.1, hmem.1, best.2, hmem.2.1,
    hmem.2.2, setCell_same _ _ _ _, ?_, fun i' j' h => setCell_other _ _ _ _ _ _ h⟩
  · rw [ComputerMove_eq, hbest]; rfl
  · rw [setCell_same, hmem.2.2]
    exact marks_distinct.2.2.2.2.1

/-- C5 on a 3x3 position with two free cells. -/
theorem ComputerMove_single_placement_witness :
    wellFormed twoLeft 3 ∧
    ∃ after, ComputerMove twoLeft 3 = some after ∧
      ∃ i < 3, ∃ j < 3, twoLeft i j = emptyChar ∧ after i j = secondPlayerChar ∧
        after i j ≠ twoLeft i j ∧ ∀ i' j', (i' ≠ i ∨ j' ≠ j) → after i' j' = twoLeft i' j' :=
  ⟨by decide, ComputerMove_single_placement twoLeft 3 (by decide) (by decide) (by decide)⟩

/-- C6: for size 3, 4, 5 (depth cutoff 9, 4, 3) and a well-formed board with a free cell,
every free cell `m` of the region has a score, the result of
`Minimax(board with o at m, size, D, false, -1000, 1000)`, and `ComputerMove` puts `o` on
the free cell whose score is maximal and that comes first in row-major order among the
cells of maximal score. -/
theorem ComputerMove_picks_first_best (board : Board) (size : Nat) (D : Int)
    (hsize : (size = 3 ∧ D = 9) ∨ (size = 4 ∧ D = 4) ∨ (size = 5 ∧ D = 3))
    (hwf : wellFormed board size)
    (hempty : ∃ i < size, ∃ j < size, board i j = emptyChar) :
    ∃ score : Nat × Nat → Int,
      (∀ m fuel, m.1 < size → m.2 < size → board m.1 m.2 = emptyChar →
        emptyCount board size ≤ fuel →
        Minimax fuel (setCell board m.1 m.2 secondPlayerChar) size D false (-1000) 1000 =
          some (score m, setCell board m.1 m.2 secondPlayerChar)) ∧
      ∃ best : Nat × Nat, best.1 < size ∧ best.2 < size ∧ board best.1 best.2 = emptyChar ∧
        ComputerMove board size = some (setCell board best.1 best.2 secondPlayerChar) ∧
        (∀ m, m.1 < size → m.2 < size → board m.1 m.2 = emptyChar → score m ≤ score best) ∧
        (∀ m, m.1 < size → m.2 < size → board m.1 m.2 = emptyChar → rowMajorBefore m best →
          score m < score best) := by
  have hD := maxDepthOf_eq size D hsize
  refine ⟨fun m => MinimaxScore (size * size + 1) (setCell board m.1 m.2 secondPlayerChar) size
    D false (-1000) 1000, ?_, ?_⟩
  · intro m fuel h1 h2 h3 hfuel
    have hm : (m.1, m.2) ∈ GetAvailableMoves board size :=
      (mem_GetAvailableMoves board size m).mpr ⟨h1, h2, h3⟩
    have hlt := emptyCount_setCell_lt board size m.1 m.2 secondPlayerChar hm
      marks_distinct.2.2.2.2.1
    have hle := emptyCount_le board size
    rw [Minimax_eq_score fuel _ size D false (-1000) 1000 (by omega),
      MinimaxScore_fuel fuel (size * size + 1) _ size D false (-1000) 1000 (by omega) (by omega)]
  · obtain ⟨best, pre, post, hlist, hbest, hpre, hpost⟩ := bestMoveOf_spec board size hwf hempty
    rw [hD] at hpre hpost
    have hmem : best ∈ GetAvailableMoves board size := by
      rw [hlist]; exact List.mem_append_right _ (List.mem_cons_self _ _)
    have hsorted := GetAvailableMoves_sorted board size
    rw [hlist, List.pairwise_append, List.pairwise_cons] at hsorted
    obtain ⟨_, ⟨hafter, _⟩, _⟩ := hsorted
    rw [mem_GetAvailableMoves] at hmem
    refine ⟨best, hmem.1, hmem.2.1, hmem.2.2, ?_, ?_, ?_⟩
    · rw [ComputerMove_eq, hbest]; rfl
    · intro m h1 h2 h3
      have hm : m ∈ GetAvailableMoves board size :=
        (mem_GetAvailableMoves board size m).mpr ⟨h1, h2, h3⟩
      rw [hlist, List.mem_append, List.mem_cons] at hm
      rcases hm with hm | rfl | hm
      · exact le_of_lt (hpre m hm)
      · exact le_refl _
      · exact hpost m hm
    · intro m h1 h2 h3 hbefore
      have hm : m ∈ GetAvailableMoves board size :=
        (mem_GetAvailableMoves board size m).mpr ⟨h1, h2, h3⟩
      rw [hlist, List.mem_append, List.mem_cons] at hm
      rcases hm with hm | rfl | hm
      · exact hpre m hm
      · exfalso
        unfold rowMajorBefore at hbefore
        omega
      · exfalso
        have := hafter m hm
        unfold rowMajorBefore at hbefore this
        omega

/-- C6 on a 3x3 position with two free cells. -/
theorem ComputerMove_picks_first_best_witness :
    wellFormed twoLeft 3 ∧
    ∃ score : Nat × Nat → Int,
      (∀ m fuel, m.1 < 3 → m.2 < 3 → twoLeft m.1 m.2 = emptyChar →
        emptyCount twoLeft 3 ≤ fuel →
        Minimax fuel (setCell twoLeft m.1 m.2 secondPlayerChar) 3 9 false (-1000) 1000 =
          some (score m, setCell twoLeft m.1 m.2 secondPlayerChar)) ∧
      ∃ best : Nat × Nat, best.1 < 3 ∧ best.2 < 3 ∧ twoLeft best.1 best.2 = emptyChar ∧
        ComputerMove twoLeft 3 = some (setCell twoLeft best.1 best.2 secondPlayerChar) ∧
        (∀ m, m.1 < 3 → m.2 < 3 → twoLeft m.1 m.2 = emptyChar → score m ≤ score best) ∧
        (∀ m, m.1 < 3 → m.2 < 3 → twoLeft m.1 m.2 = emptyChar → rowMajorBefore m best →
          score m < score best) :=
  ⟨by decide, ComputerMove_picks_first_best twoLeft 3 9 (by decide) (by decide) (by decide)⟩

/-! ## Pruning does not change the result -/

theorem foldl_max_ge (value : Nat × Nat → Int) :
    ∀ (ms : List (Nat × Nat)) (acc : Int),
      acc ≤ ms.foldl (fun best m => max best (value m)) acc := by
  intro ms
  induction ms with
  | nil => intro acc; exact le_refl _
  | cons m rest ih =>
    intro acc
    simp only [List.foldl_cons]
    exact le_trans (le_max_left _ _) (ih _)

theorem foldl_min_le (value : Nat × Nat → Int) :
    ∀ (ms : List (Nat × Nat)) (acc : Int),
      ms.foldl (fun best m => min best (value m)) acc ≤ acc := by
  intro ms
  induction ms with
  | nil => intro acc; exact le_refl _
  | cons m rest ih =>
    intro acc
    simp only [List.foldl_cons]
    exact le_trans (ih _) (min_le_left _ _)

theorem maxLoopScore_window (call : Nat × Nat → Int → Int → Int) (value : Nat × Nat → Int)
    (alpha0 beta : Int) (hab : alpha0 < beta) :
    ∀ (ms : List (Nat × Nat)) (bestScore alpha vacc : Int),
      (∀ m ∈ ms, ∀ a be, a < be → windowAgrees (value m) (call m a be) a be) →
      (alpha = max alpha0 bestScore ∨ (alpha = alpha0 ∧ bestScore = vacc ∧ alpha0 < vacc)) →
      alpha < beta →
      (vacc ≤ alpha0 → bestScore ≤ alpha0) → (alpha0 < vacc → bestScore = vacc) →
      windowAgrees (ms.foldl (fun best m => max best (value m)) vacc)
        (maxLoopScore call beta ms bestScore alpha) alpha0 beta := by
  intro ms
  induction ms with
  | nil =>
    intro bestScore alpha vacc _ hinv hlt h1 h2
    simp only [List.foldl_nil, maxLoopScore]
    refine ⟨h1, fun h _ => h2 h, fun h => ?_⟩
    have := h2 (by omega)
    omega
  | cons m rest ih =>
    intro bestScore alpha vacc hcall hinv hlt h1 h2
    obtain ⟨w1, w2, w3⟩ := hcall m (List.mem_cons_self _ _) alpha beta hlt
    simp only [List.foldl_cons]
    unfold maxLoopScore
    simp only
    by_cases hbreak : beta ≤ max alpha (max bestScore (call m alpha beta))
    · simp only [hbreak, if_true]
      have hge := foldl_max_ge value rest (max vacc (value m))
      have hv : beta ≤ max vacc (value m) := by omega
      refine ⟨fun h => ?_, fun _ h => ?_, fun _ => ?_⟩ <;> omega
    · simp only [hbreak, if_false]
      apply ih _ _ _ (fun m hm => hcall m (List.mem_cons_of_mem _ hm))
      · left; omega
      · omega
      · omega
      · omega

theorem minLoopScore_window (call : Nat × Nat → Int → Int → Int) (value : Nat × Nat → Int)
    (alpha beta0 : Int) (hab : alpha < beta0) :
    ∀ (ms : List (Nat × Nat)) (bestScore beta vacc : Int),
      (∀ m ∈ ms, ∀ a be, a < be → windowAgrees (value m) (call m a be) a be) →
      (beta = min beta0 bestScore ∨ (beta = beta0 ∧ bestScore = vacc ∧ vacc < beta0)) →
      alpha < beta →
      (beta0 ≤ vacc → beta0 ≤ bestScore) → (vacc < beta0 → bestScore = vacc) →
      windowAgrees (ms.foldl (fun best m => min best (value m)) vacc)
        (minLoopScore call alpha ms bestScore beta) alpha beta0 := by
  intro ms
  induction ms with
  | nil =>
    intro bestScore beta vacc _ hinv hlt h1 h2
    simp only [List.foldl_nil, minLoopScore]
    refine ⟨fun h => ?_, fun _ h => h2 h, h1⟩
    have := h2 (by omega)
    omega
  | cons m rest ih =>
    intro bestScore beta vacc hcall hinv hlt h1 h2
    obtain ⟨w1, w2, w3⟩ := hcall m (List.mem_cons_self _ _) alpha beta hlt
    simp only [List.foldl_cons]
    unfold minLoopScore
    simp only
    by_cases hbreak : min beta (min bestScore (call m alpha beta)) ≤ alpha
    · simp only [hbreak, if_true]
      have hle := foldl_min_le value rest (min vacc (value m))
      have hv : min vacc (value m) ≤ alpha := by omega
      refine ⟨fun _ => ?_, fun h _ => ?_, fun h => ?_⟩ <;> omega
    · simp only [hbreak, if_false]
      apply ih _ _ _ (fun m hm => hcall m (List.mem_cons_of_mem _ hm))
      · left; omega
      · omega
      · omega
      · omega

theorem windowAgrees_self (v alpha beta : Int) : windowAgrees v v alpha beta :=
  ⟨fun h => h, fun _ _ => rfl, fun h => h⟩

/-- The result of `Minimax` with a window `alpha < beta` agrees with plain minimax: equal
when the plain value is inside the window, on the same side of the window otherwise. -/
theorem MinimaxScore_window :
    ∀ (fuel : Nat) (board : Board) (size : Nat) (depth : Int) (isMaximizing : Bool)
      (alpha beta : Int), alpha < beta →
      windowAgrees (referenceMinimax fuel board size depth isMaximizing)
        (MinimaxScore fuel board size depth isMaximizing alpha beta) alpha beta := by
  intro fuel
  induction fuel with
  | zero =>
    intro board size depth isMaximizing alpha beta _
    exact windowAgrees_self _ _ _
  | succ fuel ih =>
    intro board size depth isMaximizing alpha beta hab
    unfold MinimaxScore referenceMinimax
    simp only
    split
    · exact windowAgrees_self _ _ _
    · split
      · exact windowAgrees_self _ _ _
      · cases isMaximizing with
        | true =>
          simp only [if_true]
          exact maxLoopScore_window _
            (fun m => referenceMinimax fuel (setCell board m.1 m.2 secondPlayerChar) size
              (depth - 1) false) alpha beta hab _ _ _ _
            (fun m _ a be h => ih _ size (depth - 1) false a be h)
            (by omega) hab (by omega) (by omega)
        | false =>
          simp only [Bool.false_eq_true, if_false]
          exact minLoopScore_window _
            (fun m => referenceMinimax fuel (setCell board m.1 m.2 firstPlayerChar) size
              (depth - 1) true) alpha beta hab _ _ _ _
            (fun m _ a be h => ih _ size (depth - 1) true a be h)
            (by omega) hab (by omega) (by omega)

/-- With the window (-1000, 1000) of `ComputerMove`, on a well-formed board and for a depth
between 0 and 980, `Minimax` returns the plain minimax value. -/
theorem MinimaxScore_eq_reference (fuel : Nat) (board : Board) (size : Nat) (depth : Int)
    (isMaximizing : Bool) (hwf : wellFormed board size) (h0 : 0 ≤ depth) (h980 : depth ≤ 980) :
    MinimaxScore fuel board size depth isMaximizing (-1000) 1000 =
      referenceMinimax fuel board size depth isMaximizing := by
  obtain ⟨w1, w2, w3⟩ := MinimaxScore_window fuel board size depth isMaximizing (-1000) 1000
    (by omega)
  have hb := MinimaxScore_bounds fuel board size depth isMaximizing (-1000) 1000 hwf h0
    (by omega)
  omega

theorem pickBest_congr (s1 s2 : Nat × Nat → Int) :
    ∀ (ms : List (Nat × Nat)) (bestScore : Int) (bestMove : Option (Nat × Nat)),
      (∀ m ∈ ms, s1 m = s2 m) →
      pickBest s1 ms bestScore bestMove = pickBest s2 ms bestScore bestMove := by
  intro ms
  induction ms with
  | nil => intro _ _ _; rfl
  | cons m rest ih =>
    intro bestScore bestMove h
    unfold pickBest
    rw [h m (List.mem_cons_self _ _)]
    split
    · exact ih _ _ (fun m hm => h m (List.mem_cons_of_mem _ hm))
    · exact ih _ _ (fun m hm => h m (List.mem_cons_of_mem _ hm))

theorem ComputerMove_eq_reference (board : Board) (size : Nat) (hwf : wellFormed board size) :
    ComputerMove board size = referenceComputerMove board size := by
  rw [ComputerMove_eq]
  unfold bestMoveOf referenceComputerMove
  rw [pickBest_congr]
  intro m _
  exact MinimaxScore_eq_reference _ _ size _ false
    (wellFormed_setCell _ _ _ _ _ hwf (Or.inr rfl)) (maxDepthOf_bounds size).1
    (by have := (maxDepthOf_bounds size).2; omega)

/-! ## The 3x3 board spelled out -/

theorem hasLine3_iff (board : Board) (m : Char) :
    hasLine board 3 3 m ↔ won3 board m = true := by
  unfold won3 lineOf
  simp only [Bool.or_eq_true, Bool.and_eq_true, beq_iff_eq]
  constructor
  · rintro (⟨r, hr, c, _, h1, h2⟩ | ⟨r, _, c, hc, h1, h2⟩ | ⟨r, _, c, _, h1, h1', h2⟩ |
      ⟨r, _, c, hc, h1, h1', h2⟩)
    · have hc0 : c = 0 := by omega
      subst hc0
      have a0 := h2 0 (by omega)
      have a1 := h2 1 (by omega)
      have a2 := h2 2 (by omega)
      simp only [Nat.zero_add] at a0 a1 a2
      interval_cases r <;> simp [a0, a1, a2]
    · have hr0 : r = 0 := by omega
      subst hr0
      have a0 := h2 0 (by omega)
      have a1 := h2 1 (by omega)
      have a2 := h2 2 (by omega)
      simp only [Nat.zero_add] at a0 a1 a2
      interval_cases c <;> simp [a0, a1, a2]
    · have hr0 : r = 0 := by omega
      have hc0 : c = 0 := by omega
      subst hr0; subst hc0
      have a0 := h2 0 (by omega)
      have a1 := h2 1 (by omega)
      have a2 := h2 2 (by omega)
      simp only [Nat.zero_add] at a0 a1 a2
      simp [a0, a1, a2]
    · have hr0 : r = 0 := by omega
      have hc2 : c = 2 := by omega
      subst hr0; subst hc2
      have a0 := h2 0 (by omega)
      have a1 := h2 1 (by omega)
      have a2 := h2 2 (by omega)
      simp only [Nat.zero_add] at a0 a1 a2
      simp [a0, a1, a2]
  · have key : ∀ (f : Nat → Char), f 0 = m → f 1 = m → f 2 = m → ∀ k < 3, f k = m := by
      intro f h0 h1 h2 k hk
      interval_cases k <;> assumption
    rintro (((((((⟨⟨h0, h1⟩, h2⟩ | ⟨⟨h0, h1⟩, h2⟩) | ⟨⟨h0, h1⟩, h2⟩) | ⟨⟨h0, h1⟩, h2⟩) |
      ⟨⟨h0, h1⟩, h2⟩) | ⟨⟨h0, h1⟩, h2⟩) | ⟨⟨h0, h1⟩, h2⟩) | ⟨⟨h0, h1⟩, h2⟩)
    · exact Or.inl ⟨0, by omega, 0, by omega, by omega, key (fun k => board 0 (0 + k)) h0 h1 h2⟩
    · exact Or.inl ⟨1, by omega, 0, by omega, by omega, key (fun k => board 1 (0 + k)) h0 h1 h2⟩
    · exact Or.inl ⟨2, by omega, 0, by omega, by omega, key (fun k => board 2 (0 + k)) h0 h1 h2⟩
    · exact Or.inr (Or.inl ⟨0, by omega, 0, by omega, by omega,
        key (fun k => board (0 + k) 0) h0 h1 h2⟩)
    · exact Or.inr (Or.inl ⟨0, by omega, 1, by omega, by omega,
        key (fun k => board (0 + k) 1) h0 h1 h2⟩)
    · exact Or.inr (Or.inl ⟨0, by omega, 2, by omega, by omega,
        key (fun k => board (0 + k) 2) h0 h1 h2⟩)
    · exact Or.inr (Or.inr (Or.inl ⟨0, by omega, 0, by omega, by omega, by omega,
        key (fun k => board (0 + k) (0 + k)) h0 h1 h2⟩))
    · exact Or.inr (Or.inr (Or.inr ⟨0, by omega, 2, by omega, by omega, by omega,
        key (fun k => board (0 + k) (2 - k)) h0 h1 h2⟩))

theorem hasWon3_eq (board : Board) (m : Char) : hasWon board m 3 3 = won3 board m := by
  rw [Bool.eq_iff_iff, hasWon_iff _ _ _ _ (by omega), hasLine3_iff]

theorem isDraw3_eq (board : Board) : isDraw board 3 = full3 board := by
  rw [Bool.eq_iff_iff, isDraw_iff]
  unfold full3 cells3
  simp only [List.all_cons, List.all_nil, Bool.and_true, Bool.and_eq_true, Bool.or_eq_true,
    beq_iff_eq]
  constructor
  · intro h
    exact ⟨h 0 (by omega) 0 (by omega), h 0 (by omega) 1 (by omega), h 0 (by omega) 2 (by omega),
      h 1 (by omega) 0 (by omega), h 1 (by omega) 1 (by omega), h 1 (by omega) 2 (by omega),
      h 2 (by omega) 0 (by omega), h 2 (by omega) 1 (by omega), h 2 (by omega) 2 (by omega)⟩
  · rintro ⟨h00, h01, h02, h10, h11, h12, h20, h21, h22⟩ y hy x hx
    interval_cases y <;> interval_cases x <;> assumption

theorem checkWin3_eq (board : Board) : checkWin board 3 = status3 board := by
  unfold checkWin status3
  have h3 : toWinOf 3 = 3 := rfl
  simp only [h3, hasWon3_eq, isDraw3_eq]

theorem GetAvailableMoves3_eq (board : Board) : GetAvailableMoves board 3 = moves3 board := by
  have hr : List.range 3 = [0, 1, 2] := rfl
  have hc : cells3 = ([0, 1, 2].map fun j => (0, j)) ++ (([0, 1, 2].map fun j => (1, j)) ++
      ([0, 1, 2].map fun j => (2, j))) := rfl
  unfold GetAvailableMoves moves3
  rw [hr, hc]
  simp only [List.flatMap_cons, List.flatMap_nil, List.append_nil, List.filter_append,
    List.filter_map]
  rfl

theorem safeFor_eq_safeFast :
    ∀ (n : Nat) (oToMove : Bool) (board : Board),
      safeFor n oToMove board = safeFast n oToMove board := by
  intro n
  induction n with
  | zero => intro _ _; rfl
  | succ n ih =>
    intro oToMove board
    unfold safeFor safeFast
    simp only [checkWin3_eq, GetAvailableMoves3_eq, ih]

theorem safeFast_emptyBoard : safeFast 10 true emptyBoard = true := by
  decide!

theorem safeFor_emptyBoard : safeFor 10 true emptyBoard = true := by
  rw [safeFor_eq_safeFast]
  exact safeFast_emptyBoard

/-! ## Safe positions and the sign of the plain minimax value -/

theorem le_foldl_max_iff (value : Nat × Nat → Int) (t : Int) :
    ∀ (ms : List (Nat × Nat)) (acc : Int),
      t ≤ ms.foldl (fun best m => max best (value m)) acc ↔ (t ≤ acc ∨ ∃ m ∈ ms, t ≤ value m) := by
  intro ms
  induction ms with
  | nil => intro acc; simp
  | cons m rest ih =>
    intro acc
    simp only [List.foldl_cons, ih, List.mem_cons, exists_eq_or_imp, le_max_iff]
    tauto

theorem le_foldl_min_iff (value : Nat × Nat → Int) (t : Int) :
    ∀ (ms : List (Nat × Nat)) (acc : Int),
      t ≤ ms.foldl (fun best m => min best (value m)) acc ↔ (t ≤ acc ∧ ∀ m ∈ ms, t ≤ value m) := by
  intro ms
  induction ms with
  | nil => intro acc; simp
  | cons m rest ih =>
    intro acc
    simp only [List.foldl_cons, ih, List.mem_cons, forall_eq_or_imp, le_min_iff]
    tauto

theorem checkWin_cases (board : Board) (size : Nat) :
    checkWin board size = firstPlayerChar ∨ checkWin board size = secondPlayerChar ∨
      (checkWin board size = 'd' ∧ isDraw board size = true) ∨
      (checkWin board size = emptyChar ∧ isDraw board size = false) := by
  unfold checkWin
  simp only
  split
  · exact Or.inl rfl
  · split
    · exact Or.inr (Or.inl rfl)
    · split
      · next h => exact Or.inr (Or.inr (Or.inl ⟨rfl, h⟩))
      · next h => exact Or.inr (Or.inr (Or.inr ⟨rfl, by simpa using h⟩))

theorem emptyCount_pos_of_mem (board : Board) (size : Nat) (m : Nat × Nat)
    (hm : m ∈ GetAvailableMoves board size) : 0 < emptyCount board size :=
  Finset.card_pos.mpr ⟨m, List.mem_toFinset.mpr hm⟩

/-- On a well-formed 3x3 board, with enough search depth to reach the end of the game,
`safeFor` holds exactly when the plain minimax value is not negative. -/
theorem safeFor_iff_reference :
    ∀ (n fuel : Nat) (board : Board) (depth : Int) (isMaximizing : Bool),
      wellFormed board 3 → emptyCount board 3 < n → emptyCount board 3 < fuel →
      (emptyCount board 3 : Int) ≤ depth → depth ≤ 9 →
      (safeFor n isMaximizing board = true ↔
        0 ≤ referenceMinimax fuel board 3 depth isMaximizing) := by
  intro n
  induction n with
  | zero => intro fuel board depth isMaximizing _ h; omega
  | succ n ih =>
    intro fuel board depth isMaximizing hwf hn hfuel hdepth h9
    cases fuel with
    | zero => omega
    | succ fuel =>
      obtain ⟨d1, d2, d3, d4, d5, d6⟩ := marks_distinct
      unfold safeFor referenceMinimax
      simp only
      rcases checkWin_cases board 3 with h | h | ⟨h, hd⟩ | ⟨h, hd⟩
      · have hs : statusScore (checkWin board 3) = -10 := by rw [h]; rfl
        rw [if_pos h, if_pos (Or.inr hs), hs]
        constructor
        · intro hf; exact absurd hf (by simp)
        · intro hv; omega
      · have hs : statusScore (checkWin board 3) = 10 := by rw [h]; rfl
        have c1 : ¬ checkWin board 3 = firstPlayerChar := by rw [h]; exact d1.symm
        have c2 : checkWin board 3 ≠ emptyChar := by rw [h]; exact d5
        rw [if_neg c1, if_pos c2, if_pos (Or.inl hs), hs]
        constructor
        · intro _; omega
        · intro _; rfl
      · have hs : statusScore (checkWin board 3) = 0 := by
          rw [h]; decide
        have c1 : ¬ checkWin board 3 = firstPlayerChar := by rw [h]; exact d2.symm
        have c2 : checkWin board 3 ≠ emptyChar := by rw [h]; exact d6
        have c3 : ¬ (statusScore (checkWin board 3) = 10 ∨
            statusScore (checkWin board 3) = -10) := by rw [hs]; omega
        rw [if_neg c1, if_pos c2, if_neg c3, if_pos (Or.inr hd)]
        constructor
        · intro _; exact le_refl _
        · intro _; rfl
      · have hs : statusScore (checkWin board 3) = 0 := by
          rw [h]; decide
        have hnd : ¬ isDraw board 3 = true := by rw [hd]; simp
        have hne := moves_ne_nil_of_not_isDraw board 3 hwf hnd
        obtain ⟨m0, hm0⟩ := List.exists_mem_of_ne_nil _ hne
        have hpos := emptyCount_pos_of_mem board 3 m0 hm0
        have hdepth0 : ¬ (depth = 0 ∨ isDraw board 3 = true) := by
          rintro (h0 | h0)
          · omega
          · exact hnd h0
        have c1 : ¬ checkWin board 3 = firstPlayerChar := by rw [h]; exact d3.symm
        have c2 : ¬ (checkWin board 3 ≠ emptyChar) := by rw [h]; simp
        have c3 : ¬ (statusScore (checkWin board 3) = 10 ∨
            statusScore (checkWin board 3) = -10) := by rw [hs]; omega
        rw [if_neg c1, if_neg c2, if_neg c3, if_neg hdepth0]
        have hchild : ∀ m ∈ GetAvailableMoves board 3, ∀ c, c ≠ emptyChar →
            emptyCount (setCell board m.1 m.2 c) 3 < emptyCount board 3 :=
          fun m hm c hc => emptyCount_setCell_lt board 3 m.1 m.2 c hm hc
        cases isMaximizing with
        | true =>
          simp only [if_true, List.any_eq_true]
          rw [le_foldl_max_iff]
          constructor
          · rintro ⟨m, hm, hsafe⟩
            have hlt := hchild m hm _ d5
            exact Or.inr ⟨m, hm, (ih fuel _ (depth - 1) false
              (wellFormed_setCell _ _ _ _ _ hwf (Or.inr rfl)) (by omega) (by omega)
              (by omega) (by omega)).mp hsafe⟩
          · rintro (hbad | ⟨m, hm, hv⟩)
            · omega
            · have hlt := hchild m hm _ d5
              exact ⟨m, hm, (ih fuel _ (depth - 1) false
                (wellFormed_setCell _ _ _ _ _ hwf (Or.inr rfl)) (by omega) (by omega)
                (by omega) (by omega)).mpr hv⟩
        | false =>
          simp only [Bool.false_eq_true, if_false, List.all_eq_true]
          rw [le_foldl_min_iff]
          constructor
          · intro hall
            refine ⟨by omega, fun m hm => ?_⟩
            have hlt := hchild m hm _ d3
            exact (ih fuel _ (depth - 1) true
              (wellFormed_setCell _ _ _ _ _ hwf (Or.inl rfl)) (by omega) (by omega)
              (by omega) (by omega)).mp (hall m hm)
          · rintro ⟨_, hall⟩ m hm
            have hlt := hchild m hm _ d3
            exact (ih fuel _ (depth - 1) true
              (wellFormed_setCell _ _ _ _ _ hwf (Or.inl rfl)) (by omega) (by omega)
              (by omega) (by omega)).mpr (hall m hm)

/-- C7: for size 3, 4, 5 and a well-formed board with a free cell, `ComputerMove` commits
the same cell as the reference search with the same terminal scoring, depth cutoff and
move order but without the alpha/beta window. This holds whether or not the best-scoring
move is unique. -/
theorem ComputerMove_matches_reference (board : Board) (size : Nat)
    (_hsize : size = 3 ∨ size = 4 ∨ size = 5) (hwf : wellFormed board size)
    (hempty : ∃ i < size, ∃ j < size, board i j = emptyChar) :
    ∃ i < size, ∃ j < size, board i j = emptyChar ∧
      ComputerMove board size = some (setCell board i j secondPlayerChar) ∧
      referenceComputerMove board size = some (setCell board i j secondPlayerChar) := by
  obtain ⟨best, pre, post, hlist, hbest, _, _⟩ := bestMoveOf_spec board size hwf hempty
  have hmem : best ∈ GetAvailableMoves board size := by
    rw [hlist]; exact List.mem_append_right _ (List.mem_cons_self _ _)
  rw [mem_GetAvailableMoves] at hmem
  have hcm : ComputerMove board size = some (setCell board best.1 best.2 secondPlayerChar) := by
    rw [ComputerMove_eq, hbest]; rfl
  refine ⟨best.1, hmem.1, best.2, hmem.2.1, hmem.2.2, hcm, ?_⟩
  rw [← ComputerMove_eq_reference board size hwf]
  exact hcm

/-- C7 on a 3x3 position with two free cells. -/
theorem ComputerMove_matches_reference_witness :
    wellFormed twoLeft 3 ∧
    ∃ i < 3, ∃ j < 3, twoLeft i j = emptyChar ∧
      ComputerMove twoLeft 3 = some (setCell twoLeft i j secondPlayerChar) ∧
      referenceComputerMove twoLeft 3 = some (setCell twoLeft i j secondPlayerChar) :=
  ⟨by decide, ComputerMove_matches_reference twoLeft 3 (by decide) (by decide) (by decide)⟩

/-! ## The computer moving first on the 3x3 board -/

theorem safeFor_not_lost (n : Nat) (oToMove : Bool) (board : Board)
    (h : safeFor n oToMove board = true) : checkWin board 3 ≠ firstPlayerChar := by
  cases n with
  | zero => simp [safeFor] at h
  | succ n =>
    intro hx
    unfold safeFor at h
    simp only [hx, if_true] at h
    exact absurd h (by simp)

theorem safeFor_o_step (n : Nat) (board : Board) (h : safeFor (n + 1) true board = true)
    (hong : checkWin board 3 = emptyChar) :
    ∃ m ∈ GetAvailableMoves board 3,
      safeFor n false (setCell board m.1 m.2 secondPlayerChar) = true := by
  have c1 : ¬ checkWin board 3 = firstPlayerChar := by
    rw [hong]; exact marks_distinct.2.2.1.symm
  have c2 : ¬ (checkWin board 3 ≠ emptyChar) := by rw [hong]; simp
  unfold safeFor at h
  simp only at h
  rw [if_neg c1, if_neg c2] at h
  simpa using h

theorem safeFor_x_step (n : Nat) (board : Board) (h : safeFor (n + 1) false board = true)
    (hong : checkWin board 3 = emptyChar) :
    ∀ m ∈ GetAvailableMoves board 3,
      safeFor n true (setCell board m.1 m.2 firstPlayerChar) = true := by
  have c1 : ¬ checkWin board 3 = firstPlayerChar := by
    rw [hong]; exact marks_distinct.2.2.1.symm
  have c2 : ¬ (checkWin board 3 ≠ emptyChar) := by rw [hong]; simp
  unfold safeFor at h
  simp only at h
  rw [if_neg c1, if_neg c2] at h
  simpa using h

theorem placeChar_free (field : Board) (x y : Nat) (c : Char)
    (h : (placeChar field x y c).1 = true) :
    field y x = emptyChar ∧ (placeChar field x y c).2 = setCell field y x c := by
  have hfree : field y x = emptyChar := by simpa [placeChar] using h
  refine ⟨hfree, ?_⟩
  simp [placeChar, hfree]

theorem checkWin_ongoing_has_move (board : Board) (size : Nat) (hwf : wellFormed board size)
    (hong : checkWin board size = emptyChar) :
    ∃ i < size, ∃ j < size, board i j = emptyChar := by
  obtain ⟨_, _, d3, _, d5, d6⟩ := marks_distinct
  have hnd : ¬ isDraw board size = true := by
    rcases checkWin_cases board size with h | h | ⟨h, _⟩ | ⟨_, h⟩
    · exact absurd (h.symm.trans hong) d3
    · exact absurd (h.symm.trans hong) d5
    · exact absurd (h.symm.trans hong) d6
    · rw [h]; simp
  obtain ⟨m, hm⟩ := List.exists_mem_of_ne_nil _ (moves_ne_nil_of_not_isDraw board size hwf hnd)
  rw [mem_GetAvailableMoves] at hm
  exact ⟨m.1, hm.1, m.2, hm.2.1, hm.2.2⟩

theorem ComputerMove_returns (board : Board) (hwf : wellFormed board 3)
    (hong : checkWin board 3 = emptyChar) :
    ∃ after, ComputerMove board 3 = some after ∧ wellFormed after 3 := by
  have hempty := checkWin_ongoing_has_move board 3 hwf hong
  obtain ⟨best, _, _, _, hbest, _, _⟩ := bestMoveOf_spec board 3 hwf hempty
  refine ⟨setCell board best.1 best.2 secondPlayerChar, ?_,
    wellFormed_setCell _ _ _ _ _ hwf (Or.inr rfl)⟩
  rw [ComputerMove_eq, hbest]; rfl

/-- From a position that is safe with `o` to move, `ComputerMove` moves to a position that
is safe with `x` to move. -/
theorem ComputerMove_keeps_safe (board after : Board) (hwf : wellFormed board 3)
    (hong : checkWin board 3 = emptyChar) (n : Nat) (hn : emptyCount board 3 < n)
    (hsafe : safeFor n true board = true) (hmove : ComputerMove board 3 = some after) :
    wellFormed after 3 ∧ emptyCount after 3 < emptyCount board 3 ∧
      safeFor (emptyCount board 3) false after = true := by
  have hempty := checkWin_ongoing_has_move board 3 hwf hong
  obtain ⟨best, pre, post, hlist, hbest, hpre, hpost⟩ := bestMoveOf_spec board 3 hwf hempty
  have hmem : best ∈ GetAvailableMoves board 3 := by
    rw [hlist]; exact List.mem_append_right _ (List.mem_cons_self _ _)
  have hafter : after = setCell board best.1 best.2 secondPlayerChar := by
    rw [ComputerMove_eq, hbest] at hmove
    exact (Option.some.inj hmove).symm
  have hle := emptyCount_le board 3
  have hlt : ∀ m ∈ GetAvailableMoves board 3,
      emptyCount (setCell board m.1 m.2 secondPlayerChar) 3 < emptyCount board 3 :=
    fun m hm => emptyCount_setCell_lt board 3 m.1 m.2 _ hm marks_distinct.2.2.2.2.1
  have hwfc : ∀ m : Nat × Nat, wellFormed (setCell board m.1 m.2 secondPlayerChar) 3 :=
    fun m => wellFormed_setCell _ _ _ _ _ hwf (Or.inr rfl)
  have hscore : ∀ m ∈ GetAvailableMoves board 3,
      MinimaxScore (3 * 3 + 1) (setCell board m.1 m.2 secondPlayerChar) 3 (maxDepthOf 3) false
        (-1000) 1000 =
      referenceMinimax (3 * 3 + 1) (setCell board m.1 m.2 secondPlayerChar) 3 9 false :=
    fun m _ => MinimaxScore_eq_reference _ _ 3 9 false (hwfc m) (by omega) (by omega)
  cases n with
  | zero => omega
  | succ n =>
    obtain ⟨m0, hm0, hsafe0⟩ := safeFor_o_step n board hsafe hong
    have h0 := hlt m0 hm0
    have hv0 : 0 ≤ referenceMinimax (3 * 3 + 1) (setCell board m0.1 m0.2 secondPlayerChar) 3 9
        false :=
      (safeFor_iff_reference n (3 * 3 + 1) _ 9 false (hwfc m0) (by omega) (by omega)
        (by omega) (by omega)).mp hsafe0
    have hbestge : referenceMinimax (3 * 3 + 1) (setCell board m0.1 m0.2 secondPlayerChar) 3 9
        false ≤
        referenceMinimax (3 * 3 + 1) (setCell board best.1 best.2 secondPlayerChar) 3 9 false := by
      rw [← hscore m0 hm0, ← hscore best hmem]
      have hm0' := hm0
      rw [hlist, List.mem_append, List.mem_cons] at hm0'
      rcases hm0' with hm | rfl | hm
      · exact le_of_lt (hpre m0 hm)
      · exact le_refl _
      · exact hpost m0 hm
    have hb := hlt best hmem
    rw [hafter]
    refine ⟨hwfc best, hb, ?_⟩
    exact (safeFor_iff_reference (emptyCount board 3) (3 * 3 + 1) _ 9 false (hwfc best) hb
      (by omega) (by omega) (by omega)).mpr (le_trans hv0 hbestge)

/-- Every board on which the computer is about to move is well formed, ongoing and safe
with `o` to move. -/
theorem AiToMove_safe (board : Board) (h : AiToMove board) :
    wellFormed board 3 ∧ checkWin board 3 = emptyChar ∧
      ∃ n, emptyCount board 3 < n ∧ safeFor n true board = true := by
  induction h with
  | start =>
    refine ⟨by decide, by decide, 10, ?_, safeFor_emptyBoard⟩
    have := emptyCount_le emptyBoard 3
    omega
  | reply board after x y _ hmove hong hx hy hfree hong2 ih =>
    obtain ⟨hwf, hongb, n, hn, hsafe⟩ := ih
    obtain ⟨hwfa, hlt, hsafea⟩ := ComputerMove_keeps_safe board after hwf hongb n hn hsafe hmove
    obtain ⟨hcell, hplace⟩ := placeChar_free after x y firstPlayerChar hfree
    rw [hplace] at hong2 ⊢
    have hm : (y, x) ∈ GetAvailableMoves after 3 :=
      (mem_GetAvailableMoves after 3 (y, x)).mpr ⟨hy, hx, hcell⟩
    have hlt2 := emptyCount_setCell_lt after 3 y x firstPlayerChar hm marks_distinct.2.2.1
    refine ⟨wellFormed_setCell _ _ _ _ _ hwfa (Or.inl rfl), hong2, ?_⟩
    cases hk : emptyCount board 3 with
    | zero => omega
    | succ k =>
      rw [hk] at hsafea
      exact ⟨k, by omega, safeFor_x_step k after hsafea hong (y, x) hm⟩

theorem checkWin_not_lost_cases (board : Board) (size : Nat)
    (h : checkWin board size ≠ firstPlayerChar) :
    checkWin board size = emptyChar ∨ checkWin board size = 'd' ∨
      checkWin board size = secondPlayerChar := by
  rcases checkWin_cases board size with h' | h' | ⟨h', _⟩ | ⟨h', _⟩
  · exact absurd h' h
  · exact Or.inr (Or.inr h')
  · exact Or.inr (Or.inl h')
  · exact Or.inl h'

/-- C10: in a 3x3 game that starts from the empty board, with the computer placing every
`o` through `ComputerMove` and `x` answering each time on any free cell, whenever it is the
computer's turn `ComputerMove` returns, the position it leaves is ongoing, a draw or an
`o` win, and if it is ongoing every answer of `x` leaves a position that again is ongoing,
a draw or an `o` win. So the game never ends with a win of `x`. -/
theorem computer_first_never_loses (board : Board) (h : AiToMove board) :
    ∃ after, ComputerMove board 3 = some after ∧
      (checkWin after 3 = emptyChar ∨ checkWin after 3 = 'd' ∨
        checkWin after 3 = secondPlayerChar) ∧
      ∀ x y, x < 3 → y < 3 → checkWin after 3 = emptyChar →
        (placeChar after x y firstPlayerChar).1 = true →
        (checkWin (placeChar after x y firstPlayerChar).2 3 = emptyChar ∨
          checkWin (placeChar after x y firstPlayerChar).2 3 = 'd' ∨
          checkWin (placeChar after x y firstPlayerChar).2 3 = secondPlayerChar) := by
  obtain ⟨hwf, hong, n, hn, hsafe⟩ := AiToMove_safe board h
  obtain ⟨after, hmove, _⟩ := ComputerMove_returns board hwf hong
  obtain ⟨_, hlt, hsafea⟩ := ComputerMove_keeps_safe board after hwf hong n hn hsafe hmove
  refine ⟨after, hmove, checkWin_not_lost_cases _ _ (safeFor_not_lost _ _ _ hsafea), ?_⟩
  intro x y hx hy hong2 hfree
  obtain ⟨hcell, hplace⟩ := placeChar_free after x y firstPlayerChar hfree
  rw [hplace]
  have hm : (y, x) ∈ GetAvailableMoves after 3 :=
    (mem_GetAvailableMoves after 3 (y, x)).mpr ⟨hy, hx, hcell⟩
  cases hk : emptyCount board 3 with
  | zero => omega
  | succ k =>
    rw [hk] at hsafea
    exact checkWin_not_lost_cases _ _
      (safeFor_not_lost _ _ _ (safeFor_x_step k after hsafea hong2 (y, x) hm))

/-- C10 at the first move of the game. -/
theorem computer_first_never_loses_witness :
    ∃ after, ComputerMove emptyBoard 3 = some after ∧
      (checkWin after 3 = emptyChar ∨ checkWin after 3 = 'd' ∨
        checkWin after 3 = secondPlayerChar) ∧
      ∀ x y, x < 3 → y < 3 → checkWin after 3 = emptyChar →
        (placeChar after x y firstPlayerChar).1 = true →
        (checkWin (placeChar after x y firstPlayerChar).2 3 = emptyChar ∨
          checkWin (placeChar after x y firstPlayerChar).2 3 = 'd' ∨
          checkWin (placeChar after x y firstPlayerChar).2 3 = secondPlayerChar) :=
  computer_first_never_loses emptyBoard AiToMove.start

/-! ## Bounds on the plain minimax value of a 3x3 position, by search -/

theorem mem_tryMoves (board : Board) (m : Nat × Nat) :
    m ∈ tryMoves board ↔ m ∈ GetAvailableMoves board 3 := by
  unfold tryMoves tryOrder
  rw [mem_GetAvailableMoves, List.mem_filter]
  obtain ⟨i, j⟩ := m
  simp only [List.mem_cons, Prod.mk.injEq, List.mem_nil_iff, or_false, beq_iff_eq]
  constructor
  · rintro ⟨h, he⟩
    exact ⟨by omega, by omega, he⟩
  · rintro ⟨h1, h2, he⟩
    exact ⟨by omega, he⟩

theorem referenceMinimax3_succ (fuel : Nat) (board : Board) (depth : Int) (isMaximizing : Bool) :
    referenceMinimax (fuel + 1) board 3 depth isMaximizing =
      if won3 board firstPlayerChar = true then -10 - depth
      else if won3 board secondPlayerChar = true then 10 - depth
      else if depth = 0 ∨ full3 board = true then 0
      else if isMaximizing = true then
        (GetAvailableMoves board 3).foldl (fun best m => max best
          (referenceMinimax fuel (setCell board m.1 m.2 secondPlayerChar) 3 (depth - 1) false))
          (-1000)
      else
        (GetAvailableMoves board 3).foldl (fun best m => min best
          (referenceMinimax fuel (setCell board m.1 m.2 firstPlayerChar) 3 (depth - 1) true))
          1000 := by
  have hsx : statusScore firstPlayerChar = -10 := rfl
  have hso : statusScore secondPlayerChar = 10 := rfl
  have hsd : statusScore 'd' = 0 := by decide
  have hse : statusScore emptyChar = 0 := by decide
  have h0 : ¬ ((0 : Int) = 10 ∨ (0 : Int) = -10) := by omega
  have h1 : ((-10 : Int) = 10 ∨ (-10 : Int) = -10) := Or.inr rfl
  have h2 : ((10 : Int) = 10 ∨ (10 : Int) = -10) := Or.inl rfl
  conv_lhs => unfold referenceMinimax
  simp only [checkWin3_eq, isDraw3_eq]
  unfold status3
  cases hx : won3 board firstPlayerChar with
  | true => simp only [if_true, hsx, h1, or_true, true_or]
  | false =>
    cases ho : won3 board secondPlayerChar with
    | true => simp only [Bool.false_eq_true, if_true, if_false, hso, h2, or_true, true_or]
    | false =>
      cases hf : full3 board with
      | true => simp only [Bool.false_eq_true, if_true, if_false, hsd, h0, or_true]
      | false => simp only [Bool.false_eq_true, if_false, hse, h0, or_false]

theorem foldl_max_le_iff (value : Nat × Nat → Int) (t : Int) :
    ∀ (ms : List (Nat × Nat)) (acc : Int),
      ms.foldl (fun best m => max best (value m)) acc ≤ t ↔ (acc ≤ t ∧ ∀ m ∈ ms, value m ≤ t) := by
  intro ms
  induction ms with
  | nil => intro acc; simp
  | cons m rest ih =>
    intro acc
    simp only [List.foldl_cons, ih, List.mem_cons, forall_eq_or_imp, max_le_iff]
    tauto

theorem foldl_min_le_iff (value : Nat × Nat → Int) (t : Int) :
    ∀ (ms : List (Nat × Nat)) (acc : Int),
      ms.foldl (fun best m => min best (value m)) acc ≤ t ↔ (acc ≤ t ∨ ∃ m ∈ ms, value m ≤ t) := by
  intro ms
  induction ms with
  | nil => intro acc; simp
  | cons m rest ih =>
    intro acc
    simp only [List.foldl_cons, ih, List.mem_cons, exists_eq_or_imp, min_le_iff]
    tauto

theorem atLeast3_iff :
    ∀ (fuel : Nat) (board : Board) (depth : Int) (isMaximizing : Bool) (t : Int),
      atLeast3 fuel board depth isMaximizing t = true ↔
        t ≤ referenceMinimax fuel board 3 depth isMaximizing := by
  intro fuel
  induction fuel with
  | zero =>
    intro board depth isMaximizing t
    simp [atLeast3, referenceMinimax]
  | succ fuel ih =>
    intro board depth isMaximizing t
    rw [referenceMinimax3_succ]
    unfold atLeast3
    cases hx : won3 board firstPlayerChar with
    | true => simp only [if_true, decide_eq_true_eq]
    | false =>
      cases ho : won3 board secondPlayerChar with
      | true => simp only [Bool.false_eq_true, if_true, if_false, decide_eq_true_eq]
      | false =>
        by_cases hd : depth = 0 ∨ full3 board = true
        · simp only [hd, Bool.false_eq_true, if_true, if_false, decide_eq_true_eq]
        · cases isMaximizing with
          | true =>
            simp only [hd, Bool.false_eq_true, if_true, if_false, Bool.or_eq_true, decide_eq_true_eq,
              List.any_eq_true, le_foldl_max_iff, mem_tryMoves, ih]
          | false =>
            simp only [hd, if_false, Bool.false_eq_true, Bool.and_eq_true,
              decide_eq_true_eq, List.all_eq_true, le_foldl_min_iff, mem_tryMoves, ih]

theorem atMost3_iff :
    ∀ (fuel : Nat) (board : Board) (depth : Int) (isMaximizing : Bool) (t : Int),
      atMost3 fuel board depth isMaximizing t = true ↔
        referenceMinimax fuel board 3 depth isMaximizing ≤ t := by
  intro fuel
  induction fuel with
  | zero =>
    intro board depth isMaximizing t
    simp [atMost3, referenceMinimax]
  | succ fuel ih =>
    intro board depth isMaximizing t
    rw [referenceMinimax3_succ]
    unfold atMost3
    cases hx : won3 board firstPlayerChar with
    | true => simp only [if_true, decide_eq_true_eq]
    | false =>
      cases ho : won3 board secondPlayerChar with
      | true => simp only [Bool.false_eq_true, if_true, if_false, decide_eq_true_eq]
      | false =>
        by_cases hd : depth = 0 ∨ full3 board = true
        · simp only [hd, Bool.false_eq_true, if_true, if_false, decide_eq_true_eq]
        · cases isMaximizing with
          | true =>
            simp only [hd, Bool.false_eq_true, if_true, if_false, Bool.and_eq_true, decide_eq_true_eq,
              List.all_eq_true, foldl_max_le_iff, mem_tryMoves, ih]
          | false =>
            simp only [hd, if_false, Bool.false_eq_true, Bool.or_eq_true,
              decide_eq_true_eq, List.any_eq_true, foldl_min_le_iff, mem_tryMoves, ih]

theorem rowMajor_trichotomy (p q : Nat × Nat) (h : p ≠ q) :
    rowMajorBefore p q ∨ rowMajorBefore q p := by
  obtain ⟨a, b⟩ := p
  obtain ⟨c, d⟩ := q
  unfold rowMajorBefore
  simp only
  by_cases h1 : a = c
  · by_cases h2 : b = d
    · exact absurd (by rw [h1, h2]) h
    · omega
  · omega

/-- The choice of `ComputerMove` on a well-formed board with a free cell, in terms of the
scores: a free cell of maximal score that is strictly better than every earlier free cell. -/
theorem bestMoveOf_first_best (board : Board) (size : Nat) (hwf : wellFormed board size)
    (hempty : ∃ i < size, ∃ j < size, board i j = emptyChar) :
    ∃ best ∈ GetAvailableMoves board size, bestMoveOf board size = some best ∧
      (∀ m ∈ GetAvailableMoves board size,
        MinimaxScore (size * size + 1) (setCell board m.1 m.2 secondPlayerChar) size
          (maxDepthOf size) false (-1000) 1000 ≤
        MinimaxScore (size * size + 1) (setCell board best.1 best.2 secondPlayerChar) size
          (maxDepthOf size) false (-1000) 1000) ∧
      (∀ m ∈ GetAvailableMoves board size, rowMajorBefore m best →
        MinimaxScore (size * size + 1) (setCell board m.1 m.2 secondPlayerChar) size
          (maxDepthOf size) false (-1000) 1000 <
        MinimaxScore (size * size + 1) (setCell board best.1 best.2 secondPlayerChar) size
          (maxDepthOf size) false (-1000) 1000) := by
  obtain ⟨best, pre, post, hlist, hbest, hpre, hpost⟩ := bestMoveOf_spec board size hwf hempty
  have hmem : best ∈ GetAvailableMoves board size := by
    rw [hlist]; exact List.mem_append_right _ (List.mem_cons_self _ _)
  have hsorted := GetAvailableMoves_sorted board size
  rw [hlist, List.pairwise_append, List.pairwise_cons] at hsorted
  obtain ⟨_, ⟨hafter, _⟩, _⟩ := hsorted
  refine ⟨best, hmem, hbest, ?_, ?_⟩
  · intro m hm
    rw [hlist, List.mem_append, List.mem_cons] at hm
    rcases hm with hm | rfl | hm
    · exact le_of_lt (hpre m hm)
    · exact le_refl _
    · exact hpost m hm
  · intro m hm hbefore
    rw [hlist, List.mem_append, List.mem_cons] at hm
    rcases hm with hm | rfl | hm
    · exact hpre m hm
    · exfalso
      unfold rowMajorBefore at hbefore
      omega
    · exfalso
      have := hafter m hm
      unfold rowMajorBefore at hbefore this
      omega

/-- A successful check `certifies board m v` on a well-formed 3x3 board determines the
move of `ComputerMove`. -/
theorem ComputerMove3_of_certifies (board : Board) (m : Nat × Nat) (v : Int)
    (hwf : wellFormed board 3) (h : certifies board m v = true) :
    ComputerMove board 3 = some (setCell board m.1 m.2 secondPlayerChar) := by
  unfold certifies at h
  rw [Bool.and_eq_true, List.all_eq_true, ← GetAvailableMoves3_eq] at h
  obtain ⟨hm, hall⟩ := h
  have hm : m ∈ GetAvailableMoves board 3 := List.elem_iff.mp hm
  have hmr := (mem_GetAvailableMoves board 3 m).mp hm
  obtain ⟨best, hbmem, hbest, hmax, hfirst⟩ :=
    bestMoveOf_first_best board 3 hwf ⟨m.1, hmr.1, m.2, hmr.2.1, hmr.2.2⟩
  have hscore : ∀ p : Nat × Nat,
      MinimaxScore (3 * 3 + 1) (setCell board p.1 p.2 secondPlayerChar) 3 (maxDepthOf 3) false
        (-1000) 1000 =
      referenceMinimax 10 (setCell board p.1 p.2 secondPlayerChar) 3 9 false :=
    fun p => MinimaxScore_eq_reference _ _ 3 9 false
      (wellFormed_setCell _ _ _ _ _ hwf (Or.inr rfl)) (by omega) (by omega)
  have hm_ge : v ≤ referenceMinimax 10 (setCell board m.1 m.2 secondPlayerChar) 3 9 false := by
    have := hall m hm
    rw [if_pos rfl, atLeast3_iff] at this
    exact this
  have hbm : best = m := by
    by_contra hne
    have hb := hall best hbmem
    rw [if_neg hne] at hb
    rcases rowMajor_trichotomy best m hne with hlt | hlt
    · rw [if_pos hlt, atMost3_iff] at hb
      have := hmax m hm
      rw [hscore m, hscore best] at this
      omega
    · have hnot : ¬ rowMajorBefore best m := by
        unfold rowMajorBefore at hlt ⊢
        omega
      rw [if_neg hnot, atMost3_iff] at hb
      have := hfirst m hm hlt
      rw [hscore m, hscore best] at this
      omega
  rw [ComputerMove_eq, hbest, hbm]
  rfl

theorem Minimax_terminal (fuel : Nat) (board : Board) (size : Nat) (depth : Int)
    (isMaximizing : Bool) (alpha beta : Int)
    (h : statusScore (checkWin board size) = 10 ∨ statusScore (checkWin board size) = -10) :
    Minimax (fuel + 1) board size depth isMaximizing alpha beta =
      some (statusScore (checkWin board size) - depth, board) := by
  unfold Minimax
  simp only [h, if_true]

theorem certifies_emptyBoard : certifies emptyBoard (0, 0) 0 = true := by
  decide!

theorem certifies_delayedWin : certifies delayedWin (0, 1) 3 = true := by
  decide!

theorem certifies_game1 : certifies game1 (1, 1) 0 = true := by
  decide!

theorem certifies_game3 : certifies game3 (0, 2) 0 = true := by
  decide!

theorem certifies_game5 : certifies game5 (1, 0) 0 = true := by
  decide!

theorem certifies_game7 : certifies game7 (2, 1) 0 = true := by
  decide!

/-- C11: on the all-empty 3x3 board `ComputerMove` places its single `o` on a corner or on
the centre, one of (0,0), (0,2), (1,1), (2,0), (2,2); the cell it takes is the corner (0,0). -/
theorem ComputerMove_opening :
    ∃ m ∈ [(0, 0), (0, 2), (1, 1), (2, 0), (2, 2)],
      ComputerMove emptyBoard 3 = some (setCell emptyBoard m.1 m.2 secondPlayerChar) ∧
      m = (0, 0) :=
  ⟨(0, 0), by decide,
    ComputerMove3_of_certifies emptyBoard (0, 0) 0 (by decide) certifies_emptyBoard,
    rfl⟩

/-- C12 fails on the code: the position `o _ _ / x o x / _ x _` is well formed and ongoing
and `o` on (2,2) would win at once, yet `ComputerMove` puts its `o` on (0,1), after which
`checkWin` still reports an ongoing game. -/
theorem ComputerMove_delays_win :
    wellFormed delayedWin 3 ∧ checkWin delayedWin 3 = emptyChar ∧
      delayedWin 2 2 = emptyChar ∧
      checkWin (setCell delayedWin 2 2 secondPlayerChar) 3 = secondPlayerChar ∧
      ComputerMove delayedWin 3 = some (setCell delayedWin 0 1 secondPlayerChar) ∧
      checkWin (setCell delayedWin 0 1 secondPlayerChar) 3 = emptyChar := by
  refine ⟨by decide, ?_, by decide, ?_,
    ComputerMove3_of_certifies delayedWin (0, 1) 3 (by decide) certifies_delayedWin,
    ?_⟩
  · rw [checkWin3_eq]; decide
  · rw [checkWin3_eq]; decide
  · rw [checkWin3_eq]; decide

/-- C13 fails on the code: on a board won by `o`, `Minimax` called with the larger remaining
depth 9 (fewer plies searched) returns 1, and called with remaining depth 7 it returns 3, so
the win found earlier gets the lower score. -/
theorem Minimax_earlier_win_scores_lower :
    checkWin fourInARow 5 = secondPlayerChar ∧
      Minimax 1 fourInARow 5 9 true (-1000) 1000 = some (1, fourInARow) ∧
      Minimax 1 fourInARow 5 7 true (-1000) 1000 = some (3, fourInARow) := by
  have hw : checkWin fourInARow 5 = secondPlayerChar := by decide
  have hs : statusScore (checkWin fourInARow 5) = 10 := by rw [hw]; rfl
  refine ⟨hw, ?_, ?_⟩
  · rw [Minimax_terminal 0 _ _ _ _ _ _ (Or.inl hs), hs]; rfl
  · rw [Minimax_terminal 0 _ _ _ _ _ _ (Or.inl hs), hs]; rfl


/-! ## findRandom -/

theorem mem_findPositions (board : Board) (size : Nat) (toFind : Char) (m : Nat × Nat) :
    m ∈ findPositions board size toFind ↔
      m.1 < size ∧ m.2 < size ∧ board m.1 m.2 = toFind := by
  unfold findPositions
  simp only [List.mem_flatMap, List.mem_map, List.mem_filter, List.mem_range, beq_iff_eq]
  constructor
  · rintro ⟨i, hi, j, ⟨hj, he⟩, rfl⟩
    exact ⟨hi, hj, he⟩
  · rintro ⟨h1, h2, h3⟩
    exact ⟨m.1, h1, m.2, ⟨h2, h3⟩, rfl⟩

theorem findPositions_sorted (board : Board) (size : Nat) (toFind : Char) :
    (findPositions board size toFind).Pairwise rowMajorBefore := by
  unfold findPositions
  rw [List.pairwise_flatMap]
  constructor
  · intro i _
    rw [List.pairwise_map]
    exact ((List.pairwise_lt_range size).sublist (List.filter_sublist _)).imp
      (fun h => Or.inr ⟨rfl, h⟩)
  · refine (List.pairwise_lt_range size).imp ?_
    intro a b hab x hx y hy
    rw [List.mem_map] at hx hy
    obtain ⟨_, _, rfl⟩ := hx
    obtain ⟨_, _, rfl⟩ := hy
    exact Or.inl hab

theorem findPositions_nodup (board : Board) (size : Nat) (toFind : Char) :
    (findPositions board size toFind).Nodup := by
  refine (findPositions_sorted board size toFind).imp ?_
  intro a b h hab
  rw [hab] at h
  unfold rowMajorBefore at h
  omega

theorem findRandom_false_iff (board : Board) (size x y : Nat) (toFind : Char) (r : Nat) :
    (findRandom board size x y toFind r).1 = false ↔
      ∀ i < size, ∀ j < size, board i j ≠ toFind := by
  unfold findRandom
  simp only
  by_cases h : (findPositions board size toFind).length = 0
  · rw [if_pos h]
    simp only [true_iff]
    intro i hi j hj he
    have hm := (mem_findPositions board size toFind (i, j)).mpr ⟨hi, hj, he⟩
    rw [List.length_eq_zero] at h
    rw [h] at hm
    exact absurd hm (List.not_mem_nil _)
  · rw [if_neg h]
    simp only [Bool.true_eq_false, false_iff]
    intro hall
    have hne : findPositions board size toFind ≠ [] := fun hnil => h (by rw [hnil]; rfl)
    obtain ⟨m, hm⟩ := List.exists_mem_of_ne_nil _ hne
    rw [mem_findPositions] at hm
    exact hall m.1 hm.1 m.2 hm.2.1 hm.2.2

theorem findRandom_true (board : Board) (size x y : Nat) (toFind : Char) (r : Nat)
    (h : (findRandom board size x y toFind r).1 = true) :
    0 < (findPositions board size toFind).length ∧
      (findRandom board size x y toFind r).2 =
        (findPositions board size toFind).getD
          (r % (findPositions board size toFind).length) (0, 0) := by
  unfold findRandom at h ⊢
  simp only at h ⊢
  by_cases hc : (findPositions board size toFind).length = 0
  · rw [if_pos hc] at h
    exact absurd h (by simp)
  · rw [if_neg hc]
    exact ⟨Nat.pos_of_ne_zero hc, rfl⟩

/-- C18: with `rand()` returning an arbitrary `r`, `findRandom` returns false, leaving `*x`
and `*y` untouched, exactly when no cell of the region holds `toFind`; otherwise it returns
true and outputs the cell number `r mod count` of the `count` cells holding `toFind` in
row-major order, so `board[*x][*y] == toFind`, and the cell with index `k` is the output
exactly when `r mod count = k`. -/
theorem findRandom_spec (board : Board) (size x y : Nat) (toFind : Char) (r : Nat)
    (_hsize : 1 ≤ size ∧ size ≤ 5) :
    ((findRandom board size x y toFind r).1 = false ↔
        ∀ i < size, ∀ j < size, board i j ≠ toFind) ∧
    ((findRandom board size x y toFind r).1 = false →
        (findRandom board size x y toFind r).2 = (x, y)) ∧
    (findPositions board size toFind).Pairwise rowMajorBefore ∧
    (∀ p, p ∈ findPositions board size toFind ↔
        p.1 < size ∧ p.2 < size ∧ board p.1 p.2 = toFind) ∧
    ((findRandom board size x y toFind r).1 = true →
      0 < (findPositions board size toFind).length ∧
      (findRandom board size x y toFind r).2 =
        (findPositions board size toFind).getD
          (r % (findPositions board size toFind).length) (0, 0) ∧
      board (findRandom board size x y toFind r).2.1 (findRandom board size x y toFind r).2.2 =
        toFind ∧
      ∀ k < (findPositions board size toFind).length,
        ((findPositions board size toFind).getD k (0, 0) =
            (findRandom board size x y toFind r).2 ↔
          r % (findPositions board size toFind).length = k)) := by
  refine ⟨findRandom_false_iff board size x y toFind r, ?_, findPositions_sorted board size toFind,
    mem_findPositions board size toFind, ?_⟩
  · intro h
    unfold findRandom at h ⊢
    simp only at h ⊢
    by_cases hc : (findPositions board size toFind).length = 0
    · rw [if_pos hc]
    · rw [if_neg hc] at h
      exact absurd h (by simp)
  · intro h
    obtain ⟨hpos, hout⟩ := findRandom_true board size x y toFind r h
    have hlt : r % (findPositions board size toFind).length <
        (findPositions board size toFind).length := Nat.mod_lt _ hpos
    refine ⟨hpos, hout, ?_, ?_⟩
    · have hmem : (findRandom board size x y toFind r).2 ∈ findPositions board size toFind := by
        rw [hout, List.getD_eq_getElem _ _ hlt]
        exact List.getElem_mem _
      exact ((mem_findPositions board size toFind _).mp hmem).2.2
    · intro k hk
      rw [hout, List.getD_eq_getElem _ _ hlt, List.getD_eq_getElem _ _ hk,
        (findPositions_nodup board size toFind).getElem_inj_iff]
      exact eq_comm

/-- C18 on the 3x3 board with a row of `x` above a row of `o`, looking for `o` with
`rand()` returning 4: the output is the cell with index 1, (1, 1). -/
theorem findRandom_spec_witness :
    (1 ≤ 3 ∧ 3 ≤ 5) ∧ (findRandom bothLines 3 7 7 secondPlayerChar 4).1 = true ∧
      (findRandom bothLines 3 7 7 secondPlayerChar 4).2 =
        (findPositions bothLines 3 secondPlayerChar).getD
          (4 % (findPositions bothLines 3 secondPlayerChar).length) (0, 0) :=
  ⟨by decide, by decide,
    ((findRandom_spec bothLines 3 7 7 secondPlayerChar 4 (by decide)).2.2.2.2 (by decide)).2.1⟩

theorem findRandomXO_true_iff (board : Board) (size x1 y1 x2 y2 r1 r2 : Nat) :
    (findRandomXO board size x1 y1 x2 y2 r1 r2).1 = true ↔
      ((∃ i < size, ∃ j < size, board i j = firstPlayerChar) ∧
        ∃ i < size, ∃ j < size, board i j = secondPlayerChar) := by
  have key : ∀ (x y : Nat) (c : Char) (r : Nat),
      (findRandom board size x y c r).1 = true ↔ ∃ i < size, ∃ j < size, board i j = c := by
    intro x y c r
    have := findRandom_false_iff board size x y c r
    constructor
    · intro h
      by_contra hne
      push_neg at hne
      have := this.mpr hne
      rw [h] at this
      exact absurd this (by simp)
    · rintro ⟨i, hi, j, hj, he⟩
      by_contra hne
      have hf : (findRandom board size x y c r).1 = false := by simpa using hne
      exact this.mp hf i hi j hj he
  unfold findRandomXO
  simp only [Bool.and_eq_true, key]

/-- C19: `findRandomXO` returns true exactly when the region holds at least one `x` and at
least one `o`; when it returns false the removal step of the caller clears no cell. -/
theorem findRandomXO_spec (board : Board) (size r1 r2 : Nat) (_hsize : 1 ≤ size ∧ size ≤ 5) :
    (∀ x1 y1 x2 y2, (findRandomXO board size x1 y1 x2 y2 r1 r2).1 = true ↔
      ((∃ i < size, ∃ j < size, board i j = firstPlayerChar) ∧
        ∃ i < size, ∃ j < size, board i j = secondPlayerChar)) ∧
    ((findRandomXO board size 0 0 0 0 r1 r2).1 = false →
      removalStep board size r1 r2 = board) := by
  refine ⟨fun x1 y1 x2 y2 => findRandomXO_true_iff board size x1 y1 x2 y2 r1 r2, ?_⟩
  intro h
  unfold removalStep
  simp only [h, Bool.false_eq_true, if_false]

/-- C19 on the 3x3 board that holds a single `x`: no `o`, so the result is false and the
removal step changes nothing. -/
theorem findRandomXO_spec_witness :
    (1 ≤ 3 ∧ 3 ≤ 5) ∧ (findRandomXO cornerTaken 3 0 0 0 0 5 9).1 = false ∧
      removalStep cornerTaken 3 5 9 = cornerTaken :=
  ⟨by decide, by decide,
    (findRandomXO_spec cornerTaken 3 5 9 (by decide)).2 (by decide)⟩

/-! ## Removal of a pair of marks -/

theorem occupiedCells_setCell_empty (board : Board) (size i j : Nat) :
    occupiedCells (setCell board i j emptyChar) size = (occupiedCells board size).erase (i, j) := by
  ext p
  simp only [occupiedCells, Finset.mem_filter, Finset.mem_erase, Finset.mem_product,
    Finset.mem_range]
  by_cases h : p.1 = i ∧ p.2 = j
  · have hp : p = (i, j) := Prod.ext h.1 h.2
    rw [h.1, h.2, setCell_same]
    simp [hp]
  · have hp : p ≠ (i, j) := fun hp => h ⟨by rw [hp], by rw [hp]⟩
    rw [setCell_other _ _ _ _ _ _ (by tauto)]
    simp [hp]

theorem occupiedCount_setCell_empty (board : Board) (size i j : Nat) :
    occupiedCount (setCell board i j emptyChar) size = occupiedCount board size ∨
      occupiedCount (setCell board i j emptyChar) size + 1 = occupiedCount board size := by
  unfold occupiedCount
  rw [occupiedCells_setCell_empty]
  by_cases h : (i, j) ∈ occupiedCells board size
  · right
    rw [Finset.card_erase_of_mem h]
    have := Finset.card_pos.mpr ⟨_, h⟩
    omega
  · left
    rw [Finset.erase_eq_of_not_mem h]

/-- C17: when `findRandomXO` succeeds and the session clears `field[y1][x1]` and
`field[y2][x2]`, every cell keeps its content or becomes empty, at most two cells change
and the number of occupied cells of the region decreases by 0, 1 or 2. -/
theorem removal_invariant (board : Board) (size r1 r2 : Nat)
    (_hsize : size = 3 ∨ size = 4 ∨ size = 5)
    (hfound : (findRandomXO board size 0 0 0 0 r1 r2).1 = true) :
    (∀ i j, removalStep board size r1 r2 i j = board i j ∨
      removalStep board size r1 r2 i j = emptyChar) ∧
    (∃ p q : Nat × Nat, ∀ i j, (i, j) ≠ p → (i, j) ≠ q →
      removalStep board size r1 r2 i j = board i j) ∧
    (occupiedCount (removalStep board size r1 r2) size = occupiedCount board size ∨
      occupiedCount (removalStep board size r1 r2) size + 1 = occupiedCount board size ∨
      occupiedCount (removalStep board size r1 r2) size + 2 = occupiedCount board size) := by
  unfold removalStep
  simp only [hfound, if_true]
  generalize (findRandomXO board size 0 0 0 0 r1 r2).2.1 = c1
  generalize (findRandomXO board size 0 0 0 0 r1 r2).2.2 = c2
  refine ⟨?_, ⟨(c1.2, c1.1), (c2.2, c2.1), ?_⟩, ?_⟩
  · intro i j
    by_cases h2 : i = c2.2 ∧ j = c2.1
    · right; rw [h2.1, h2.2, setCell_same]
    · rw [setCell_other _ _ _ _ _ _ (by tauto)]
      by_cases h1 : i = c1.2 ∧ j = c1.1
      · right; rw [h1.1, h1.2, setCell_same]
      · left; rw [setCell_other _ _ _ _ _ _ (by tauto)]
  · intro i j hp hq
    have h1 : i ≠ c1.2 ∨ j ≠ c1.1 := by
      by_contra h
      push_neg at h
      exact hp (by rw [h.1, h.2])
    have h2 : i ≠ c2.2 ∨ j ≠ c2.1 := by
      by_contra h
      push_neg at h
      exact hq (by rw [h.1, h.2])
    rw [setCell_other _ _ _ _ _ _ h2, setCell_other _ _ _ _ _ _ h1]
  · have a := occupiedCount_setCell_empty board size c1.2 c1.1
    have b := occupiedCount_setCell_empty (setCell board c1.2 c1.1 emptyChar) size c2.2 c2.1
    omega

/-- C17 on the 3x3 board with a row of `x` above a row of `o`. -/
theorem removal_invariant_witness :
    (findRandomXO bothLines 3 0 0 0 0 0 0).1 = true ∧
    (occupiedCount (removalStep bothLines 3 0 0) 3 = occupiedCount bothLines 3 ∨
      occupiedCount (removalStep bothLines 3 0 0) 3 + 1 = occupiedCount bothLines 3 ∨
      occupiedCount (removalStep bothLines 3 0 0) 3 + 2 = occupiedCount bothLines 3) :=
  ⟨by decide, (removal_invariant bothLines 3 0 0 (by decide) (by decide)).2.2⟩

/-- C16 fails on the code: in a two-player custom-mode session with the removal due, `x` is
placed on row 0, column 2 next to the `x` on row 0, column 1. `findRandomXO` succeeds and
returns (0, 1) for `x`, but the session clears `field[1][0]`, which is empty, so both `x`
stay on the board; only the `o` in the centre is removed. -/
theorem removal_clears_transposed_cell :
    (placeChar removalDue.field 2 0 firstPlayerChar).1 = true ∧
    findRandomXO (placeChar removalDue.field 2 0 firstPlayerChar).2 3 0 0 0 0 0 0 =
      (true, (0, 1), (1, 1)) ∧
    ∃ s', (gameInputEvent removalDue lineFeed 0 0).next = some s' ∧
      s'.field 0 1 = firstPlayerChar ∧ s'.field 0 2 = firstPlayerChar ∧
      s'.field 1 1 = emptyChar ∧
      markCount (placeChar removalDue.field 2 0 firstPlayerChar).2 3 firstPlayerChar = 2 ∧
      markCount s'.field 3 firstPlayerChar = 2 ∧
      markCount (placeChar removalDue.field 2 0 firstPlayerChar).2 3 secondPlayerChar = 1 ∧
      markCount s'.field 3 secondPlayerChar = 0 := by
  refine ⟨by decide, by decide, _, rfl, by decide, by decide, by decide, by decide, by decide,
    by decide, by decide⟩

/-! ## Confirming a placement -/

theorem keys_distinct :
    lineFeed ≠ 'a' ∧ lineFeed ≠ 'd' ∧ lineFeed ≠ 'w' ∧ lineFeed ≠ 's' ∧
      carriageReturn ≠ 'a' ∧ carriageReturn ≠ 'd' ∧ carriageReturn ≠ 'w' ∧
      carriageReturn ≠ 's' := by
  decide

theorem gameInputEvent_confirm (s : Session) (key : Char) (r1 r2 : Nat)
    (hkey : key = lineFeed ∨ key = carriageReturn) :
    gameInputEvent s key r1 r2 = confirmPlacement s r1 r2 := by
  obtain ⟨k1, k2, k3, k4, k5, k6, k7, k8⟩ := keys_distinct
  unfold gameInputEvent
  rcases hkey with h | h <;> subst h
  · rw [if_neg k1, if_neg k2, if_neg k3, if_neg k4, if_pos (Or.inl rfl)]
  · rw [if_neg k5, if_neg k6, if_neg k7, if_neg k8, if_pos (Or.inr rfl)]

/-- C20: when the cursor cell is occupied, confirming a placement leaves the board, the
turn flag and `movesToNextRemoval` as they were, in every mode, and makes no call of
`findRandomXO` or `ComputerMove`. -/
theorem confirm_occupied_cell (s : Session) (key : Char) (r1 r2 x y : Nat)
    (hkey : key = lineFeed ∨ key = carriageReturn)
    (hx : s.activeCellX = x) (hy : s.activeCellY = y)
    (hxr : x < maxFieldSize) (hyr : y < maxFieldSize)
    (hocc : s.field y x ≠ emptyChar) :
    (placeChar s.field x y (if s.playerFlag then firstPlayerChar else secondPlayerChar)).1 =
      false ∧
    (gameInputEvent s key r1 r2).calls = [] ∧
    ∃ s', (gameInputEvent s key r1 r2).next = some s' ∧ s'.field = s.field ∧
      s'.playerFlag = s.playerFlag ∧ s'.movesToNextRemoval = s.movesToNextRemoval := by
  have hplace : ∀ c, placeChar s.field x y c = (false, s.field) := by
    intro c
    have hb : (s.field y x == emptyChar) = false := beq_false_of_ne hocc
    simp only [placeChar, hb, Bool.false_eq_true, if_false]
    rw [setCell_self]
  have hrange : ¬ (s.activeCellX < 0 ∨ s.activeCellY < 0 ∨
      (maxFieldSize : Int) ≤ s.activeCellX ∨ (maxFieldSize : Int) ≤ s.activeCellY) := by
    rw [hx, hy]
    omega
  have hxn : s.activeCellX.toNat = x := by rw [hx]; rfl
  have hyn : s.activeCellY.toNat = y := by rw [hy]; rfl
  rw [gameInputEvent_confirm s key r1 r2 hkey]
  unfold confirmPlacement
  rw [if_neg hrange]
  simp only [hxn, hyn, hplace, Bool.false_and, Bool.and_false, Bool.false_eq_true, if_false]
  exact ⟨trivial, trivial, _, rfl, rfl, rfl, rfl⟩

/-- C20 on a single-player custom-mode session whose cursor is on an occupied cell. -/
theorem confirm_occupied_cell_witness :
    removalDue.field 0 1 ≠ emptyChar ∧
    (gameInputEvent { removalDue with activeCellX := 1, singlePlayerFlag := true }
      carriageReturn 3 4).calls = [] :=
  ⟨by decide,
    (confirm_occupied_cell { removalDue with activeCellX := 1, singlePlayerFlag := true }
      carriageReturn 3 4 1 0 (Or.inr rfl) rfl rfl (by decide) (by decide) (by decide)).2.1⟩

/-! ## The computer's turn after a placement -/

theorem drawGame_of_ongoing (s : Session) (h : checkWin s.field s.fieldSize = emptyChar) :
    drawGame s = s := by
  unfold drawGame
  simp only [h, ne_eq, not_true_eq_false, if_false]

theorem drawGame_field (s : Session) : (drawGame s).field = s.field := by
  unfold drawGame
  simp only
  split <;> rfl

theorem drawGame_fieldSize (s : Session) : (drawGame s).fieldSize = s.fieldSize := by
  unfold drawGame
  simp only
  split <;> rfl

/-- In single-player mode without custom mode, confirming on a free cell places the mark and
then calls `ComputerMove` on the resulting board, whatever `checkWin` says about it. -/
theorem confirm_single_player (s : Session) (key : Char) (r1 r2 x y : Nat)
    (hkey : key = lineFeed ∨ key = carriageReturn)
    (hx : s.activeCellX = x) (hy : s.activeCellY = y)
    (hxr : x < maxFieldSize) (hyr : y < maxFieldSize)
    (hfree : s.field y x = emptyChar)
    (hsingle : s.singlePlayerFlag = true) (hcustom : s.customModeFlag = false) :
    (gameInputEvent s key r1 r2).calls =
      [Call.computerMove
        (setCell s.field y x (if s.playerFlag then firstPlayerChar else secondPlayerChar))
        s.fieldSize] ∧
    (gameInputEvent s key r1 r2).next =
      (computersTurn { s with
        isGameToContinue := true
        field := setCell s.field y x
          (if s.playerFlag then firstPlayerChar else secondPlayerChar) }).next := by
  have hplace : ∀ c, placeChar s.field x y c = (true, setCell s.field y x c) := by
    intro c
    simp only [placeChar, hfree, beq_self_eq_true, if_true]
  have hrange : ¬ (s.activeCellX < 0 ∨ s.activeCellY < 0 ∨
      (maxFieldSize : Int) ≤ s.activeCellX ∨ (maxFieldSize : Int) ≤ s.activeCellY) := by
    rw [hx, hy]
    omega
  have hxn : s.activeCellX.toNat = x := by rw [hx]; rfl
  have hyn : s.activeCellY.toNat = y := by rw [hy]; rfl
  rw [gameInputEvent_confirm s key r1 r2 hkey]
  unfold confirmPlacement
  rw [if_neg hrange]
  simp only [hxn, hyn, hplace, hsingle, hcustom, Bool.and_false, Bool.and_true,
    Bool.false_eq_true, if_false, if_true, List.nil_append]
  refine ⟨?_, trivial⟩
  unfold computersTurn
  simp only [drawGame_field, drawGame_fieldSize]

theorem ComputerMove_of_full (board : Board) (size : Nat)
    (h : GetAvailableMoves board size = []) : ComputerMove board size = none := by
  rw [ComputerMove_eq]
  unfold bestMoveOf
  rw [h]
  rfl

theorem stage_move (board : Board) (cx cy : Int) (c : Bool)
    (hong : checkWin board 3 = emptyChar) :
    gameEvent (stage board cx cy c) 'a' 0 0 =
      some (stage board (if cx - 1 < 0 then 0 else cx - 1) cy c) ∧
    gameEvent (stage board cx cy c) 'd' 0 0 =
      some (stage board (if cx + 1 > 2 then 2 else cx + 1) cy c) ∧
    gameEvent (stage board cx cy c) 'w' 0 0 =
      some (stage board cx (if cy - 1 < 0 then 0 else cy - 1) c) ∧
    gameEvent (stage board cx cy c) 's' 0 0 =
      some (stage board cx (if cy + 1 > 2 then 2 else cy + 1) c) := by
  have hd : ∀ x y : Int, drawGame (stage board x y c) = stage board x y c :=
    fun x y => drawGame_of_ongoing _ hong
  have k1 : ('d' : Char) ≠ 'a' := by decide
  have k2 : ('w' : Char) ≠ 'a' := by decide
  have k3 : ('w' : Char) ≠ 'd' := by decide
  have k4 : ('s' : Char) ≠ 'a' := by decide
  have k5 : ('s' : Char) ≠ 'd' := by decide
  have k6 : ('s' : Char) ≠ 'w' := by decide
  have hs : ∀ x y : Int, (stage board x y c).currentState = gameStates.game := fun _ _ => rfl
  refine ⟨?_, ?_, ?_, ?_⟩
  · unfold gameEvent
    rw [if_pos (hs _ _)]
    unfold gameInputEvent
    rw [if_pos rfl]
    exact congrArg some (hd _ _)
  · unfold gameEvent
    rw [if_pos (hs _ _)]
    unfold gameInputEvent
    rw [if_neg k1, if_pos rfl]
    exact congrArg some (hd _ _)
  · unfold gameEvent
    rw [if_pos (hs _ _)]
    unfold gameInputEvent
    rw [if_neg k2, if_neg k3, if_pos rfl]
    exact congrArg some (hd _ _)
  · unfold gameEvent
    rw [if_pos (hs _ _)]
    unfold gameInputEvent
    rw [if_neg k4, if_neg k5, if_neg k6, if_pos rfl]
    exact congrArg some (hd _ _)

theorem stage_confirm (board : Board) (x y : Nat) (c : Bool) (m : Nat × Nat) (v : Int)
    (hxr : x < 3) (hyr : y < 3) (hfree : board y x = emptyChar)
    (hwf : wellFormed (setCell board y x firstPlayerChar) 3)
    (hong : checkWin (setCell board y x firstPlayerChar) 3 = emptyChar)
    (hcert : certifies (setCell board y x firstPlayerChar) m v = true)
    (hong2 : checkWin (setCell (setCell board y x firstPlayerChar) m.1 m.2 secondPlayerChar) 3 =
      emptyChar) :
    gameEvent (stage board x y c) lineFeed 0 0 =
      some (stage (setCell (setCell board y x firstPlayerChar) m.1 m.2 secondPlayerChar)
        x y true) := by
  have hnext := (confirm_single_player (stage board x y c) lineFeed 0 0 x y (Or.inl rfl) rfl rfl
    (by unfold maxFieldSize; omega) (by unfold maxFieldSize; omega) hfree rfl rfl).2
  have hs : (stage board x y c).currentState = gameStates.game := rfl
  unfold gameEvent
  rw [if_pos hs, hnext]
  unfold computersTurn
  simp only
  rw [drawGame_of_ongoing _ hong]
  have hmove := ComputerMove3_of_certifies _ m v hwf hcert
  simp only [stage, Bool.not_true, Bool.not_false, if_true] at hmove ⊢
  rw [hmove]
  exact congrArg some (drawGame_of_ongoing _ hong2)

theorem game_boards_ongoing :
    checkWin game0 3 = emptyChar ∧ checkWin game1 3 = emptyChar ∧
      checkWin game2 3 = emptyChar ∧ checkWin game3 3 = emptyChar ∧
      checkWin game4 3 = emptyChar ∧ checkWin game5 3 = emptyChar ∧
      checkWin game6 3 = emptyChar ∧ checkWin game7 3 = emptyChar ∧
      checkWin game8 3 = emptyChar := by
  simp only [checkWin3_eq]
  decide!

theorem playKeys_cons (s s' : Session) (key : Char) (rest : List Char)
    (h : gameEvent s key 0 0 = some s') : playKeys s (key :: rest) = playKeys s' rest := by
  conv_lhs => unfold playKeys
  rw [h]

/-- The keys `drawnGameKeys`, typed into a new single-player 3x3 game, lead to the board
`x x o / o o x / x o _` with the cursor on the last free cell. -/
theorem playKeys_drawnGame :
    playKeys (newSinglePlayerGame idle3) drawnGameKeys = some (stage game8 2 2 true) := by
  obtain ⟨h0, h1, h2, h3, h4, h5, h6, h7, h8⟩ := game_boards_ongoing
  have e0 : newSinglePlayerGame idle3 = stage game0 0 0 false := rfl
  have e1 : gameEvent (stage game0 0 0 false) lineFeed 0 0 = some (stage game2 0 0 true) :=
    stage_confirm game0 0 0 false (1, 1) 0 (by decide!) (by decide!) (by decide!) (by decide!) h1
      certifies_game1 h2
  have e2 : gameEvent (stage game2 0 0 true) 'd' 0 0 = some (stage game2 1 0 true) :=
    (stage_move game2 0 0 true h2).2.1
  have e3 : gameEvent (stage game2 1 0 true) lineFeed 0 0 = some (stage game4 1 0 true) :=
    stage_confirm game2 1 0 true (0, 2) 0 (by decide!) (by decide!) (by decide!) (by decide!) h3
      certifies_game3 h4
  have e4 : gameEvent (stage game4 1 0 true) 'a' 0 0 = some (stage game4 0 0 true) :=
    (stage_move game4 1 0 true h4).1
  have e5 : gameEvent (stage game4 0 0 true) 's' 0 0 = some (stage game4 0 1 true) :=
    (stage_move game4 0 0 true h4).2.2.2
  have e6 : gameEvent (stage game4 0 1 true) 's' 0 0 = some (stage game4 0 2 true) :=
    (stage_move game4 0 1 true h4).2.2.2
  have e7 : gameEvent (stage game4 0 2 true) lineFeed 0 0 = some (stage game6 0 2 true) :=
    stage_confirm game4 0 2 true (1, 0) 0 (by decide!) (by decide!) (by decide!) (by decide!) h5
      certifies_game5 h6
  have e8 : gameEvent (stage game6 0 2 true) 'w' 0 0 = some (stage game6 0 1 true) :=
    (stage_move game6 0 2 true h6).2.2.1
  have e9 : gameEvent (stage game6 0 1 true) 'd' 0 0 = some (stage game6 1 1 true) :=
    (stage_move game6 0 1 true h6).2.1
  have e10 : gameEvent (stage game6 1 1 true) 'd' 0 0 = some (stage game6 2 1 true) :=
    (stage_move game6 1 1 true h6).2.1
  have e11 : gameEvent (stage game6 2 1 true) lineFeed 0 0 = some (stage game8 2 1 true) :=
    stage_confirm game6 2 1 true (2, 1) 0 (by decide!) (by decide!) (by decide!) (by decide!) h7
      certifies_game7 h8
  have e12 : gameEvent (stage game8 2 1 true) 's' 0 0 = some (stage game8 2 2 true) :=
    (stage_move game8 2 1 true h8).2.2.2
  rw [e0]
  unfold drawnGameKeys
  rw [playKeys_cons _ _ _ _ e1, playKeys_cons _ _ _ _ e2, playKeys_cons _ _ _ _ e3,
    playKeys_cons _ _ _ _ e4, playKeys_cons _ _ _ _ e5, playKeys_cons _ _ _ _ e6,
    playKeys_cons _ _ _ _ e7, playKeys_cons _ _ _ _ e8, playKeys_cons _ _ _ _ e9,
    playKeys_cons _ _ _ _ e10, playKeys_cons _ _ _ _ e11, playKeys_cons _ _ _ _ e12]
  rfl

/-- C15 fails on the code: the keys `drawnGameKeys`, typed into a new single-player 3x3
game, lead to a session in which the next confirmed placement fills the board; the game
is then a draw, yet `ComputerMove` is called on the full board, where it has no move and
writes through `bestMove = { -1, -1 }`. -/
theorem computer_moves_on_full_board :
    ∃ s board, playKeys (newSinglePlayerGame idle3) drawnGameKeys = some s ∧
      (gameInputEvent s lineFeed 0 0).calls = [Call.computerMove board 3] ∧
      (∀ i < 3, ∀ j < 3, board i j ≠ emptyChar) ∧ checkWin board 3 = 'd' ∧
      ComputerMove board 3 = none ∧ (gameInputEvent s lineFeed 0 0).next = none := by
  have hstep := confirm_single_player (stage game8 2 2 true) lineFeed 0 0 2 2 (Or.inl rfl) rfl rfl
    (by decide!) (by decide!) (by decide!) rfl rfl
  have hnone : ComputerMove game9 3 = none :=
    ComputerMove_of_full game9 3 (by rw [GetAvailableMoves3_eq]; decide!)
  refine ⟨stage game8 2 2 true, game9, playKeys_drawnGame, hstep.1, by decide!, ?_, hnone, ?_⟩
  · rw [checkWin3_eq]; decide!
  · rw [hstep.2]
    unfold computersTurn
    simp only [drawGame_field, drawGame_fieldSize]
    exact congrArg (Option.map _) hnone

/-! ## Placements and lines -/

theorem setCell_mark_old (board : Board) (i j a b : Nat) (c m : Char) (hc : c ≠ m)
    (h : setCell board i j c a b = m) : board a b = m := by
  unfold setCell at h
  split at h
  · exact absurd h hc
  · exact h

/-- Writing a character other than `m` creates no line of `m`. -/
theorem hasLine_setCell_other (board : Board) (size toWin i j : Nat) (c m : Char) (hc : c ≠ m)
    (h : hasLine (setCell board i j c) size toWin m) : hasLine board size toWin m := by
  unfold hasLine rowLine colLine downRightLine downLeftLine at h ⊢
  rcases h with ⟨r, hr, q, hq, hb, hall⟩ | ⟨r, hr, q, hq, hb, hall⟩ |
    ⟨r, hr, q, hq, hb, hb2, hall⟩ | ⟨r, hr, q, hq, hb, hb2, hall⟩
  · exact Or.inl ⟨r, hr, q, hq, hb, fun k hk => setCell_mark_old _ _ _ _ _ _ _ hc (hall k hk)⟩
  · exact Or.inr (Or.inl
      ⟨r, hr, q, hq, hb, fun k hk => setCell_mark_old _ _ _ _ _ _ _ hc (hall k hk)⟩)
  · exact Or.inr (Or.inr (Or.inl
      ⟨r, hr, q, hq, hb, hb2, fun k hk => setCell_mark_old _ _ _ _ _ _ _ hc (hall k hk)⟩))
  · exact Or.inr (Or.inr (Or.inr
      ⟨r, hr, q, hq, hb, hb2, fun k hk => setCell_mark_old _ _ _ _ _ _ _ hc (hall k hk)⟩))

/-- C24: for size 3, 4, 5 (run length 3, 3, 4), a board on which `checkWin` reports an
ongoing game, an empty cell (x, y) and a mark `m` among `x` and `o`: if the board after
`placeChar(x, y, m)` holds a line of `toWin` consecutive `m`, then the placement succeeded
and `checkWin` on the resulting board returns `m`. Well-formedness of the board is not
needed. -/
theorem placement_completing_line_wins (field : Board) (size toWin x y : Nat) (m : Char)
    (hsize : (size = 3 ∧ toWin = 3) ∨ (size = 4 ∧ toWin = 3) ∨ (size = 5 ∧ toWin = 4))
    (hong : checkWin field size = emptyChar)
    (hfree : field y x = emptyChar)
    (hm : m = firstPlayerChar ∨ m = secondPlayerChar)
    (hline : hasLine (placeChar field x y m).2 size toWin m) :
    (placeChar field x y m).1 = true ∧ checkWin (placeChar field x y m).2 size = m := by
  obtain ⟨d1, _, d3, _, _, _⟩ := marks_distinct
  have hplace : placeChar field x y m = (true, setCell field y x m) := by
    simp only [placeChar, hfree, beq_self_eq_true, if_true]
  rw [hplace] at hline ⊢
  refine ⟨rfl, ?_⟩
  rw [← toWinOf_eq size toWin hsize] at hline
  rcases hm with hm | hm
  · subst hm
    exact (checkWin_eq_first_iff _ size).mpr hline
  · subst hm
    refine (checkWin_eq_second_iff _ size).mpr ⟨fun hx => ?_, hline⟩
    have hold := hasLine_setCell_other field size (toWinOf size) y x secondPlayerChar
      firstPlayerChar (fun h => d1 h.symm) hx
    have := (checkWin_eq_first_iff field size).mpr hold
    rw [hong] at this
    exact d3 this.symm

/-- C24 on the 3x3 board `x x _ / o o _ / _ _ _`: the game is ongoing, and after `x` is
placed at column 2 of row 0 `checkWin` returns `x`. -/
theorem placement_completing_line_wins_witness :
    checkWin twoInRows 3 = emptyChar ∧
      (placeChar twoInRows 2 0 'x').1 = true ∧ checkWin (placeChar twoInRows 2 0 'x').2 3 = 'x' :=
  ⟨by decide,
    placement_completing_line_wins twoInRows 3 3 2 0 'x' (by decide) (by decide) (by decide)
      (by decide) (by decide)⟩

/-! ## Repeated placements on one cell -/

theorem placeChar_occupied (field : Board) (x y : Nat) (c : Char)
    (hocc : field y x ≠ emptyChar) : placeChar field x y c = (false, field) := by
  have hb : (field y x == emptyChar) = false := beq_false_of_ne hocc
  simp only [placeChar, hb, Bool.false_eq_true, if_false]
  rw [setCell_self]

theorem placeAll_occupied (field : Board) (x y : Nat) (hocc : field y x ≠ emptyChar) :
    ∀ marks : List Char,
      placeAll field x y marks = (List.replicate marks.length false, field) := by
  intro marks
  induction marks with
  | nil => rfl
  | cons m rest ih =>
    unfold placeAll
    rw [placeChar_occupied field x y m hocc]
    simp only [ih, List.length_cons, List.replicate_succ]

/-- C25: after a successful `placeChar(x, y, m1)` with `m1` among `x` and `o`, every later
`placeChar(x, y, m2)`, with any `m2` and repeated any number of times, returns false and
leaves the whole board as the first placement left it, the cell still holding `m1`. -/
theorem placeChar_refuses_occupied (field : Board) (x y : Nat) (m1 : Char)
    (hm1 : m1 = firstPlayerChar ∨ m1 = secondPlayerChar)
    (hfirst : (placeChar field x y m1).1 = true) :
    (placeChar field x y m1).2 y x = m1 ∧
    (∀ m2, placeChar (placeChar field x y m1).2 x y m2 = (false, (placeChar field x y m1).2)) ∧
    ∀ marks : List Char,
      placeAll (placeChar field x y m1).2 x y marks =
        (List.replicate marks.length false, (placeChar field x y m1).2) := by
  obtain ⟨_, _, d3, _, d5, _⟩ := marks_distinct
  obtain ⟨_, hboard⟩ := placeChar_free field x y m1 hfirst
  have hcell : (placeChar field x y m1).2 y x = m1 := by
    rw [hboard]
    exact setCell_same _ _ _ _
  have hocc : (placeChar field x y m1).2 y x ≠ emptyChar := by
    rw [hcell]
    rcases hm1 with h | h <;> rw [h]
    · exact d3
    · exact d5
  exact ⟨hcell, fun m2 => placeChar_occupied _ x y m2 hocc, placeAll_occupied _ x y hocc⟩

/-- C25 on the 3x3 board with `x` in the corner: after `o` is placed in the centre, the
placements of `x`, `o`, `o`, `x` on the centre are all refused and change nothing. -/
theorem placeChar_refuses_occupied_witness :
    (placeChar cornerTaken 1 1 'o').1 = true ∧
      placeAll (placeChar cornerTaken 1 1 'o').2 1 1 ['x', 'o', 'o', 'x'] =
        ([false, false, false, false], (placeChar cornerTaken 1 1 'o').2) :=
  ⟨by decide,
    (placeChar_refuses_occupied cornerTaken 1 1 'o' (by decide) (by decide)).2.2
      ['x', 'o', 'o', 'x']⟩

/-! ## Clearing the field -/

theorem clearField_cell (field : Board) (i j : Nat) (hi : i < maxFieldSize)
    (hj : j < maxFieldSize) : clearField field i j = emptyChar := by
  unfold clearField
  rw [if_pos ⟨hi, hj⟩]

theorem hasLine_cell (board : Board) (size toWin : Nat) (m : Char) (hw : 0 < toWin)
    (h : hasLine board size toWin m) : ∃ i < size, ∃ j < size, board i j = m := by
  unfold hasLine rowLine colLine downRightLine downLeftLine at h
  rcases h with ⟨r, hr, q, hq, _, hall⟩ | ⟨r, hr, q, hq, _, hall⟩ |
    ⟨r, hr, q, hq, _, _, hall⟩ | ⟨r, hr, q, hq, _, _, hall⟩
  all_goals exact ⟨r, hr, q, hq, by simpa using hall 0 hw⟩

/-- A region with a free cell and without any mark is an ongoing game. -/
theorem checkWin_of_no_mark (board : Board) (size : Nat) (hsize : 1 ≤ size)
    (hx : ∀ i < size, ∀ j < size, board i j ≠ firstPlayerChar)
    (ho : ∀ i < size, ∀ j < size, board i j ≠ secondPlayerChar) :
    checkWin board size = emptyChar := by
  have nx : ¬ hasLine board size (toWinOf size) firstPlayerChar := by
    intro h
    obtain ⟨i, hi, j, hj, he⟩ := hasLine_cell board size _ _ (toWinOf_pos size) h
    exact hx i hi j hj he
  have no : ¬ hasLine board size (toWinOf size) secondPlayerChar := by
    intro h
    obtain ⟨i, hi, j, hj, he⟩ := hasLine_cell board size _ _ (toWinOf_pos size) h
    exact ho i hi j hj he
  rw [checkWin_no_line board size nx no]
  have hd : ¬ isDraw board size = true := by
    rw [isDraw_iff]
    intro h
    rcases h 0 (by omega) 0 (by omega) with h0 | h0
    · exact hx 0 (by omega) 0 (by omega) h0
    · exact ho 0 (by omega) 0 (by omega) h0
  simp only [hd, Bool.false_eq_true, if_false]

/-- C26: after `clearField`, whatever the field held before, every cell of the 5x5 array is
empty, and `checkWin` on the cleared field reports an ongoing game for every active size
from 1 to 5, in particular for 3, 4 and 5. -/
theorem clearField_spec (field : Board) (size : Nat) (hlo : 1 ≤ size)
    (hhi : size ≤ maxFieldSize) :
    (∀ i < maxFieldSize, ∀ j < maxFieldSize, clearField field i j = emptyChar) ∧
    (∀ i < size, ∀ j < size, clearField field i j = emptyChar) ∧
    checkWin (clearField field) size = emptyChar := by
  obtain ⟨_, _, d3, _, d5, _⟩ := marks_distinct
  have hall : ∀ i < maxFieldSize, ∀ j < maxFieldSize, clearField field i j = emptyChar :=
    fun i hi j hj => clearField_cell field i j hi hj
  have hreg : ∀ i < size, ∀ j < size, clearField field i j = emptyChar :=
    fun i hi j hj => hall i (by omega) j (by omega)
  refine ⟨hall, hreg, checkWin_of_no_mark _ size hlo ?_ ?_⟩
  · intro i hi j hj h
    rw [hreg i hi j hj] at h
    exact d3 h.symm
  · intro i hi j hj h
    rw [hreg i hi j hj] at h
    exact d5 h.symm

/-- C26 on a full 3x3 board: after `clearField` the game is ongoing. -/
theorem clearField_spec_witness :
    checkWin fullNoLine 3 = 'd' ∧ clearField fullNoLine 2 2 = emptyChar ∧
      checkWin (clearField fullNoLine) 3 = emptyChar ∧
      checkWin (clearField fullNoLine) 4 = emptyChar ∧
      checkWin (clearField fullNoLine) 5 = emptyChar :=
  ⟨by decide, (clearField_spec fullNoLine 3 (by decide) (by decide)).1 2 (by decide) 2 (by decide),
    (clearField_spec fullNoLine 3 (by decide) (by decide)).2.2,
    (clearField_spec fullNoLine 4 (by decide) (by decide)).2.2,
    (clearField_spec fullNoLine 5 (by decide) (by decide)).2.2⟩

/-! ## The documented contracts of `checkWin` and `findRandomXO` -/

/-- C28 fails on the code: on the full 3x3 board `x o x / x o o / o x x` neither player has
a line of three, and `checkWin` returns `d`, not the empty character. -/
theorem checkWin_no_winner_counterexample :
    ¬ hasLine fullNoLine 3 3 firstPlayerChar ∧ ¬ hasLine fullNoLine 3 3 secondPlayerChar ∧
      checkWin fullNoLine 3 = 'd' ∧ checkWin fullNoLine 3 ≠ emptyChar := by
  decide

/-- C28 as amended: for size 3, 4, 5 `checkWin` returns the character of the player who has
a line (`x` first); when neither player has a line it returns `d` if every cell of the
region holds a mark and the empty character otherwise. -/
theorem checkWin_documented (field : Board) (size toWin : Nat)
    (hsize : (size = 3 ∧ toWin = 3) ∨ (size = 4 ∧ toWin = 3) ∨ (size = 5 ∧ toWin = 4)) :
    (hasLine field size toWin firstPlayerChar → checkWin field size = firstPlayerChar) ∧
    (¬ hasLine field size toWin firstPlayerChar → hasLine field size toWin secondPlayerChar →
      checkWin field size = secondPlayerChar) ∧
    (¬ hasLine field size toWin firstPlayerChar → ¬ hasLine field size toWin secondPlayerChar →
      ((∀ i < size, ∀ j < size, field i j = firstPlayerChar ∨ field i j = secondPlayerChar) →
        checkWin field size = 'd') ∧
      ((∃ i < size, ∃ j < size, field i j ≠ firstPlayerChar ∧ field i j ≠ secondPlayerChar) →
        checkWin field size = emptyChar)) := by
  rw [← toWinOf_eq size toWin hsize]
  refine ⟨(checkWin_eq_first_iff field size).mpr,
    fun hx ho => (checkWin_eq_second_iff field size).mpr ⟨hx, ho⟩, fun hx ho => ?_⟩
  rw [checkWin_no_line field size hx ho]
  constructor
  · intro hfull
    rw [if_pos ((isDraw_iff field size).mpr hfull)]
  · rintro ⟨i, hi, j, hj, h1, h2⟩
    have hd : ¬ isDraw field size = true := by
      rw [isDraw_iff]
      intro h
      rcases h i hi j hj with h | h
      · exact h1 h
      · exact h2 h
    rw [if_neg hd]

/-- C28 as amended, on the 3x3 board `x x _ / o o _ / _ _ _`: no line and a free cell, so
the result is the empty character. -/
theorem checkWin_documented_witness :
    ¬ hasLine twoInRows 3 3 firstPlayerChar ∧ ¬ hasLine twoInRows 3 3 secondPlayerChar ∧
      checkWin twoInRows 3 = emptyChar :=
  ⟨by decide, by decide,
    ((checkWin_documented twoInRows 3 3 (by decide)).2.2 (by decide) (by decide)).2
      ⟨2, by decide, 2, by decide, by decide⟩⟩

theorem findRandom_cell (board : Board) (size x y : Nat) (toFind : Char) (r : Nat)
    (h : (findRandom board size x y toFind r).1 = true) :
    (findRandom board size x y toFind r).2.1 < size ∧
      (findRandom board size x y toFind r).2.2 < size ∧
      board (findRandom board size x y toFind r).2.1 (findRandom board size x y toFind r).2.2 =
        toFind := by
  obtain ⟨hpos, hout⟩ := findRandom_true board size x y toFind r h
  have hlt : r % (findPositions board size toFind).length <
      (findPositions board size toFind).length := Nat.mod_lt _ hpos
  have hmem : (findRandom board size x y toFind r).2 ∈ findPositions board size toFind := by
    rw [hout, List.getD_eq_getElem _ _ hlt]
    exact List.getElem_mem _
  exact (mem_findPositions board size toFind _).mp hmem

/-- C29 fails on the code: on the empty 3x3 board, where all nine cells are empty,
`findRandomXO` returns false; on the full board `x o x / x o o / o x x`, which has no empty
cell, it returns true and both designated cells are occupied. -/
theorem findRandomXO_empty_counterexample :
    ((∀ i < 3, ∀ j < 3, emptyBoard i j = emptyChar) ∧
      (findRandomXO emptyBoard 3 0 0 0 0 0 0).1 = false) ∧
    ((∀ i < 3, ∀ j < 3, fullNoLine i j ≠ emptyChar) ∧
      (findRandomXO fullNoLine 3 0 0 0 0 0 0).1 = true ∧
      fullNoLine (findRandomXO fullNoLine 3 0 0 0 0 0 0).2.1.1
        (findRandomXO fullNoLine 3 0 0 0 0 0 0).2.1.2 ≠ emptyChar ∧
      fullNoLine (findRandomXO fullNoLine 3 0 0 0 0 0 0).2.2.1
        (findRandomXO fullNoLine 3 0 0 0 0 0 0).2.2.2 ≠ emptyChar) := by
  decide

/-- C29 as amended: `findRandomXO` returns true if and only if the region holds a cell with
`x` and a cell with `o`, whatever the number of empty cells; on success (`*x1`, `*y1`) is
the row and column of a cell of the region holding `x` and (`*x2`, `*y2`) the row and
column of a cell holding `o`, so both designate occupied cells. -/
theorem findRandomXO_documented (board : Board) (size x1 y1 x2 y2 r1 r2 : Nat) :
    ((findRandomXO board size x1 y1 x2 y2 r1 r2).1 = true ↔
      ((∃ i < size, ∃ j < size, board i j = firstPlayerChar) ∧
        ∃ i < size, ∃ j < size, board i j = secondPlayerChar)) ∧
    ((findRandomXO board size x1 y1 x2 y2 r1 r2).1 = true →
      ((findRandomXO board size x1 y1 x2 y2 r1 r2).2.1.1 < size ∧
        (findRandomXO board size x1 y1 x2 y2 r1 r2).2.1.2 < size ∧
        board (findRandomXO board size x1 y1 x2 y2 r1 r2).2.1.1
          (findRandomXO board size x1 y1 x2 y2 r1 r2).2.1.2 = firstPlayerChar) ∧
      ((findRandomXO board size x1 y1 x2 y2 r1 r2).2.2.1 < size ∧
        (findRandomXO board size x1 y1 x2 y2 r1 r2).2.2.2 < size ∧
        board (findRandomXO board size x1 y1 x2 y2 r1 r2).2.2.1
          (findRandomXO board size x1 y1 x2 y2 r1 r2).2.2.2 = secondPlayerChar) ∧
      board (findRandomXO board size x1 y1 x2 y2 r1 r2).2.1.1
        (findRandomXO board size x1 y1 x2 y2 r1 r2).2.1.2 ≠ emptyChar ∧
      board (findRandomXO board size x1 y1 x2 y2 r1 r2).2.2.1
        (findRandomXO board size x1 y1 x2 y2 r1 r2).2.2.2 ≠ emptyChar) := by
  obtain ⟨_, _, d3, _, d5, _⟩ := marks_distinct
  refine ⟨findRandomXO_true_iff board size x1 y1 x2 y2 r1 r2, ?_⟩
  intro h
  unfold findRandomXO at h ⊢
  simp only [Bool.and_eq_true] at h ⊢
  have c1 := findRandom_cell board size x1 y1 firstPlayerChar r1 h.1
  have c2 := findRandom_cell board size x2 y2 secondPlayerChar r2 h.2
  refine ⟨c1, c2, ?_, ?_⟩
  · rw [c1.2.2]
    exact d3
  · rw [c2.2.2]
    exact d5

/-- C29 as amended, on the 3x3 board with a row of `x` above a row of `o` and an empty third
row: the result is true, with `rand()` returning 4 and 5 the outputs are (0, 1) and (1, 2),
cells that hold `x` and `o`. -/
theorem findRandomXO_documented_witness :
    (findRandomXO bothLines 3 0 0 0 0 4 5).1 = true ∧
      (findRandomXO bothLines 3 0 0 0 0 4 5).2 = ((0, 1), (1, 2)) ∧
      bothLines 0 1 = firstPlayerChar ∧ bothLines 1 2 = secondPlayerChar ∧
      bothLines (findRandomXO bothLines 3 0 0 0 0 4 5).2.1.1
        (findRandomXO bothLines 3 0 0 0 0 4 5).2.1.2 ≠ emptyChar :=
  ⟨by decide, by decide, by decide, by decide,
    ((findRandomXO_documented bothLines 3 0 0 0 0 4 5).2 (by decide)).2.2.1⟩

/-! ## The list of available moves -/

theorem GetAvailableMoves_nodup (board : Board) (size : Nat) :
    (GetAvailableMoves board size).Nodup := by
  refine (GetAvailableMoves_sorted board size).imp ?_
  intro a b h hab
  rw [hab] at h
  unfold rowMajorBefore at h
  omega

theorem GetAvailableMoves_length (board : Board) (size : Nat) :
    (GetAvailableMoves board size).length = markCount board size emptyChar := by
  rw [← List.toFinset_card_of_nodup (GetAvailableMoves_nodup board size)]
  unfold markCount
  congr 1
  ext p
  rw [List.mem_toFinset, mem_GetAvailableMoves]
  simp only [Finset.mem_filter, Finset.mem_product, Finset.mem_range]
  tauto

/-- C30: for every board and every size up to 5, the list written by `GetAvailableMoves`
holds exactly the cells (row, column) of the region whose content is the empty character,
each once, in row-major order; `moveCount`, its length, is the number of empty cells of the
region and is at most size * size, itself at most 25. -/
theorem GetAvailableMoves_spec (board : Board) (size : Nat) (hsize : size ≤ maxFieldSize) :
    (∀ i j, (i, j) ∈ GetAvailableMoves board size ↔
      i < size ∧ j < size ∧ board i j = emptyChar) ∧
    (GetAvailableMoves board size).Nodup ∧
    (GetAvailableMoves board size).Pairwise rowMajorBefore ∧
    (GetAvailableMoves board size).length = markCount board size emptyChar ∧
    (GetAvailableMoves board size).length ≤ size * size ∧ size * size ≤ 25 := by
  refine ⟨fun i j => mem_GetAvailableMoves board size (i, j), GetAvailableMoves_nodup board size,
    GetAvailableMoves_sorted board size, GetAvailableMoves_length board size, ?_, ?_⟩
  · have h := emptyCount_le board size
    unfold emptyCount at h
    rw [List.toFinset_card_of_nodup (GetAvailableMoves_nodup board size)] at h
    exact h
  · have h5 : size ≤ 5 := hsize
    calc size * size ≤ 5 * 5 := Nat.mul_le_mul h5 h5
      _ = 25 := rfl

/-- C30 on the 3x3 board `x o x / x o o / o _ _`: the list is (2, 1), (2, 2) and
`moveCount` is 2. -/
theorem GetAvailableMoves_spec_witness :
    GetAvailableMoves twoLeft 3 = [(2, 1), (2, 2)] ∧
      (GetAvailableMoves twoLeft 3).length = markCount twoLeft 3 emptyChar ∧
      markCount twoLeft 3 emptyChar = 2 :=
  ⟨by decide, (GetAvailableMoves_spec twoLeft 3 (by decide)).2.2.2.1, by decide⟩

/-! ## The confirm step on a free cell -/

theorem drawGame_cases (s : Session) :
    drawGame s = s ∨
      drawGame s = { s with lastWinner := checkWin s.field s.fieldSize,
                            currentState := gameStates.gameResult,
                            activeCellX := -1, activeCellY := -1 } := by
  unfold drawGame
  simp only
  split
  · exact Or.inr rfl
  · exact Or.inl rfl

/-- What `computersTurn` leaves behind when `ComputerMove` has a move: the board returned by
`ComputerMove`, the same settings, counter and turn flag, and the cursor either where it
was or at (-1, -1). -/
theorem computersTurn_next (s s' : Session) (h : (computersTurn s).next = some s') :
    ComputerMove s.field s.fieldSize = some s'.field ∧ s'.fieldSize = s.fieldSize ∧
      s'.singlePlayerFlag = s.singlePlayerFlag ∧ s'.customModeFlag = s.customModeFlag ∧
      s'.movesToNextRemoval = s.movesToNextRemoval ∧ s'.playerFlag = s.playerFlag ∧
      ((s'.activeCellX = s.activeCellX ∧ s'.activeCellY = s.activeCellY) ∨
        (s'.activeCellX = -1 ∧ s'.activeCellY = -1)) := by
  unfold computersTurn at h
  simp only [drawGame_field, drawGame_fieldSize, Option.map_eq_some'] at h
  obtain ⟨board, hboard, rfl⟩ := h
  rcases drawGame_cases { s with playerFlag := !s.playerFlag } with hd | hd
  · rw [hd]
    exact ⟨hboard, rfl, rfl, rfl, rfl, Bool.not_not _, Or.inl ⟨rfl, rfl⟩⟩
  · rw [hd]
    exact ⟨hboard, rfl, rfl, rfl, rfl, Bool.not_not _, Or.inr ⟨rfl, rfl⟩⟩

theorem computersTurn_calls (s : Session) :
    (computersTurn s).calls = [Call.computerMove s.field s.fieldSize] := by
  unfold computersTurn
  simp only [drawGame_field, drawGame_fieldSize]

/-- The confirm step of `gameInputEvent` when the cursor is on a free cell of the array:
the mark of the player to move is placed, the custom-mode block runs when custom mode is on,
then the computer moves (single-player) or the turn passes (two-player). -/
theorem confirm_free_cell (s : Session) (key : Char) (r1 r2 x y : Nat)
    (hkey : key = lineFeed ∨ key = carriageReturn)
    (hx : s.activeCellX = x) (hy : s.activeCellY = y)
    (hxr : x < maxFieldSize) (hyr : y < maxFieldSize)
    (hfree : s.field y x = emptyChar)
    (custom : Board × Int × List Call)
    (hcustom : custom =
      if s.customModeFlag then
        customModeStep
          (setCell s.field y x (if s.playerFlag then firstPlayerChar else secondPlayerChar))
          s.fieldSize s.singlePlayerFlag s.movesToNextRemoval r1 r2
      else
        (setCell s.field y x (if s.playerFlag then firstPlayerChar else secondPlayerChar),
          s.movesToNextRemoval, [])) :
    gameInputEvent s key r1 r2 =
      if s.singlePlayerFlag then
        { next := (computersTurn { s with isGameToContinue := true, field := custom.1,
                                          movesToNextRemoval := custom.2.1 }).next
          calls := custom.2.2 ++ [Call.computerMove custom.1 s.fieldSize] }
      else
        { next := some { s with isGameToContinue := true, field := custom.1,
                                movesToNextRemoval := custom.2.1, playerFlag := !s.playerFlag }
          calls := custom.2.2 } := by
  have hplace : ∀ c, placeChar s.field x y c = (true, setCell s.field y x c) := by
    intro c
    simp only [placeChar, hfree, beq_self_eq_true, if_true]
  have hrange : ¬ (s.activeCellX < 0 ∨ s.activeCellY < 0 ∨
      (maxFieldSize : Int) ≤ s.activeCellX ∨ (maxFieldSize : Int) ≤ s.activeCellY) := by
    rw [hx, hy]
    omega
  have hxn : s.activeCellX.toNat = x := by rw [hx]; rfl
  have hyn : s.activeCellY.toNat = y := by rw [hy]; rfl
  rw [gameInputEvent_confirm s key r1 r2 hkey]
  unfold confirmPlacement
  rw [if_neg hrange]
  simp only [hxn, hyn, hplace, Bool.true_and, Bool.and_true, if_true, computersTurn_calls]
  rw [← hcustom]

/-- The custom-mode block (lines 515 to 527 of main.c) by the value of the counter. -/
theorem customModeStep_cases (field : Board) (fieldSize : Nat) (single : Bool) (n : Int)
    (r1 r2 : Nat) :
    (n ≤ -1 → customModeStep field fieldSize single n r1 r2 =
      (field, (if single then (r1 % 3 + 2 : Int) else (r1 % 3 + 2) * 2) - 1, [])) ∧
    (n = 0 → customModeStep field fieldSize single n r1 r2 =
      (removalStep field fieldSize r1 r2, -1, [Call.findRandomXO field fieldSize])) ∧
    (0 < n → customModeStep field fieldSize single n r1 r2 = (field, n - 1, [])) := by
  unfold customModeStep
  refine ⟨fun h => ?_, fun h => ?_, fun h => ?_⟩
  · rw [if_pos h]
  · have c1 : ¬ n ≤ -1 := by omega
    rw [if_neg c1, if_pos h, h]
    rfl
  · have c1 : ¬ n ≤ -1 := by omega
    have c2 : ¬ n = 0 := by omega
    rw [if_neg c1, if_neg c2]

/-- The confirm step when the cursor is on an occupied cell: only the continue flag is
set. -/
theorem confirm_on_occupied (s : Session) (key : Char) (r1 r2 x y : Nat)
    (hkey : key = lineFeed ∨ key = carriageReturn)
    (hx : s.activeCellX = x) (hy : s.activeCellY = y)
    (hxr : x < maxFieldSize) (hyr : y < maxFieldSize)
    (hocc : s.field y x ≠ emptyChar) :
    gameInputEvent s key r1 r2 =
      { next := some { s with isGameToContinue := true }, calls := [] } := by
  have hrange : ¬ (s.activeCellX < 0 ∨ s.activeCellY < 0 ∨
      (maxFieldSize : Int) ≤ s.activeCellX ∨ (maxFieldSize : Int) ≤ s.activeCellY) := by
    rw [hx, hy]
    omega
  have hxn : s.activeCellX.toNat = x := by rw [hx]; rfl
  have hyn : s.activeCellY.toNat = y := by rw [hy]; rfl
  rw [gameInputEvent_confirm s key r1 r2 hkey]
  unfold confirmPlacement
  rw [if_neg hrange]
  simp only [hxn, hyn, placeChar_occupied s.field x y _ hocc, Bool.false_and, Bool.and_false,
    Bool.false_eq_true, if_false]

/-- The confirm step when the cursor is outside the array: the access `field[y][x]` is out
of bounds. -/
theorem confirm_outside (s : Session) (key : Char) (r1 r2 : Nat)
    (hkey : key = lineFeed ∨ key = carriageReturn)
    (hout : s.activeCellX < 0 ∨ s.activeCellY < 0 ∨
      (maxFieldSize : Int) ≤ s.activeCellX ∨ (maxFieldSize : Int) ≤ s.activeCellY) :
    (gameInputEvent s key r1 r2).next = none := by
  rw [gameInputEvent_confirm s key r1 r2 hkey]
  unfold confirmPlacement
  rw [if_pos hout]

/-- Every key other than the two confirm keys leaves the board, the settings, the counter
and the turn flag alone and makes no call; a cursor coordinate either stays or ends inside
the region. -/
theorem gameInputEvent_other (s : Session) (key : Char) (r1 r2 : Nat)
    (hkey : key ≠ lineFeed ∧ key ≠ carriageReturn) :
    ∃ s', (gameInputEvent s key r1 r2).next = some s' ∧
      (gameInputEvent s key r1 r2).calls = [] ∧
      s'.field = s.field ∧ s'.fieldSize = s.fieldSize ∧
      s'.singlePlayerFlag = s.singlePlayerFlag ∧ s'.customModeFlag = s.customModeFlag ∧
      s'.movesToNextRemoval = s.movesToNextRemoval ∧ s'.playerFlag = s.playerFlag ∧
      (1 ≤ s.fieldSize → -1 ≤ s.activeCellX → s.activeCellX < s.fieldSize →
        (s'.activeCellX = s.activeCellX ∨
          (0 ≤ s'.activeCellX ∧ s'.activeCellX < s.fieldSize))) ∧
      (1 ≤ s.fieldSize → -1 ≤ s.activeCellY → s.activeCellY < s.fieldSize →
        (s'.activeCellY = s.activeCellY ∨
          (0 ≤ s'.activeCellY ∧ s'.activeCellY < s.fieldSize))) := by
  have hc : ¬ (key = lineFeed ∨ key = carriageReturn) := fun h => h.elim hkey.1 hkey.2
  unfold gameInputEvent
  by_cases ha : key = 'a'
  · rw [if_pos ha]
    refine ⟨_, rfl, rfl, rfl, rfl, rfl, rfl, rfl, rfl, ?_, fun _ _ _ => Or.inl rfl⟩
    intro h1 h2 h3
    simp only
    split <;> omega
  rw [if_neg ha]
  by_cases hd : key = 'd'
  · rw [if_pos hd]
    refine ⟨_, rfl, rfl, rfl, rfl, rfl, rfl, rfl, rfl, ?_, fun _ _ _ => Or.inl rfl⟩
    intro h1 h2 h3
    simp only
    split <;> omega
  rw [if_neg hd]
  by_cases hw : key = 'w'
  · rw [if_pos hw]
    refine ⟨_, rfl, rfl, rfl, rfl, rfl, rfl, rfl, rfl, fun _ _ _ => Or.inl rfl, ?_⟩
    intro h1 h2 h3
    simp only
    split <;> omega
  rw [if_neg hw]
  by_cases hs : key = 's'
  · rw [if_pos hs]
    refine ⟨_, rfl, rfl, rfl, rfl, rfl, rfl, rfl, rfl, fun _ _ _ => Or.inl rfl, ?_⟩
    intro h1 h2 h3
    simp only
    split <;> omega
  rw [if_neg hs, if_neg hc]
  by_cases hq : key = 'q'
  · rw [if_pos hq]
    exact ⟨_, rfl, rfl, rfl, rfl, rfl, rfl, rfl, rfl, fun _ _ _ => Or.inl rfl,
      fun _ _ _ => Or.inl rfl⟩
  · rw [if_neg hq]
    exact ⟨_, rfl, rfl, rfl, rfl, rfl, rfl, rfl, rfl, fun _ _ _ => Or.inl rfl,
      fun _ _ _ => Or.inl rfl⟩

/-! ## The removal counter -/

/-- C21: in the confirm step with custom mode on, a free cursor cell and
`movesToNextRemoval` at -1, for every value `r1` of `rand()`: in single-player mode the
counter is armed to `r1 % 3 + 2`, one of 2, 3, 4, and `ComputerMove` is then called on the
board that holds just the new mark with the counter at one of 1, 2, 3; in two-player mode
it is armed to `(r1 % 3 + 2) * 2`, one of 4, 6, 8, and the step ends with the counter at
one of 3, 5, 7. In both modes `findRandomXO` is not called and no cell is cleared. -/
theorem arming_step (s : Session) (key : Char) (r1 r2 x y : Nat)
    (hkey : key = lineFeed ∨ key = carriageReturn)
    (hx : s.activeCellX = x) (hy : s.activeCellY = y)
    (hxr : x < maxFieldSize) (hyr : y < maxFieldSize)
    (hfree : s.field y x = emptyChar)
    (hcustom : s.customModeFlag = true) (hn : s.movesToNextRemoval = -1) :
    (s.singlePlayerFlag = true →
      ((r1 % 3 + 2 : Int) = 2 ∨ (r1 % 3 + 2 : Int) = 3 ∨ (r1 % 3 + 2 : Int) = 4) ∧
      (gameInputEvent s key r1 r2).calls =
        [Call.computerMove
          (setCell s.field y x (if s.playerFlag then firstPlayerChar else secondPlayerChar))
          s.fieldSize] ∧
      (∃ s1, (gameInputEvent s key r1 r2).next = (computersTurn s1).next ∧
        s1.field =
          setCell s.field y x (if s.playerFlag then firstPlayerChar else secondPlayerChar) ∧
        s1.movesToNextRemoval = (r1 % 3 + 2 : Int) - 1 ∧
        (s1.movesToNextRemoval = 1 ∨ s1.movesToNextRemoval = 2 ∨ s1.movesToNextRemoval = 3)) ∧
      ∀ s', (gameInputEvent s key r1 r2).next = some s' →
        s'.movesToNextRemoval = (r1 % 3 + 2 : Int) - 1 ∧
        (s'.movesToNextRemoval = 1 ∨ s'.movesToNextRemoval = 2 ∨ s'.movesToNextRemoval = 3)) ∧
    (s.singlePlayerFlag = false →
      (((r1 % 3 + 2) * 2 : Int) = 4 ∨ ((r1 % 3 + 2) * 2 : Int) = 6 ∨
        ((r1 % 3 + 2) * 2 : Int) = 8) ∧
      (gameInputEvent s key r1 r2).calls = [] ∧
      ∃ s', (gameInputEvent s key r1 r2).next = some s' ∧
        s'.field =
          setCell s.field y x (if s.playerFlag then firstPlayerChar else secondPlayerChar) ∧
        s'.movesToNextRemoval = ((r1 % 3 + 2) * 2 : Int) - 1 ∧
        (s'.movesToNextRemoval = 3 ∨ s'.movesToNextRemoval = 5 ∨ s'.movesToNextRemoval = 7)) := by
  have hstep := confirm_free_cell s key r1 r2 x y hkey hx hy hxr hyr hfree _ rfl
  rw [if_pos hcustom, hn,
    (customModeStep_cases _ s.fieldSize s.singlePlayerFlag (-1) r1 r2).1 (le_refl _)] at hstep
  constructor
  · intro hsingle
    rw [hsingle] at hstep
    simp only [if_true, List.nil_append] at hstep
    rw [hstep]
    refine ⟨by omega, rfl, ⟨_, rfl, rfl, rfl, ?_⟩, ?_⟩
    · simp only
      omega
    · intro s' h'
      have hc := (computersTurn_next _ s' h').2.2.2.2.1
      simp only at hc
      rw [hc]
      exact ⟨rfl, by omega⟩
  · intro hsingle
    rw [hsingle] at hstep
    simp only [Bool.false_eq_true, if_false] at hstep
    rw [hstep]
    refine ⟨by omega, rfl, _, rfl, rfl, rfl, ?_⟩
    simp only
    omega

/-- C21 on a two-player 3x3 session with the counter at -1, the cursor on a free cell and
`rand()` returning 7: the counter is armed to 6 and ends at 5, nothing is removed. -/
theorem arming_step_witness :
    armingDue.customModeFlag = true ∧ armingDue.movesToNextRemoval = -1 ∧
      (gameInputEvent armingDue lineFeed 7 0).calls = [] ∧
      Option.map Session.movesToNextRemoval (gameInputEvent armingDue lineFeed 7 0).next =
        some 5 ∧
      Option.map Session.field (gameInputEvent armingDue lineFeed 7 0).next =
        some (setCell offDiagonal 0 2 firstPlayerChar) := by
  obtain ⟨_, hcalls, s', hnext, hfield, hcount, _⟩ :=
    (arming_step armingDue lineFeed 7 0 2 0 (Or.inl rfl) rfl rfl (by decide) (by decide)
      (by decide) rfl rfl).2 rfl
  refine ⟨rfl, rfl, hcalls, ?_, ?_⟩
  · rw [hnext, Option.map_some', hcount]
    rfl
  · rw [hnext, Option.map_some', hfield]
    rfl

/-- The three ways a confirm step can go: the cursor is outside the array, on an occupied
cell, or on a free cell. -/
theorem confirm_cases (s : Session) (key : Char) (r1 r2 : Nat)
    (hkey : key = lineFeed ∨ key = carriageReturn) :
    (gameInputEvent s key r1 r2).next = none ∨
    ∃ x y : Nat, s.activeCellX = x ∧ s.activeCellY = y ∧ x < maxFieldSize ∧ y < maxFieldSize ∧
      ((s.field y x ≠ emptyChar ∧ gameInputEvent s key r1 r2 =
          { next := some { s with isGameToContinue := true }, calls := [] }) ∨
        s.field y x = emptyChar) := by
  by_cases hout : s.activeCellX < 0 ∨ s.activeCellY < 0 ∨
      (maxFieldSize : Int) ≤ s.activeCellX ∨ (maxFieldSize : Int) ≤ s.activeCellY
  · exact Or.inl (confirm_outside s key r1 r2 hkey hout)
  · right
    have hx : s.activeCellX = (s.activeCellX.toNat : Int) := by
      rw [Int.toNat_of_nonneg]
      omega
    have hy : s.activeCellY = (s.activeCellY.toNat : Int) := by
      rw [Int.toNat_of_nonneg]
      omega
    have hxr : s.activeCellX.toNat < maxFieldSize := by
      have : (maxFieldSize : Int) = 5 := rfl
      have h5 : maxFieldSize = 5 := rfl
      omega
    have hyr : s.activeCellY.toNat < maxFieldSize := by
      have : (maxFieldSize : Int) = 5 := rfl
      have h5 : maxFieldSize = 5 := rfl
      omega
    refine ⟨s.activeCellX.toNat, s.activeCellY.toNat, hx, hy, hxr, hyr, ?_⟩
    by_cases hfree : s.field s.activeCellY.toNat s.activeCellX.toNat = emptyChar
    · exact Or.inr hfree
    · exact Or.inl ⟨hfree, confirm_on_occupied s key r1 r2 _ _ hkey hx hy hxr hyr hfree⟩

/-- With custom mode off no call of `gameInputEvent` changes the counter or the mode. -/
theorem gameInputEvent_plain (s s' : Session) (key : Char) (r1 r2 : Nat)
    (hplain : s.customModeFlag = false) (h : (gameInputEvent s key r1 r2).next = some s') :
    s'.movesToNextRemoval = s.movesToNextRemoval ∧ s'.customModeFlag = false ∧
      ∀ b sz, Call.findRandomXO b sz ∉ (gameInputEvent s key r1 r2).calls := by
  by_cases hkey : key = lineFeed ∨ key = carriageReturn
  · rcases confirm_cases s key r1 r2 hkey with hnone | ⟨x, y, hx, hy, hxr, hyr, hcell⟩
    · rw [hnone] at h
      exact absurd h (by simp)
    · rcases hcell with ⟨_, hocc⟩ | hfree
      · rw [hocc] at h ⊢
        simp only [Option.some.injEq] at h
        subst h
        exact ⟨rfl, hplain, fun b sz hmem => absurd hmem (List.not_mem_nil _)⟩
      · have hstep := confirm_free_cell s key r1 r2 x y hkey hx hy hxr hyr hfree _ rfl
        rw [hplain] at hstep
        simp only [Bool.false_eq_true, if_false, List.nil_append] at hstep
        rw [hstep] at h ⊢
        cases hs : s.singlePlayerFlag
        · rw [hs] at h
          simp only [Bool.false_eq_true, if_false, Option.some.injEq] at h ⊢
          subst h
          exact ⟨rfl, rfl, fun b sz hmem => absurd hmem (List.not_mem_nil _)⟩
        · rw [hs] at h
          simp only [if_true] at h ⊢
          have hc := computersTurn_next _ s' h
          refine ⟨hc.2.2.2.2.1, hc.2.2.2.1, ?_⟩
          intro b sz hmem
          simp at hmem
  · have hk : key ≠ lineFeed ∧ key ≠ carriageReturn :=
      ⟨fun h1 => hkey (Or.inl h1), fun h1 => hkey (Or.inr h1)⟩
    obtain ⟨t, ht, hcalls, _, _, _, hcm, hcount, _⟩ := gameInputEvent_other s key r1 r2 hk
    rw [ht] at h
    simp only [Option.some.injEq] at h
    subst h
    rw [hcalls]
    exact ⟨hcount, hcm.trans hplain, fun b sz hmem => absurd hmem (List.not_mem_nil _)⟩

/-- C22: in the confirm step with custom mode on and a free cursor cell, the custom-mode
block leaves a session `s1` whose counter is one less than the value it started from or was
armed to: from `n > 0` it is `n - 1`, the board holds just the new mark and `findRandomXO`
is not called; from 0 it is -1, `findRandomXO` is called once on the board with the new
mark and the board is what the removal step leaves, whether or not a cell was cleared;
from -1 (or below) it is the armed value minus 1, at least 1, without a call of
`findRandomXO`. The step then continues from `s1` with `computersTurn` (single-player) or a
change of turn (two-player), neither of which touches the counter. With custom mode off no
call of `gameInputEvent`, with any key, changes the counter or calls `findRandomXO`. -/
theorem removal_counter_step (s : Session) (key : Char) (r1 r2 : Nat) :
    (∀ x y : Nat, (key = lineFeed ∨ key = carriageReturn) →
      s.activeCellX = x → s.activeCellY = y → x < maxFieldSize → y < maxFieldSize →
      s.field y x = emptyChar → s.customModeFlag = true →
      ∃ s1 : Session,
        (gameInputEvent s key r1 r2).next =
          (if s.singlePlayerFlag then (computersTurn s1).next
            else some { s1 with playerFlag := !s.playerFlag }) ∧
        (∀ s', (gameInputEvent s key r1 r2).next = some s' →
          s'.movesToNextRemoval = s1.movesToNextRemoval) ∧
        (0 < s.movesToNextRemoval →
          s1.movesToNextRemoval = s.movesToNextRemoval - 1 ∧
          s1.field =
            setCell s.field y x (if s.playerFlag then firstPlayerChar else secondPlayerChar) ∧
          ∀ b sz, Call.findRandomXO b sz ∉ (gameInputEvent s key r1 r2).calls) ∧
        (s.movesToNextRemoval = 0 →
          s1.movesToNextRemoval = -1 ∧
          s1.field = removalStep
            (setCell s.field y x (if s.playerFlag then firstPlayerChar else secondPlayerChar))
            s.fieldSize r1 r2 ∧
          (gameInputEvent s key r1 r2).calls.filter
              (fun c => match c with
                | Call.findRandomXO _ _ => true
                | Call.computerMove _ _ => false) =
            [Call.findRandomXO
              (setCell s.field y x
                (if s.playerFlag then firstPlayerChar else secondPlayerChar)) s.fieldSize]) ∧
        (s.movesToNextRemoval ≤ -1 →
          s1.movesToNextRemoval =
            (if s.singlePlayerFlag then (r1 % 3 + 2 : Int) else (r1 % 3 + 2) * 2) - 1 ∧
          1 ≤ s1.movesToNextRemoval ∧
          s1.field =
            setCell s.field y x (if s.playerFlag then firstPlayerChar else secondPlayerChar) ∧
          ∀ b sz, Call.findRandomXO b sz ∉ (gameInputEvent s key r1 r2).calls)) ∧
    (s.customModeFlag = false →
      ∀ s', (gameInputEvent s key r1 r2).next = some s' →
        s'.movesToNextRemoval = s.movesToNextRemoval ∧
        ∀ b sz, Call.findRandomXO b sz ∉ (gameInputEvent s key r1 r2).calls) := by
  constructor
  · intro x y hkey hx hy hxr hyr hfree hcustom
    obtain ⟨c, hc⟩ : ∃ c, c = customModeStep
        (setCell s.field y x (if s.playerFlag then firstPlayerChar else secondPlayerChar))
        s.fieldSize s.singlePlayerFlag s.movesToNextRemoval r1 r2 := ⟨_, rfl⟩
    have hstep := confirm_free_cell s key r1 r2 x y hkey hx hy hxr hyr hfree c
      (by rw [if_pos hcustom]; exact hc)
    obtain ⟨hneg, hzero, hpos⟩ := customModeStep_cases
      (setCell s.field y x (if s.playerFlag then firstPlayerChar else secondPlayerChar))
      s.fieldSize s.singlePlayerFlag s.movesToNextRemoval r1 r2
    refine ⟨{ s with isGameToContinue := true, field := c.1, movesToNextRemoval := c.2.1 },
      ?_, ?_, ?_, ?_, ?_⟩
    · rw [hstep]
      cases hs : s.singlePlayerFlag
      · simp only [Bool.false_eq_true, if_false]
      · simp only [if_true]
    · intro s' h'
      rw [hstep] at h'
      cases hs : s.singlePlayerFlag
      · rw [hs] at h'
        simp only [Bool.false_eq_true, if_false, Option.some.injEq] at h'
        subst h'
        rfl
      · rw [hs] at h'
        simp only [if_true] at h'
        exact (computersTurn_next _ s' h').2.2.2.2.1
    · intro hn
      rw [hstep, hc, hpos hn]
      refine ⟨rfl, rfl, ?_⟩
      intro b sz hmem
      cases hs : s.singlePlayerFlag <;> rw [hs] at hmem <;> simp at hmem
    · intro hn
      rw [hstep, hc, hzero hn]
      refine ⟨rfl, rfl, ?_⟩
      cases hs : s.singlePlayerFlag <;> simp [List.filter]
    · intro hn
      rw [hstep, hc, hneg hn]
      refine ⟨rfl, ?_, rfl, ?_⟩
      · simp only
        cases hs : s.singlePlayerFlag
        · simp only [Bool.false_eq_true, if_false]
          omega
        · simp only [if_true]
          omega
      · intro b sz hmem
        cases hs : s.singlePlayerFlag <;> rw [hs] at hmem <;> simp at hmem
  · intro hplain s' h'
    exact ⟨(gameInputEvent_plain s s' key r1 r2 hplain h').1,
      (gameInputEvent_plain s s' key r1 r2 hplain h').2.2⟩

/-- C22 on two-player 3x3 sessions in custom mode with the cursor on a free cell: from the
counter at 0 the step ends with the counter at -1, from 2 it ends at 1. -/
theorem removal_counter_step_witness :
    removalDue.movesToNextRemoval = 0 ∧
      Option.map Session.movesToNextRemoval (gameInputEvent removalDue lineFeed 0 0).next =
        some (-1) ∧
      removalAhead.movesToNextRemoval = 2 ∧
      Option.map Session.movesToNextRemoval (gameInputEvent removalAhead lineFeed 0 0).next =
        some 1 := by
  obtain ⟨s1, hnext, _, _, hzero, _⟩ :=
    (removal_counter_step removalDue lineFeed 0 0).1 2 0 (Or.inl rfl) rfl rfl (by decide)
      (by decide) (by decide) rfl
  obtain ⟨s2, hnext2, _, hpos, _, _⟩ :=
    (removal_counter_step removalAhead lineFeed 0 0).1 2 0 (Or.inl rfl) rfl rfl (by decide)
      (by decide) (by decide) rfl
  have h1 : removalDue.singlePlayerFlag = false := rfl
  have h2 : removalAhead.singlePlayerFlag = false := rfl
  rw [h1] at hnext
  rw [h2] at hnext2
  simp only [Bool.false_eq_true, if_false] at hnext hnext2
  refine ⟨rfl, ?_, rfl, ?_⟩
  · rw [hnext]
    exact congrArg some (hzero rfl).1
  · rw [hnext2]
    exact congrArg some (hpos (by decide)).1

/-! ## One input event, in general -/

/-- Every call of `gameInputEvent` that stays inside the arrays keeps the size and the mode
settings, and either places nothing (board, turn flag and counter are unchanged, and each
cursor coordinate stays or ends inside the region), or is a confirm on a free cell (x, y)
of the array: the mark of the player to move is written there, the custom-mode block
yields `c`, and then the computer moves on the board of `c` (single-player) or the turn
passes (two-player). -/
theorem gameInputEvent_step (s s' : Session) (key : Char) (r1 r2 : Nat)
    (h : (gameInputEvent s key r1 r2).next = some s') :
    s'.fieldSize = s.fieldSize ∧ s'.singlePlayerFlag = s.singlePlayerFlag ∧
    s'.customModeFlag = s.customModeFlag ∧
    ((s'.field = s.field ∧ s'.playerFlag = s.playerFlag ∧
        s'.movesToNextRemoval = s.movesToNextRemoval ∧
        (1 ≤ s.fieldSize → -1 ≤ s.activeCellX → s.activeCellX < s.fieldSize →
          (s'.activeCellX = s.activeCellX ∨
            (0 ≤ s'.activeCellX ∧ s'.activeCellX < s.fieldSize))) ∧
        (1 ≤ s.fieldSize → -1 ≤ s.activeCellY → s.activeCellY < s.fieldSize →
          (s'.activeCellY = s.activeCellY ∨
            (0 ≤ s'.activeCellY ∧ s'.activeCellY < s.fieldSize)))) ∨
      ((key = lineFeed ∨ key = carriageReturn) ∧
        ∃ x y : Nat, ∃ c : Board × Int × List Call,
          s.activeCellX = x ∧ s.activeCellY = y ∧ x < maxFieldSize ∧ y < maxFieldSize ∧
          s.field y x = emptyChar ∧
          c = (if s.customModeFlag then
              customModeStep
                (setCell s.field y x
                  (if s.playerFlag then firstPlayerChar else secondPlayerChar))
                s.fieldSize s.singlePlayerFlag s.movesToNextRemoval r1 r2
            else
              (setCell s.field y x (if s.playerFlag then firstPlayerChar else secondPlayerChar),
                s.movesToNextRemoval, [])) ∧
          s'.movesToNextRemoval = c.2.1 ∧
          ((s'.activeCellX = s.activeCellX ∧ s'.activeCellY = s.activeCellY) ∨
            (s'.activeCellX = -1 ∧ s'.activeCellY = -1)) ∧
          (s.singlePlayerFlag = true →
            ComputerMove c.1 s.fieldSize = some s'.field ∧ s'.playerFlag = s.playerFlag) ∧
          (s.singlePlayerFlag = false → s'.field = c.1 ∧ s'.playerFlag = !s.playerFlag))) := by
  by_cases hkey : key = lineFeed ∨ key = carriageReturn
  · rcases confirm_cases s key r1 r2 hkey with hnone | ⟨x, y, hx, hy, hxr, hyr, hcell⟩
    · rw [hnone] at h
      exact absurd h (by simp)
    · rcases hcell with ⟨_, hocc⟩ | hfree
      · rw [hocc] at h
        simp only [Option.some.injEq] at h
        subst h
        exact ⟨rfl, rfl, rfl, Or.inl ⟨rfl, rfl, rfl, fun _ _ _ => Or.inl rfl,
          fun _ _ _ => Or.inl rfl⟩⟩
      · obtain ⟨c, hc⟩ : ∃ c : Board × Int × List Call, c =
            (if s.customModeFlag then
              customModeStep
                (setCell s.field y x
                  (if s.playerFlag then firstPlayerChar else secondPlayerChar))
                s.fieldSize s.singlePlayerFlag s.movesToNextRemoval r1 r2
            else
              (setCell s.field y x (if s.playerFlag then firstPlayerChar else secondPlayerChar),
                s.movesToNextRemoval, [])) := ⟨_, rfl⟩
        have hstep := confirm_free_cell s key r1 r2 x y hkey hx hy hxr hyr hfree c hc
        rw [hstep] at h
        cases hs : s.singlePlayerFlag
        · rw [hs] at h
          simp only [Bool.false_eq_true, if_false, Option.some.injEq] at h
          subst h
          refine ⟨rfl, rfl, rfl, Or.inr ⟨hkey, x, y, c, hx, hy, hxr, hyr, hfree, ?_, rfl,
            Or.inl ⟨rfl, rfl⟩, fun hf => absurd hf (by simp), fun _ => ⟨rfl, rfl⟩⟩⟩
          rw [hs] at hc
          exact hc
        · rw [hs] at h
          simp only [if_true] at h
          obtain ⟨hmove, h1, h2, h3, h4, h5, h6⟩ := computersTurn_next _ s' h
          refine ⟨h1, h2, h3, Or.inr ⟨hkey, x, y, c, hx, hy, hxr, hyr, hfree, ?_,
            h4, h6, fun _ => ⟨hmove, h5⟩, fun hf => absurd hf (by simp)⟩⟩
          rw [hs] at hc
          exact hc
  · have hk : key ≠ lineFeed ∧ key ≠ carriageReturn :=
      ⟨fun h1 => hkey (Or.inl h1), fun h1 => hkey (Or.inr h1)⟩
    obtain ⟨t, ht, _, h1, h2, h3, h4, h5, h6, h7, h8⟩ := gameInputEvent_other s key r1 r2 hk
    rw [ht] at h
    simp only [Option.some.injEq] at h
    subst h
    exact ⟨h2, h3, h4, Or.inl ⟨h1, h6, h5, h7, h8⟩⟩

/-! ## Counting marks -/

theorem pickBest_mem (score : Nat × Nat → Int) (ms : List (Nat × Nat)) (bestScore : Int)
    (m : Nat × Nat) (h : pickBest score ms bestScore none = some m) : m ∈ ms := by
  rcases pickBest_spec score ms bestScore none with ⟨m', pre, post, hms, hpick, _⟩ | ⟨hpick, _⟩
  · rw [hpick] at h
    simp only [Option.some.injEq] at h
    subst h
    rw [hms]
    simp
  · rw [hpick] at h
    exact absurd h (by simp)

/-- Whenever `ComputerMove` has a move it writes `o` on one free cell of the region. -/
theorem ComputerMove_some (board after : Board) (size : Nat)
    (h : ComputerMove board size = some after) :
    ∃ i j, i < size ∧ j < size ∧ board i j = emptyChar ∧
      after = setCell board i j secondPlayerChar := by
  rw [ComputerMove_eq, Option.map_eq_some'] at h
  obtain ⟨m, hbest, rfl⟩ := h
  unfold bestMoveOf at hbest
  have hmem := pickBest_mem _ _ _ _ hbest
  rw [mem_GetAvailableMoves] at hmem
  exact ⟨m.1, m.2, hmem.1, hmem.2.1, hmem.2.2, rfl⟩

theorem drawGame_step (s : Session) :
    (drawGame s).field = s.field ∧ (drawGame s).fieldSize = s.fieldSize ∧
      (drawGame s).singlePlayerFlag = s.singlePlayerFlag ∧
      (drawGame s).customModeFlag = s.customModeFlag ∧
      (drawGame s).movesToNextRemoval = s.movesToNextRemoval ∧
      (drawGame s).playerFlag = s.playerFlag ∧
      (drawGame s = s ∨ (checkWin s.field s.fieldSize ≠ emptyChar ∧
        (drawGame s).activeCellX = -1 ∧ (drawGame s).activeCellY = -1)) := by
  unfold drawGame
  simp only
  split
  · next h => exact ⟨rfl, rfl, rfl, rfl, rfl, rfl, Or.inr ⟨h, rfl, rfl⟩⟩
  · exact ⟨rfl, rfl, rfl, rfl, rfl, rfl, Or.inl rfl⟩

/-! ## The first placement of a new game -/

theorem computersTurn_some (s : Session) (board : Board)
    (h : ComputerMove s.field s.fieldSize = some board) :
    ∃ s', (computersTurn s).next = some s' ∧ s'.field = board := by
  unfold computersTurn
  simp only [drawGame_field, drawGame_fieldSize, h, Option.map_some']
  exact ⟨_, rfl, rfl⟩

/-- The removal step changes nothing on a board without `o`. -/
theorem removalStep_no_second (field : Board) (fieldSize r1 r2 : Nat)
    (ho : ∀ i < fieldSize, ∀ j < fieldSize, field i j ≠ secondPlayerChar) :
    removalStep field fieldSize r1 r2 = field := by
  have hfalse : ¬ (findRandomXO field fieldSize 0 0 0 0 r1 r2).1 = true := by
    rw [findRandomXO_true_iff]
    rintro ⟨_, i, hi, j, hj, he⟩
    exact ho i hi j hj he
  unfold removalStep
  simp only [hfalse, Bool.false_eq_true, if_false]

/-- The sessions of a new game before the first confirm: the size is unchanged, the whole
array is empty, it is the turn of `x` and the cursor is inside the region. -/
theorem before_first_confirm (s0 s : Session) (hlo : 1 ≤ s0.fieldSize)
    (hhi : s0.fieldSize ≤ maxFieldSize)
    (h : ReachesBy (fun k => k ≠ lineFeed ∧ k ≠ carriageReturn) (setupNewGame s0) s) :
    s.fieldSize = s0.fieldSize ∧
    (∀ i < maxFieldSize, ∀ j < maxFieldSize, s.field i j = emptyChar) ∧
    s.playerFlag = true ∧
    (0 ≤ s.activeCellX ∧ s.activeCellX < s.fieldSize) ∧
    (0 ≤ s.activeCellY ∧ s.activeCellY < s.fieldSize) := by
  obtain ⟨_, _, d3, _, d5, _⟩ := marks_distinct
  induction h with
  | start =>
    have hx : (setupNewGame s0).activeCellX = 0 := rfl
    have hy : (setupNewGame s0).activeCellY = 0 := rfl
    have hs : (setupNewGame s0).fieldSize = s0.fieldSize := rfl
    have hf : (setupNewGame s0).field = clearField s0.field := rfl
    have hp : (setupNewGame s0).playerFlag = true := rfl
    rw [hx, hy, hs, hf, hp]
    exact ⟨rfl, fun i hi j hj => clearField_cell _ i j hi hj, rfl, ⟨by omega, by omega⟩,
      ⟨by omega, by omega⟩⟩
  | input s s' key r1 r2 _ hallowed hstep ih =>
    obtain ⟨hsz, hempty, hp, hX, hY⟩ := ih
    obtain ⟨e1, _, _, hcase⟩ := gameInputEvent_step s s' key r1 r2 hstep
    have hlo' : 1 ≤ s.fieldSize := by rw [hsz]; exact hlo
    rcases hcase with ⟨f1, f2, _, cx, cy⟩ | ⟨hkey, _⟩
    · have hx' := cx hlo' (by omega) hX.2
      have hy' := cy hlo' (by omega) hY.2
      refine ⟨e1.trans hsz, ?_, f2.trans hp, ?_, ?_⟩
      · rw [f1]; exact hempty
      · rw [e1]; omega
      · rw [e1]; omega
    · exact absurd hkey (fun hk => hk.elim hallowed.1 hallowed.2)
  | redraw s _ ih =>
    obtain ⟨hsz, hempty, hp, hX, hY⟩ := ih
    have hlo' : 1 ≤ s.fieldSize := by rw [hsz]; exact hlo
    have hhi' : s.fieldSize ≤ maxFieldSize := by rw [hsz]; exact hhi
    have hong : checkWin s.field s.fieldSize = emptyChar := by
      refine checkWin_of_no_mark _ _ hlo' ?_ ?_
      · intro i hi j hj he
        rw [hempty i (by omega) j (by omega)] at he
        exact d3 he.symm
      · intro i hi j hj he
        rw [hempty i (by omega) j (by omega)] at he
        exact d5 he.symm
    rw [drawGame_of_ongoing s hong]
    exact ⟨hsz, hempty, hp, hX, hY⟩

/-- C27: `setupNewGame` leaves the whole array empty, the cursor at (0, 0) and the turn flag
on player 1. In every session `s` reached from there before the first confirm (by other
keys and redraws), for a size from 2 to 5 and in every mode, the board is still empty and
it is still the turn of player 1, so the first confirm succeeds and writes `x` on the
cursor cell: in two-player mode the board is then exactly that `x`, in single-player mode
`ComputerMove` is called on the board holding exactly that `x` and adds one `o` on another
cell. -/
theorem new_game_first_mark (s0 s : Session) (key : Char) (r1 r2 : Nat)
    (hlo : 2 ≤ s0.fieldSize) (hhi : s0.fieldSize ≤ maxFieldSize)
    (hreach : ReachesBy (fun k => k ≠ lineFeed ∧ k ≠ carriageReturn) (setupNewGame s0) s)
    (hkey : key = lineFeed ∨ key = carriageReturn) :
    ((∀ i < maxFieldSize, ∀ j < maxFieldSize, (setupNewGame s0).field i j = emptyChar) ∧
      (setupNewGame s0).activeCellX = 0 ∧ (setupNewGame s0).activeCellY = 0 ∧
      (setupNewGame s0).playerFlag = true) ∧
    ((∀ i < maxFieldSize, ∀ j < maxFieldSize, s.field i j = emptyChar) ∧
      s.playerFlag = true) ∧
    ∃ x y : Nat, ∃ s' : Session,
      s.activeCellX = x ∧ s.activeCellY = y ∧ x < s.fieldSize ∧ y < s.fieldSize ∧
      (placeChar s.field x y (if s.playerFlag then firstPlayerChar else secondPlayerChar)).1 =
        true ∧
      (gameInputEvent s key r1 r2).next = some s' ∧ s'.field y x = firstPlayerChar ∧
      (s.singlePlayerFlag = false → s'.field = setCell s.field y x firstPlayerChar) ∧
      (s.singlePlayerFlag = true →
        Call.computerMove (setCell s.field y x firstPlayerChar) s.fieldSize ∈
          (gameInputEvent s key r1 r2).calls ∧
        ∃ i j, (i ≠ y ∨ j ≠ x) ∧
          s'.field = setCell (setCell s.field y x firstPlayerChar) i j secondPlayerChar) := by
  obtain ⟨d1, _, d3, _, d5, _⟩ := marks_distinct
  obtain ⟨hsz, hempty, hp, hX, hY⟩ := before_first_confirm s0 s (by omega) hhi hreach
  refine ⟨⟨fun i hi j hj => clearField_cell _ i j hi hj, rfl, rfl, rfl⟩, ⟨hempty, hp⟩, ?_⟩
  have h5 : maxFieldSize = 5 := rfl
  have hx : s.activeCellX = (s.activeCellX.toNat : Int) := by
    rw [Int.toNat_of_nonneg hX.1]
  have hy : s.activeCellY = (s.activeCellY.toNat : Int) := by
    rw [Int.toNat_of_nonneg hY.1]
  obtain ⟨x, hxdef⟩ : ∃ x, x = s.activeCellX.toNat := ⟨_, rfl⟩
  obtain ⟨y, hydef⟩ : ∃ y, y = s.activeCellY.toNat := ⟨_, rfl⟩
  rw [← hxdef] at hx
  rw [← hydef] at hy
  have hxs : x < s.fieldSize := by have := hX.2; omega
  have hys : y < s.fieldSize := by have := hY.2; omega
  have hxr : x < maxFieldSize := by omega
  have hyr : y < maxFieldSize := by omega
  have hfree : s.field y x = emptyChar := hempty y hyr x hxr
  -- the board after the placement, and what the custom-mode block does to it
  obtain ⟨placed, hplaced⟩ : ∃ b, b = setCell s.field y x firstPlayerChar := ⟨_, rfl⟩
  have hno : ∀ i < s.fieldSize, ∀ j < s.fieldSize, placed i j ≠ secondPlayerChar := by
    intro i hi j hj he
    rw [hplaced] at he
    have := setCell_mark_old _ _ _ _ _ _ _ d1 he
    rw [hempty i (by omega) j (by omega)] at this
    exact d5 this.symm
  obtain ⟨c, hc⟩ : ∃ c : Board × Int × List Call, c =
      (if s.customModeFlag then
        customModeStep
          (setCell s.field y x (if s.playerFlag then firstPlayerChar else secondPlayerChar))
          s.fieldSize s.singlePlayerFlag s.movesToNextRemoval r1 r2
      else
        (setCell s.field y x (if s.playerFlag then firstPlayerChar else secondPlayerChar),
          s.movesToNextRemoval, [])) := ⟨_, rfl⟩
  have hstep := confirm_free_cell s key r1 r2 x y hkey hx hy hxr hyr hfree c hc
  have hc1 : c.1 = placed := by
    rw [hc, hp]
    simp only [if_true]
    rw [← hplaced]
    cases hcm : s.customModeFlag
    · simp only [Bool.false_eq_true, if_false]
    · simp only [if_true]
      obtain ⟨hneg, hzero, hpos⟩ := customModeStep_cases placed s.fieldSize s.singlePlayerFlag
        s.movesToNextRemoval r1 r2
      rcases lt_trichotomy s.movesToNextRemoval 0 with hn | hn | hn
      · rw [hneg (by omega)]
      · rw [hzero hn]
        exact removalStep_no_second placed s.fieldSize r1 r2 hno
      · rw [hpos hn]
  have hplace : (placeChar s.field x y
      (if s.playerFlag then firstPlayerChar else secondPlayerChar)).1 = true := by
    simp only [placeChar, hfree, beq_self_eq_true]
  cases hs : s.singlePlayerFlag
  · rw [hs] at hstep
    simp only [Bool.false_eq_true, if_false] at hstep
    refine ⟨x, y, _, hx, hy, hxs, hys, hplace, by rw [hstep], ?_, fun _ => ?_,
      fun hf => absurd hf (by simp)⟩
    · show c.1 y x = firstPlayerChar
      rw [hc1, hplaced]
      exact setCell_same _ _ _ _
    · show c.1 = setCell s.field y x firstPlayerChar
      rw [hc1, hplaced]
  · rw [hs] at hstep
    simp only [if_true] at hstep
    -- the computer has a move on the board with the single `x`
    have hwf : wellFormed placed s.fieldSize := by
      intro i hi j hj
      rw [hplaced]
      unfold setCell
      split
      · exact Or.inr (Or.inl rfl)
      · exact Or.inl (hempty i (by omega) j (by omega))
    have hfreecell : ∃ i < s.fieldSize, ∃ j < s.fieldSize, placed i j = emptyChar := by
      by_cases h0 : y = 0 ∧ x = 0
      · refine ⟨1, by omega, 1, by omega, ?_⟩
        rw [hplaced, setCell_other _ _ _ _ _ _ (Or.inl (by omega))]
        exact hempty 1 (by omega) 1 (by omega)
      · refine ⟨0, by omega, 0, by omega, ?_⟩
        rw [hplaced, setCell_other _ _ _ _ _ _ (by omega)]
        exact hempty 0 (by omega) 0 (by omega)
    obtain ⟨best, _, _, _, hbest, _, _⟩ := bestMoveOf_spec placed s.fieldSize hwf hfreecell
    have hmove : ComputerMove placed s.fieldSize =
        some (setCell placed best.1 best.2 secondPlayerChar) := by
      rw [ComputerMove_eq, hbest]
      rfl
    obtain ⟨i, j, _, _, hij, hafter⟩ := ComputerMove_some _ _ _ hmove
    have hne : i ≠ y ∨ j ≠ x := by
      by_contra hcon
      push_neg at hcon
      rw [hplaced, hcon.1, hcon.2, setCell_same] at hij
      exact d3 hij
    have hmove' : ComputerMove c.1 s.fieldSize =
        some (setCell placed best.1 best.2 secondPlayerChar) := by
      rw [hc1]
      exact hmove
    obtain ⟨s', hnext', hfield⟩ : ∃ s', (gameInputEvent s key r1 r2).next = some s' ∧
        s'.field = setCell placed best.1 best.2 secondPlayerChar := by
      rw [hstep]
      exact computersTurn_some _ _ hmove'
    have hcell : s'.field y x = firstPlayerChar := by
      rw [hfield, hafter, setCell_other _ _ _ _ _ _ (by omega), hplaced]
      exact setCell_same _ _ _ _
    have hcall : Call.computerMove (setCell s.field y x firstPlayerChar) s.fieldSize ∈
        (gameInputEvent s key r1 r2).calls := by
      rw [hstep, hc1, hplaced]
      exact List.mem_append_right _ (List.mem_singleton.mpr rfl)
    have hboard : s'.field =
        setCell (setCell s.field y x firstPlayerChar) i j secondPlayerChar := by
      rw [hfield, hafter, hplaced]
    exact ⟨x, y, s', hx, hy, hxs, hys, hplace, hnext', hcell,
      fun hf => absurd hf (by decide), fun _ => ⟨hcall, i, j, hne, hboard⟩⟩

/-- C27 on a new two-player 3x3 game: the cursor is at (0, 0), it is the turn of player 1,
and the first confirm writes `x` on row 0, column 0. -/
theorem new_game_first_mark_witness :
    (2 ≤ idle3.fieldSize ∧ idle3.fieldSize ≤ maxFieldSize) ∧
      (setupNewGame idle3).playerFlag = true ∧
      Option.map (fun s => s.field 0 0) (gameInputEvent (setupNewGame idle3) lineFeed 0 0).next =
        some firstPlayerChar := by
  have h := new_game_first_mark idle3 (setupNewGame idle3) lineFeed 0 0 (by decide) (by decide)
    ReachesBy.start (Or.inl rfl)
  obtain ⟨x, y, s', hx, hy, _, _, _, hnext, hcell, _⟩ := h.2.2
  have hx0 : (setupNewGame idle3).activeCellX = 0 := rfl
  have hy0 : (setupNewGame idle3).activeCellY = 0 := rfl
  have ex : x = 0 := by omega
  have ey : y = 0 := by omega
  subst ex
  subst ey
  refine ⟨⟨by decide, by decide⟩, h.1.2.2.2, ?_⟩
  rw [hnext]
  exact congrArg some hcell

/-! ## Terminal scores in 32-bit arithmetic -/

/-- Inside the range of `int` nothing is wrapped. -/
theorem wrapInt_eq (n : Int) (hlo : -2147483648 ≤ n) (hhi : n ≤ 2147483647) :
    wrapInt n = n := by
  unfold wrapInt
  omega

theorem wrapInt_above (n : Int) (hlo : 2147483647 < n) (hhi : n ≤ 6442450943) :
    wrapInt n = n - 4294967296 := by
  unfold wrapInt
  omega

theorem wrapInt_below (n : Int) (hlo : -6442450944 ≤ n) (hhi : n < -2147483648) :
    wrapInt n = n + 4294967296 := by
  unfold wrapInt
  omega

theorem Minimax32_terminal (fuel : Nat) (board : Board) (size : Nat) (depth : Int)
    (isMaximizing : Bool) (alpha beta : Int)
    (h : statusScore (checkWin board size) = 10 ∨ statusScore (checkWin board size) = -10) :
    Minimax32 (fuel + 1) board size depth isMaximizing alpha beta =
      some (wrapInt (statusScore (checkWin board size) - depth), board) := by
  unfold Minimax32
  simp only [h, if_true]

/-- For every remaining depth from 0 to 2147483638 the 32-bit function is `Minimax`: no
subtraction leaves the range of `int`. This covers the depths 9, 4 and 3 that
`ComputerMove` passes. -/
theorem Minimax32_eq_Minimax :
    ∀ (fuel : Nat) (board : Board) (size : Nat) (depth : Int) (isMaximizing : Bool)
      (alpha beta : Int), 0 ≤ depth → depth ≤ 2147483638 →
      Minimax32 fuel board size depth isMaximizing alpha beta =
        Minimax fuel board size depth isMaximizing alpha beta := by
  intro fuel
  induction fuel with
  | zero =>
    intro board size depth isMaximizing alpha beta _ _
    unfold Minimax32 Minimax
    rfl
  | succ fuel ih =>
    intro board size depth isMaximizing alpha beta hlo hhi
    unfold Minimax32 Minimax
    simp only
    split
    · next hs =>
      rw [wrapInt_eq]
      · rcases hs with hs | hs <;> rw [hs] <;> omega
      · rcases hs with hs | hs <;> rw [hs] <;> omega
    · split
      · rfl
      · next hd =>
        have hpos : depth ≠ 0 := fun h0 => hd (Or.inl h0)
        have hw : wrapInt (depth - 1) = depth - 1 := wrapInt_eq _ (by omega) (by omega)
        rw [hw]
        have hmax : (fun b a be => Minimax32 fuel b size (depth - 1) false a be) =
            (fun b a be => Minimax fuel b size (depth - 1) false a be) := by
          funext b a be
          exact ih b size (depth - 1) false a be (by omega) (by omega)
        have hmin : (fun b a be => Minimax32 fuel b size (depth - 1) true a be) =
            (fun b a be => Minimax fuel b size (depth - 1) true a be) := by
          funext b a be
          exact ih b size (depth - 1) true a be (by omega) (by omega)
        rw [hmax, hmin]

/-- C8 fails at the end of the range of `int`: on the 5x5 board with four `o` in a row,
which `checkWin` reports as won by `o`, the call with depth -2147483638 returns
-2147483648, while `10 - depth` is 2147483648. -/
theorem Minimax_win_score_counterexample :
    checkWin fourInARow 5 = secondPlayerChar ∧
      Minimax32 1 fourInARow 5 (-2147483638) true (-1000) 1000 =
        some (-2147483648, fourInARow) ∧
      (-2147483648 : Int) ≠ 10 - (-2147483638) := by
  have hw : checkWin fourInARow 5 = secondPlayerChar := by decide
  have hs : statusScore (checkWin fourInARow 5) = 10 := by rw [hw]; rfl
  refine ⟨hw, ?_, by decide⟩
  rw [Minimax32_terminal 0 _ _ _ _ _ _ (Or.inl hs), hs]
  rfl

/-- C8, for every `int` value of depth: whenever `checkWin` reports `o`, `Minimax` returns
`10 - depth` as a 32-bit `int` and leaves the board as it was; this is exactly
`10 - depth` for every depth from -2147483637 upwards (zero included) and
`10 - depth - 2^32` below. Whenever `checkWin` reports `x`, it returns `-10 - depth` as a
32-bit `int`: exactly `-10 - depth` for every depth up to 2147483638 and
`-10 - depth + 2^32` above. Flag and window are arbitrary. -/
theorem Minimax_win_score (fuel : Nat) (board : Board) (size : Nat) (depth : Int)
    (isMaximizing : Bool) (alpha beta : Int)
    (hlo : -2147483648 ≤ depth) (hhi : depth ≤ 2147483647) :
    (checkWin board size = secondPlayerChar →
      Minimax32 (fuel + 1) board size depth isMaximizing alpha beta =
        some (if -2147483637 ≤ depth then 10 - depth else 10 - depth - 4294967296, board)) ∧
    (checkWin board size = firstPlayerChar →
      Minimax32 (fuel + 1) board size depth isMaximizing alpha beta =
        some (if depth ≤ 2147483638 then -10 - depth else -10 - depth + 4294967296, board)) := by
  constructor
  · intro h
    have hs : statusScore (checkWin board size) = 10 := by rw [h]; rfl
    rw [Minimax32_terminal _ _ _ _ _ _ _ (Or.inl hs), hs]
    split
    · rw [wrapInt_eq _ (by omega) (by omega)]
    · rw [wrapInt_above _ (by omega) (by omega)]
  · intro h
    have hs : statusScore (checkWin board size) = -10 := by rw [h]; rfl
    rw [Minimax32_terminal _ _ _ _ _ _ _ (Or.inr hs), hs]
    split
    · rw [wrapInt_eq _ (by omega) (by omega)]
    · rw [wrapInt_below _ (by omega) (by omega)]

/-- C8 on the 5x5 board with four `o` in a row, at depth 0 and at depth 3, and on a 3x3
board won by `x` at depth 9. -/
theorem Minimax_win_score_witness :
    Minimax32 1 fourInARow 5 0 true (-1000) 1000 = some (10 - 0, fourInARow) ∧
    Minimax32 1 fourInARow 5 3 false (-1000) 1000 = some (10 - 3, fourInARow) ∧
    Minimax32 1 bothLines 3 9 false (-1000) 1000 = some (-10 - 9, bothLines) :=
  ⟨(Minimax_win_score 0 fourInARow 5 0 true (-1000) 1000 (by decide) (by decide)).1 (by decide),
    (Minimax_win_score 0 fourInARow 5 3 false (-1000) 1000 (by decide) (by decide)).1
      (by decide),
    (Minimax_win_score 0 bothLines 3 9 false (-1000) 1000 (by decide) (by decide)).2
      (by decide)⟩

/-- C14 fails at the end of the range of `int`: on a board won by `x`, the call with
remaining depth 0 returns -10 and the call with the larger remaining depth 2147483639
returns 2147483647, which is the greater score. -/
theorem Minimax_later_loss_counterexample :
    checkWin bothLines 3 = firstPlayerChar ∧ (0 : Int) < 2147483639 ∧
      Minimax32 1 bothLines 3 0 false (-1000) 1000 = some (-10, bothLines) ∧
      Minimax32 1 bothLines 3 2147483639 false (-1000) 1000 = some (2147483647, bothLines) ∧
      ¬ ((2147483647 : Int) < -10) := by
  have hw : checkWin bothLines 3 = firstPlayerChar := by decide
  have hs : statusScore (checkWin bothLines 3) = -10 := by rw [hw]; rfl
  refine ⟨hw, by decide, ?_, ?_, by decide⟩
  · rw [Minimax32_terminal 0 _ _ _ _ _ _ (Or.inr hs), hs]
    rfl
  · rw [Minimax32_terminal 0 _ _ _ _ _ _ (Or.inr hs), hs]
    rfl

/-- C14, for `int` depths: for two boards both won by `x` and remaining depths `d1 < d2`,
the board evaluated with the smaller remaining depth `d1` (after more plies) gets the
strictly greater score whenever `-10 - d2` is still an `int`, that is `d2 <= 2147483638`,
and also when both depths lie above 2147483638; when only `d2` lies above it, the order of
the two scores is the opposite. -/
theorem Minimax_later_loss_scores_higher (fuel1 fuel2 : Nat) (board1 board2 : Board)
    (size1 size2 : Nat) (d1 d2 : Int) (flag1 flag2 : Bool) (alpha1 beta1 alpha2 beta2 : Int)
    (h1 : checkWin board1 size1 = firstPlayerChar)
    (h2 : checkWin board2 size2 = firstPlayerChar)
    (hlo : -2147483648 ≤ d1) (hd : d1 < d2) (hhi : d2 ≤ 2147483647) :
    ∃ s1 s2, Minimax32 (fuel1 + 1) board1 size1 d1 flag1 alpha1 beta1 = some (s1, board1) ∧
      Minimax32 (fuel2 + 1) board2 size2 d2 flag2 alpha2 beta2 = some (s2, board2) ∧
      (d2 ≤ 2147483638 ∨ 2147483638 < d1 → s2 < s1) ∧
      (d1 ≤ 2147483638 ∧ 2147483638 < d2 → s1 < s2) := by
  have hs1 : statusScore (checkWin board1 size1) = -10 := by rw [h1]; rfl
  have hs2 : statusScore (checkWin board2 size2) = -10 := by rw [h2]; rfl
  refine ⟨wrapInt (-10 - d1), wrapInt (-10 - d2), ?_, ?_, ?_, ?_⟩
  · rw [Minimax32_terminal _ _ _ _ _ _ _ (Or.inr hs1), hs1]
  · rw [Minimax32_terminal _ _ _ _ _ _ _ (Or.inr hs2), hs2]
  · intro h
    unfold wrapInt
    omega
  · intro h
    unfold wrapInt
    omega

/-- C14 on a board won by `x`, at remaining depths 7 and 9. -/
theorem Minimax_later_loss_scores_higher_witness :
    checkWin bothLines 3 = firstPlayerChar ∧
    ∃ s1 s2, Minimax32 1 bothLines 3 7 false (-1000) 1000 = some (s1, bothLines) ∧
      Minimax32 1 bothLines 3 9 true (-1000) 1000 = some (s2, bothLines) ∧ s2 < s1 := by
  obtain ⟨s1, s2, e1, e2, hlt, _⟩ :=
    Minimax_later_loss_scores_higher 0 0 bothLines bothLines 3 3 7 9 false true
      (-1000) 1000 (-1000) 1000 (by decide) (by decide) (by decide) (by decide) (by decide)
  exact ⟨by decide, s1, s2, e1, e2, hlt (Or.inl (by decide))⟩

/-! ## Events that reach outside the field array -/

/-- Inside the array `placeCharFlat` is `placeChar`. -/
theorem placeCharFlat_inside (field : Board) (x y : Nat) (c stray : Char)
    (hx : x < maxFieldSize) (hy : y < maxFieldSize) :
    placeCharFlat field (x : Int) (y : Int) c stray = placeChar field x y c := by
  have h5 : maxFieldSize = 5 := rfl
  have e5 : (maxFieldSize : Int) = 5 := rfl
  rw [h5] at hx hy
  unfold placeCharFlat
  simp only [e5]
  have hoff : 0 ≤ (5 : Int) * (y : Int) + (x : Int) ∧ (5 : Int) * (y : Int) + (x : Int) < 5 * 5 := by
    omega
  rw [if_pos hoff]
  have hcol : ((5 : Int) * (y : Int) + (x : Int)) % 5 = (x : Int) := by omega
  have hrow : ((5 : Int) * (y : Int) + (x : Int)) / 5 = (y : Int) := by omega
  rw [hcol, hrow, Int.toNat_natCast, Int.toNat_natCast]

/-- Outside the array `placeCharFlat` reads the stray byte and leaves the array alone. -/
theorem placeCharFlat_outside (field : Board) (x y : Int) (c stray : Char)
    (hout : ¬ (0 ≤ (maxFieldSize : Int) * y + x ∧
      (maxFieldSize : Int) * y + x < (maxFieldSize : Int) * maxFieldSize)) :
    placeCharFlat field x y c stray = (stray == emptyChar, field) := by
  unfold placeCharFlat
  simp only
  rw [if_neg hout]

/-- The array after `ComputerMove`: the board returned when there is a move, the board as
it was when there is none. -/
theorem ComputerMoveFlat_eq (board : Board) (size : Nat) :
    ComputerMoveFlat board size = (ComputerMove board size).getD board := by
  unfold ComputerMoveFlat ComputerMove
  simp only
  rw [rootLoop_eq _ (fun m => MinimaxScore (size * size + 1)
      (setCell board m.1 m.2 secondPlayerChar) size (maxDepthOf size) false (-1000) 1000) board]
  · cases pickBest _ (GetAvailableMoves board size) (-1000) none with
    | none => rfl
    | some m => rfl
  · exact fun m hm => ((mem_GetAvailableMoves board size m).mp hm).2.2
  · intro m hm
    apply Minimax_eq_score
    have := emptyCount_le (setCell board m.1 m.2 secondPlayerChar) size
    omega

/-- The two outcomes of `drawGame`. -/
theorem drawGame_result (s : Session) :
    (checkWin s.field s.fieldSize = emptyChar ∧ drawGame s = s) ∨
    (checkWin s.field s.fieldSize ≠ emptyChar ∧
      drawGame s = { s with lastWinner := checkWin s.field s.fieldSize,
                            currentState := gameStates.gameResult,
                            activeCellX := -1, activeCellY := -1 }) := by
  unfold drawGame
  simp only
  split
  · next h => exact Or.inr ⟨h, rfl⟩
  · next h => exact Or.inl ⟨not_not.mp h, rfl⟩

/-- What `computersTurn` leaves behind, whether or not `ComputerMove` has a move: the array
after `ComputerMove`, the same settings, counter and turn flag; the state and the active
cell are as before when `checkWin` reports an ongoing game before the computer moves, else
the state is `gameResult` and the active cell is (-1, -1). -/
theorem computersTurnFlat_step (s : Session) :
    (computersTurnFlat s).field = ComputerMoveFlat s.field s.fieldSize ∧
    (computersTurnFlat s).fieldSize = s.fieldSize ∧
    (computersTurnFlat s).singlePlayerFlag = s.singlePlayerFlag ∧
    (computersTurnFlat s).customModeFlag = s.customModeFlag ∧
    (computersTurnFlat s).movesToNextRemoval = s.movesToNextRemoval ∧
    (computersTurnFlat s).playerFlag = s.playerFlag ∧
    ((checkWin s.field s.fieldSize = emptyChar ∧
        (computersTurnFlat s).currentState = s.currentState ∧
        (computersTurnFlat s).activeCellX = s.activeCellX ∧
        (computersTurnFlat s).activeCellY = s.activeCellY) ∨
      (checkWin s.field s.fieldSize ≠ emptyChar ∧
        (computersTurnFlat s).currentState = gameStates.gameResult ∧
        (computersTurnFlat s).activeCellX = -1 ∧ (computersTurnFlat s).activeCellY = -1)) := by
  unfold computersTurnFlat
  simp only
  rcases drawGame_result { s with playerFlag := !s.playerFlag } with ⟨hc, hd⟩ | ⟨hc, hd⟩
  · rw [hd]
    exact ⟨rfl, rfl, rfl, rfl, rfl, Bool.not_not _, Or.inl ⟨hc, rfl, rfl, rfl⟩⟩
  · rw [hd]
    exact ⟨rfl, rfl, rfl, rfl, rfl, Bool.not_not _, Or.inr ⟨hc, rfl, rfl, rfl⟩⟩

/-! ## One received byte, followed through every access -/

theorem gameInputEventFlat_confirm (s : Session) (key : Char) (r1 r2 : Nat) (stray : Char)
    (hkey : key = lineFeed ∨ key = carriageReturn) :
    gameInputEventFlat s key r1 r2 stray = confirmPlacementFlat s r1 r2 stray := by
  obtain ⟨k1, k2, k3, k4, k5, k6, k7, k8⟩ := keys_distinct
  unfold gameInputEventFlat
  rcases hkey with h | h <;> subst h
  · rw [if_neg k1, if_neg k2, if_neg k3, if_neg k4, if_pos (Or.inl rfl)]
  · rw [if_neg k5, if_neg k6, if_neg k7, if_neg k8, if_pos (Or.inr rfl)]

/-- Every key other than the two confirm keys leaves the board, the settings, the counter
and the turn flag alone; the state stays or becomes `mainMenu`, and a cursor coordinate
either stays or ends inside the region. -/
theorem gameInputEventFlat_other (s : Session) (key : Char) (r1 r2 : Nat) (stray : Char)
    (hkey : key ≠ lineFeed ∧ key ≠ carriageReturn) :
    (gameInputEventFlat s key r1 r2 stray).field = s.field ∧
    (gameInputEventFlat s key r1 r2 stray).fieldSize = s.fieldSize ∧
    (gameInputEventFlat s key r1 r2 stray).singlePlayerFlag = s.singlePlayerFlag ∧
    (gameInputEventFlat s key r1 r2 stray).customModeFlag = s.customModeFlag ∧
    (gameInputEventFlat s key r1 r2 stray).movesToNextRemoval = s.movesToNextRemoval ∧
    (gameInputEventFlat s key r1 r2 stray).playerFlag = s.playerFlag ∧
    (1 ≤ s.fieldSize → -1 ≤ s.activeCellX → s.activeCellX < s.fieldSize →
      ((gameInputEventFlat s key r1 r2 stray).activeCellX = s.activeCellX ∨
        (0 ≤ (gameInputEventFlat s key r1 r2 stray).activeCellX ∧
          (gameInputEventFlat s key r1 r2 stray).activeCellX < s.fieldSize))) ∧
    (1 ≤ s.fieldSize → -1 ≤ s.activeCellY → s.activeCellY < s.fieldSize →
      ((gameInputEventFlat s key r1 r2 stray).activeCellY = s.activeCellY ∨
        (0 ≤ (gameInputEventFlat s key r1 r2 stray).activeCellY ∧
          (gameInputEventFlat s key r1 r2 stray).activeCellY < s.fieldSize))) := by
  have hc : ¬ (key = lineFeed ∨ key = carriageReturn) := fun h => h.elim hkey.1 hkey.2
  unfold gameInputEventFlat
  by_cases ha : key = 'a'
  · rw [if_pos ha]
    refine ⟨rfl, rfl, rfl, rfl, rfl, rfl, ?_, fun _ _ _ => Or.inl rfl⟩
    intro h1 h2 h3
    simp only
    split <;> omega
  rw [if_neg ha]
  by_cases hd : key = 'd'
  · rw [if_pos hd]
    refine ⟨rfl, rfl, rfl, rfl, rfl, rfl, ?_, fun _ _ _ => Or.inl rfl⟩
    intro h1 h2 h3
    simp only
    split <;> omega
  rw [if_neg hd]
  by_cases hw : key = 'w'
  · rw [if_pos hw]
    refine ⟨rfl, rfl, rfl, rfl, rfl, rfl, fun _ _ _ => Or.inl rfl, ?_⟩
    intro h1 h2 h3
    simp only
    split <;> omega
  rw [if_neg hw]
  by_cases hs : key = 's'
  · rw [if_pos hs]
    refine ⟨rfl, rfl, rfl, rfl, rfl, rfl, fun _ _ _ => Or.inl rfl, ?_⟩
    intro h1 h2 h3
    simp only
    split <;> omega
  rw [if_neg hs, if_neg hc]
  by_cases hq : key = 'q'
  · rw [if_pos hq]
    exact ⟨rfl, rfl, rfl, rfl, rfl, rfl, fun _ _ _ => Or.inl rfl, fun _ _ _ => Or.inl rfl⟩
  · rw [if_neg hq]
    exact ⟨rfl, rfl, rfl, rfl, rfl, rfl, fun _ _ _ => Or.inl rfl, fun _ _ _ => Or.inl rfl⟩

/-- The confirm step with the cursor on an occupied cell of the array: only the continue
flag is set. -/
theorem confirmFlat_occupied (s : Session) (r1 r2 x y : Nat) (stray : Char)
    (hx : s.activeCellX = x) (hy : s.activeCellY = y)
    (hxr : x < maxFieldSize) (hyr : y < maxFieldSize)
    (hocc : s.field y x ≠ emptyChar) :
    confirmPlacementFlat s r1 r2 stray = { s with isGameToContinue := true } := by
  unfold confirmPlacementFlat
  rw [hx, hy]
  simp only [placeCharFlat_inside _ _ _ _ _ hxr hyr, placeChar_occupied s.field x y _ hocc,
    Bool.false_and, Bool.and_false, Bool.false_eq_true, if_false]

/-- The confirm step with the cursor on a free cell of the array: the mark of the player
to move is placed, the custom-mode block runs when custom mode is on, then the computer
moves (single-player) or the turn passes (two-player). -/
theorem confirmFlat_free (s : Session) (r1 r2 x y : Nat) (stray : Char)
    (hx : s.activeCellX = x) (hy : s.activeCellY = y)
    (hxr : x < maxFieldSize) (hyr : y < maxFieldSize)
    (hfree : s.field y x = emptyChar)
    (custom : Board × Int × List Call)
    (hcustom : custom =
      if s.customModeFlag then
        customModeStep
          (setCell s.field y x (if s.playerFlag then firstPlayerChar else secondPlayerChar))
          s.fieldSize s.singlePlayerFlag s.movesToNextRemoval r1 r2
      else
        (setCell s.field y x (if s.playerFlag then firstPlayerChar else secondPlayerChar),
          s.movesToNextRemoval, [])) :
    confirmPlacementFlat s r1 r2 stray =
      if s.singlePlayerFlag then
        computersTurnFlat { s with isGameToContinue := true, field := custom.1,
                                   movesToNextRemoval := custom.2.1 }
      else
        { s with isGameToContinue := true, field := custom.1,
                 movesToNextRemoval := custom.2.1, playerFlag := !s.playerFlag } := by
  have hplace : ∀ c, placeChar s.field x y c = (true, setCell s.field y x c) := by
    intro c
    simp only [placeChar, hfree, beq_self_eq_true, if_true]
  unfold confirmPlacementFlat
  rw [hx, hy]
  simp only [placeCharFlat_inside _ _ _ _ _ hxr hyr, hplace, Bool.true_and, Bool.and_true,
    if_true]
  rw [← hcustom]

/-- The custom-mode block keeps the removal counter between -1 and 7. -/
theorem customModeStep_counter (field : Board) (fieldSize : Nat) (single : Bool) (n : Int)
    (r1 r2 : Nat) (hn : -1 ≤ n ∧ n ≤ 7) :
    -1 ≤ (customModeStep field fieldSize single n r1 r2).2.1 ∧
      (customModeStep field fieldSize single n r1 r2).2.1 ≤ 7 := by
  obtain ⟨hneg, hzero, hpos⟩ := customModeStep_cases field fieldSize single n r1 r2
  rcases lt_trichotomy n 0 with hlt | heq | hgt
  · rw [hneg (by omega)]
    simp only
    cases single
    · simp only [Bool.false_eq_true, if_false]
      omega
    · simp only [if_true]
      omega
  · rw [hzero heq]
    simp only
    omega
  · rw [hpos hgt]
    simp only
    omega

/-- Whatever the position of the active cell and the byte before the array, the confirm
step keeps the field size and the mode settings, and the removal counter is either as it
was or, in custom mode, the counter that the custom-mode block yields. -/
theorem confirmFlat_frame (s : Session) (r1 r2 : Nat) (stray : Char) :
    (confirmPlacementFlat s r1 r2 stray).fieldSize = s.fieldSize ∧
    (confirmPlacementFlat s r1 r2 stray).singlePlayerFlag = s.singlePlayerFlag ∧
    (confirmPlacementFlat s r1 r2 stray).customModeFlag = s.customModeFlag ∧
    ((confirmPlacementFlat s r1 r2 stray).movesToNextRemoval = s.movesToNextRemoval ∨
      (s.customModeFlag = true ∧ ∃ b : Board,
        (confirmPlacementFlat s r1 r2 stray).movesToNextRemoval =
          (customModeStep b s.fieldSize s.singlePlayerFlag s.movesToNextRemoval r1 r2).2.1)) := by
  obtain ⟨p, hp⟩ : ∃ p, p = placeCharFlat s.field s.activeCellX s.activeCellY
      (if s.playerFlag then firstPlayerChar else secondPlayerChar) stray := ⟨_, rfl⟩
  have hcount : ∀ c : Board × Int × List Call,
      c = (if p.1 && s.customModeFlag then
          customModeStep p.2 s.fieldSize s.singlePlayerFlag s.movesToNextRemoval r1 r2
        else (p.2, s.movesToNextRemoval, [])) →
      (c.2.1 = s.movesToNextRemoval ∨ (s.customModeFlag = true ∧ ∃ b : Board, c.2.1 =
        (customModeStep b s.fieldSize s.singlePlayerFlag s.movesToNextRemoval r1 r2).2.1)) := by
    intro c hc
    by_cases hboth : (p.1 && s.customModeFlag) = true
    · rw [if_pos hboth] at hc
      rw [Bool.and_eq_true] at hboth
      exact Or.inr ⟨hboth.2, p.2, by rw [hc]⟩
    · rw [if_neg hboth] at hc
      exact Or.inl (by rw [hc])
  unfold confirmPlacementFlat
  simp only
  rw [← hp]
  split
  · obtain ⟨_, e2, e3, e4, e5, _, _⟩ := computersTurnFlat_step
      { s with isGameToContinue := true,
               field := (if p.1 && s.customModeFlag then
                   customModeStep p.2 s.fieldSize s.singlePlayerFlag s.movesToNextRemoval r1 r2
                 else (p.2, s.movesToNextRemoval, [])).1,
               movesToNextRemoval := (if p.1 && s.customModeFlag then
                   customModeStep p.2 s.fieldSize s.singlePlayerFlag s.movesToNextRemoval r1 r2
                 else (p.2, s.movesToNextRemoval, [])).2.1 }
    refine ⟨e2, e3, e4, ?_⟩
    rw [e5]
    exact hcount _ rfl
  · exact ⟨rfl, rfl, rfl, hcount _ rfl⟩

/-- Every call of `gameInputEvent`, inside or outside the array, keeps the field size and
the mode settings and keeps the removal counter between -1 and 7. -/
theorem gameInputEventFlat_frame (s : Session) (key : Char) (r1 r2 : Nat) (stray : Char) :
    (gameInputEventFlat s key r1 r2 stray).fieldSize = s.fieldSize ∧
    (gameInputEventFlat s key r1 r2 stray).singlePlayerFlag = s.singlePlayerFlag ∧
    (gameInputEventFlat s key r1 r2 stray).customModeFlag = s.customModeFlag ∧
    (-1 ≤ s.movesToNextRemoval ∧ s.movesToNextRemoval ≤ 7 →
      -1 ≤ (gameInputEventFlat s key r1 r2 stray).movesToNextRemoval ∧
        (gameInputEventFlat s key r1 r2 stray).movesToNextRemoval ≤ 7) := by
  by_cases hkey : key = lineFeed ∨ key = carriageReturn
  · rw [gameInputEventFlat_confirm s key r1 r2 stray hkey]
    obtain ⟨e1, e2, e3, e4⟩ := confirmFlat_frame s r1 r2 stray
    refine ⟨e1, e2, e3, fun hn => ?_⟩
    rcases e4 with e4 | ⟨_, b, e4⟩
    · rw [e4]
      exact hn
    · rw [e4]
      exact customModeStep_counter b s.fieldSize s.singlePlayerFlag s.movesToNextRemoval r1 r2 hn
  · have hk : key ≠ lineFeed ∧ key ≠ carriageReturn :=
      ⟨fun h1 => hkey (Or.inl h1), fun h1 => hkey (Or.inr h1)⟩
    obtain ⟨_, e2, e3, e4, e5, _⟩ := gameInputEventFlat_other s key r1 r2 stray hk
    refine ⟨e2, e3, e4, fun hn => ?_⟩
    rw [e5]
    exact hn

/-- Where `gameInputEvent` stays inside the arrays, the total function returns the same
session. -/
theorem gameInputEventFlat_of_some (s s' : Session) (key : Char) (r1 r2 : Nat) (stray : Char)
    (h : (gameInputEvent s key r1 r2).next = some s') :
    gameInputEventFlat s key r1 r2 stray = s' := by
  by_cases hkey : key = lineFeed ∨ key = carriageReturn
  · rw [gameInputEventFlat_confirm s key r1 r2 stray hkey]
    rcases confirm_cases s key r1 r2 hkey with hnone | ⟨x, y, hx, hy, hxr, hyr, hcell⟩
    · rw [hnone] at h
      exact absurd h (by simp)
    · rcases hcell with ⟨hocc, hstep⟩ | hfree
      · rw [hstep] at h
        simp only [Option.some.injEq] at h
        rw [confirmFlat_occupied s r1 r2 x y stray hx hy hxr hyr hocc]
        exact h
      · have hstep := confirm_free_cell s key r1 r2 x y hkey hx hy hxr hyr hfree _ rfl
        rw [confirmFlat_free s r1 r2 x y stray hx hy hxr hyr hfree _ rfl]
        rw [hstep] at h
        cases hs : s.singlePlayerFlag
        · rw [hs] at h
          simp only [Bool.false_eq_true, if_false, Option.some.injEq] at h ⊢
          exact h
        · rw [hs] at h
          simp only [if_true] at h ⊢
          unfold computersTurn at h
          simp only [Option.map_eq_some'] at h
          obtain ⟨board, hboard, hs'⟩ := h
          unfold computersTurnFlat
          simp only
          rw [ComputerMoveFlat_eq, hboard]
          exact hs'
  · unfold gameInputEvent at h
    unfold gameInputEventFlat
    split_ifs at h ⊢ <;> exact Option.some.inj h

/-! ## The balance of marks without custom mode -/

/-- A run of `playKeys` that ends in the state `game` is a run of the game. -/
theorem GameReaches_playKeys (start : Session) :
    ∀ (keys : List Char) (s s' : Session), GameReaches start s →
      playKeys s keys = some s' → s'.currentState = gameStates.game →
      GameReaches start s' := by
  intro keys
  induction keys with
  | nil =>
    intro s s' hr hp _
    unfold playKeys at hp
    simp only [Option.some.injEq] at hp
    rw [← hp]
    exact hr
  | cons key rest ih =>
    intro s s' hr hp hg
    unfold playKeys at hp
    cases he : gameEvent s key 0 0 with
    | none =>
      rw [he] at hp
      exact absurd hp (by simp)
    | some t =>
      rw [he] at hp
      simp only at hp
      have htg : t.currentState = gameStates.game := by
        cases rest with
        | nil =>
          unfold playKeys at hp
          simp only [Option.some.injEq] at hp
          rw [hp]
          exact hg
        | cons k2 rest2 =>
          unfold playKeys at hp
          unfold gameEvent at hp
          by_contra hne
          rw [if_neg hne] at hp
          exact absurd hp (by simp)
      refine ih t s' ?_ hp hg
      unfold gameEvent at he
      by_cases hsg : s.currentState = gameStates.game
      · rw [if_pos hsg, Option.map_eq_some'] at he
        obtain ⟨u, hu, hdraw⟩ := he
        have hflat := gameInputEventFlat_of_some s u key 0 0 emptyChar hu
        have htu : t = u := by
          rcases drawGame_result u with ⟨_, hd⟩ | ⟨_, hd⟩
          · rw [← hdraw, hd]
          · rw [← hdraw, hd] at htg
            have htg' : gameStates.gameResult = gameStates.game := htg
            exact absurd htg' (by decide)
        rw [htu, ← hflat]
        exact GameReaches.input s key 0 0 emptyChar hr hsg
      · rw [if_neg hsg] at he
        exact absurd he (by simp)

/-- The last placement of the drawn game: the human fills the board, `drawGame` reports
the draw, `ComputerMove` finds no move and the array stays as it is. -/
theorem boardFilled_eq (stray : Char) :
    gameInputEventFlat (stage game8 2 2 true) lineFeed 0 0 stray = boardFilled := by
  have hfull : ComputerMove game9 3 = none :=
    ComputerMove_of_full game9 3 (by rw [GetAvailableMoves3_eq]; decide!)
  have hflat : ComputerMoveFlat game9 3 = game9 := by
    rw [ComputerMoveFlat_eq, hfull]
    rfl
  have hdraw : checkWin game9 3 = 'd' := by rw [checkWin3_eq]; decide!
  rw [gameInputEventFlat_confirm _ _ _ _ _ (Or.inl rfl),
    confirmFlat_free (stage game8 2 2 true) 0 0 2 2 stray rfl rfl (by decide) (by decide)
      (by decide!) (game9, -1, []) rfl,
    if_pos (show (stage game8 2 2 true).singlePlayerFlag = true from rfl)]
  unfold computersTurnFlat
  simp only
  rcases drawGame_result { stage game9 2 2 true with playerFlag := false } with
    ⟨hc, _⟩ | ⟨_, hd⟩
  · have hc' : checkWin game9 3 = emptyChar := hc
    rw [hdraw] at hc'
    exact absurd hc' (by decide)
  · have hd' : drawGame { stage game9 2 2 true with playerFlag := false } =
        { boardFilled with playerFlag := false, lastWinner := checkWin game9 3 } := hd
    have hs1 : ({ stage game8 2 2 true with
        isGameToContinue := true, field := (game9, (-1 : Int), ([] : List Call)).1,
        movesToNextRemoval := (game9, (-1 : Int), ([] : List Call)).2.1,
        playerFlag := !(stage game8 2 2 true).playerFlag } : Session) =
        { stage game9 2 2 true with playerFlag := false } := rfl
    rw [hs1, hd']
    show ({ boardFilled with
        field := ComputerMoveFlat game9 3, lastWinner := checkWin game9 3 } : Session) =
      boardFilled
    rw [hflat, hdraw]
    rfl

/-- The game of `drawnGameKeys` with the last confirm is a run of the game that ends on
the full board. -/
theorem boardFilled_reached : GameReaches (newSinglePlayerGame idle3) boardFilled := by
  have h8 : GameReaches (newSinglePlayerGame idle3) (stage game8 2 2 true) :=
    GameReaches_playKeys _ drawnGameKeys _ _ GameReaches.start playKeys_drawnGame rfl
  have hstep := GameReaches.input (stage game8 2 2 true) lineFeed 0 0 'o' h8 rfl
  rw [boardFilled_eq] at hstep
  exact hstep

/-- C32: for every board, size, symbol and run length `toWin` of at least 1,
`checkWinDiagonaly` returns true exactly when there is a start cell (r, c) such that the
`toWin` cells (r + k, c + k), or the `toWin` cells (r + k, c - k), for k below `toWin`, all
lie inside the region and all hold the symbol. Short diagonals away from the centre
count. -/
theorem checkWinDiagonaly_spec (field : Board) (toCheck : Char) (toWin size : Nat)
    (hw : 1 ≤ toWin) :
    checkWinDiagonaly field toCheck toWin size = true ↔
      ∃ r c : Nat,
        (∀ k < toWin, r + k < size ∧ c + k < size ∧ field (r + k) (c + k) = toCheck) ∨
        (∀ k < toWin, r + k < size ∧ k ≤ c ∧ c - k < size ∧ field (r + k) (c - k) = toCheck) := by
  rw [checkWinDiagonaly_iff field toCheck toWin size hw]
  unfold downRightLine downLeftLine
  constructor
  · rintro (⟨r, hr, c, hc, h1, h2, hall⟩ | ⟨r, hr, c, hc, h1, h2, hall⟩)
    · exact ⟨r, c, Or.inl fun k hk => ⟨by omega, by omega, hall k hk⟩⟩
    · exact ⟨r, c, Or.inr fun k hk => ⟨by omega, by omega, by omega, hall k hk⟩⟩
  · rintro ⟨r, c, h | h⟩
    · have h0 := h 0 (by omega)
      have hl := h (toWin - 1) (by omega)
      exact Or.inl ⟨r, by omega, c, by omega, by omega, by omega, fun k hk => (h k hk).2.2⟩
    · have h0 := h 0 (by omega)
      have hl := h (toWin - 1) (by omega)
      exact Or.inr ⟨r, by omega, c, by omega, by omega, by omega, fun k hk => (h k hk).2.2.2⟩

/-- C32 on the 4x4 board with `x` on (0,1), (1,2), (2,3) and run length 3: the short
diagonal is found. -/
theorem checkWinDiagonaly_spec_witness :
    checkWinDiagonaly shortDiagonal 'x' 3 4 = true :=
  (checkWinDiagonaly_spec shortDiagonal 'x' 3 4 (by decide)).mpr
    ⟨0, 1, Or.inl (by decide)⟩

/-! ## Transposition -/

theorem hasLine_transpose (b bT : Board) (size toWin : Nat) (m : Char)
    (h : ∀ i < size, ∀ j < size, bT i j = b j i)
    (hl : hasLine b size toWin m) : hasLine bT size toWin m := by
  unfold hasLine rowLine colLine downRightLine downLeftLine at hl ⊢
  rcases hl with ⟨r, hr, c, hc, hb, hall⟩ | ⟨r, hr, c, hc, hb, hall⟩ |
    ⟨r, hr, c, hc, hb, hb2, hall⟩ | ⟨r, hr, c, hc, hb, hb2, hall⟩
  · refine Or.inr (Or.inl ⟨c, hc, r, hr, hb, fun k hk => ?_⟩)
    rw [h (c + k) (by omega) r hr]
    exact hall k hk
  · refine Or.inl ⟨c, hc, r, hr, hb, fun k hk => ?_⟩
    rw [h c hc (r + k) (by omega)]
    exact hall k hk
  · refine Or.inr (Or.inr (Or.inl ⟨c, hc, r, hr, hb2, hb, fun k hk => ?_⟩))
    rw [h (c + k) (by omega) (r + k) (by omega)]
    exact hall k hk
  · refine Or.inr (Or.inr (Or.inr
      ⟨c - (toWin - 1), by omega, r + (toWin - 1), by omega, by omega, by omega, fun k hk => ?_⟩))
    rw [h (c - (toWin - 1) + k) (by omega) (r + (toWin - 1) - k) (by omega)]
    have e1 : r + (toWin - 1) - k = r + (toWin - 1 - k) := by omega
    have e2 : c - (toWin - 1) + k = c - (toWin - 1 - k) := by omega
    rw [e1, e2]
    exact hall (toWin - 1 - k) (by omega)

/-- C40: `checkWin` is invariant under transposition: if `bT` holds at (i, j) what `b` holds
at (j, i) for every cell of the region, then `checkWin` gives the same result on both, for
every size. -/
theorem checkWin_transpose (b bT : Board) (size : Nat)
    (h : ∀ i < size, ∀ j < size, bT i j = b j i) :
    checkWin bT size = checkWin b size := by
  have h' : ∀ i < size, ∀ j < size, b i j = bT j i := fun i hi j hj => (h j hj i hi).symm
  have hw : ∀ m, hasWon bT m (toWinOf size) size = hasWon b m (toWinOf size) size := by
    intro m
    rw [Bool.eq_iff_iff, hasWon_iff _ _ _ _ (toWinOf_pos size),
      hasWon_iff _ _ _ _ (toWinOf_pos size)]
    exact ⟨hasLine_transpose bT b size _ m h', hasLine_transpose b bT size _ m h⟩
  have hd : isDraw bT size = isDraw b size := by
    rw [Bool.eq_iff_iff, isDraw_iff, isDraw_iff]
    constructor
    · intro hall y hy x hx
      rw [h' y hy x hx]
      exact hall x hx y hy
    · intro hall y hy x hx
      rw [h y hy x hx]
      exact hall x hx y hy
  unfold checkWin
  simp only [hw, hd]

/-- C40 on the 5x5 board with four `o` in the top row: the transposed board, with four `o`
in the left column, is also won by `o`. -/
theorem checkWin_transpose_witness :
    checkWin fourInARow 5 = secondPlayerChar ∧
      checkWin (transpose fourInARow) 5 = secondPlayerChar :=
  ⟨by decide,
    (checkWin_transpose fourInARow (transpose fourInARow) 5 (fun _ _ _ _ => rfl)).trans
      (by decide)⟩

/-! ## Moving the cursor -/

/-- C37: if the cursor is inside the region, the keys `a`, `d`, `w`, `s` leave it inside the
region: `a` and `d` move the column by one, stopping at 0 and at `fieldSize - 1`, `w` and
`s` do the same to the row, and the other coordinate is kept. Nothing else of the board,
size, turn or counter changes and no call is made; so the cell addressed by a following
`placeChar(activeCellX, activeCellY, ...)` has row and column below `fieldSize`. -/
theorem cursor_move_in_bounds (s : Session) (key : Char) (r1 r2 : Nat)
    (hkey : key = 'a' ∨ key = 'd' ∨ key = 'w' ∨ key = 's')
    (hX : 0 ≤ s.activeCellX ∧ s.activeCellX ≤ (s.fieldSize : Int) - 1)
    (hY : 0 ≤ s.activeCellY ∧ s.activeCellY ≤ (s.fieldSize : Int) - 1) :
    ∃ s', (gameInputEvent s key r1 r2).next = some s' ∧
      (gameInputEvent s key r1 r2).calls = [] ∧
      s'.field = s.field ∧ s'.fieldSize = s.fieldSize ∧ s'.playerFlag = s.playerFlag ∧
      s'.movesToNextRemoval = s.movesToNextRemoval ∧
      (0 ≤ s'.activeCellX ∧ s'.activeCellX ≤ (s'.fieldSize : Int) - 1) ∧
      (0 ≤ s'.activeCellY ∧ s'.activeCellY ≤ (s'.fieldSize : Int) - 1) ∧
      (s.activeCellX - 1 ≤ s'.activeCellX ∧ s'.activeCellX ≤ s.activeCellX + 1) ∧
      (s.activeCellY - 1 ≤ s'.activeCellY ∧ s'.activeCellY ≤ s.activeCellY + 1) ∧
      (key = 'a' →
        s'.activeCellX = max 0 (s.activeCellX - 1) ∧ s'.activeCellY = s.activeCellY) ∧
      (key = 'd' →
        s'.activeCellX = min ((s.fieldSize : Int) - 1) (s.activeCellX + 1) ∧
        s'.activeCellY = s.activeCellY) ∧
      (key = 'w' →
        s'.activeCellY = max 0 (s.activeCellY - 1) ∧ s'.activeCellX = s.activeCellX) ∧
      (key = 's' →
        s'.activeCellY = min ((s.fieldSize : Int) - 1) (s.activeCellY + 1) ∧
        s'.activeCellX = s.activeCellX) ∧
      ((s'.activeCellX.toNat : Int) = s'.activeCellX ∧ s'.activeCellX.toNat < s'.fieldSize) ∧
      ((s'.activeCellY.toNat : Int) = s'.activeCellY ∧ s'.activeCellY.toNat < s'.fieldSize) := by
  obtain ⟨k1, k2, k3, k4, k5, k6⟩ : ('a' : Char) ≠ 'd' ∧ ('a' : Char) ≠ 'w' ∧
      ('a' : Char) ≠ 's' ∧ ('d' : Char) ≠ 'w' ∧ ('d' : Char) ≠ 's' ∧ ('w' : Char) ≠ 's' := by
    decide
  have hmain : ∃ s', (gameInputEvent s key r1 r2).next = some s' ∧
      (gameInputEvent s key r1 r2).calls = [] ∧
      s'.field = s.field ∧ s'.fieldSize = s.fieldSize ∧ s'.playerFlag = s.playerFlag ∧
      s'.movesToNextRemoval = s.movesToNextRemoval ∧
      (key = 'a' →
        s'.activeCellX = max 0 (s.activeCellX - 1) ∧ s'.activeCellY = s.activeCellY) ∧
      (key = 'd' →
        s'.activeCellX = min ((s.fieldSize : Int) - 1) (s.activeCellX + 1) ∧
        s'.activeCellY = s.activeCellY) ∧
      (key = 'w' →
        s'.activeCellY = max 0 (s.activeCellY - 1) ∧ s'.activeCellX = s.activeCellX) ∧
      (key = 's' →
        s'.activeCellY = min ((s.fieldSize : Int) - 1) (s.activeCellY + 1) ∧
        s'.activeCellX = s.activeCellX) := by
    unfold gameInputEvent
    by_cases ha : key = 'a'
    · rw [if_pos ha]
      subst ha
      refine ⟨_, rfl, rfl, rfl, rfl, rfl, rfl, fun _ => ⟨?_, rfl⟩, fun h => absurd h k1,
        fun h => absurd h k2, fun h => absurd h k3⟩
      simp only
      split <;> omega
    rw [if_neg ha]
    by_cases hd : key = 'd'
    · rw [if_pos hd]
      subst hd
      refine ⟨_, rfl, rfl, rfl, rfl, rfl, rfl, fun h => absurd h ha, fun _ => ⟨?_, rfl⟩,
        fun h => absurd h k4, fun h => absurd h k5⟩
      simp only
      split <;> omega
    rw [if_neg hd]
    by_cases hw : key = 'w'
    · rw [if_pos hw]
      subst hw
      refine ⟨_, rfl, rfl, rfl, rfl, rfl, rfl, fun h => absurd h ha, fun h => absurd h hd,
        fun _ => ⟨?_, rfl⟩, fun h => absurd h k6⟩
      simp only
      split <;> omega
    rw [if_neg hw]
    have hs : key = 's' := by
      rcases hkey with h | h | h | h
      · exact absurd h ha
      · exact absurd h hd
      · exact absurd h hw
      · exact h
    rw [if_pos hs]
    refine ⟨_, rfl, rfl, rfl, rfl, rfl, rfl, fun h => absurd h ha, fun h => absurd h hd,
      fun h => absurd h hw, fun _ => ⟨?_, rfl⟩⟩
    simp only
    split <;> omega
  obtain ⟨s', h1, h2, h3, h4, h5, h6, ha, hd, hw, hs⟩ := hmain
  have hxy : (0 ≤ s'.activeCellX ∧ s'.activeCellX ≤ (s.fieldSize : Int) - 1) ∧
      (0 ≤ s'.activeCellY ∧ s'.activeCellY ≤ (s.fieldSize : Int) - 1) ∧
      (s.activeCellX - 1 ≤ s'.activeCellX ∧ s'.activeCellX ≤ s.activeCellX + 1) ∧
      (s.activeCellY - 1 ≤ s'.activeCellY ∧ s'.activeCellY ≤ s.activeCellY + 1) := by
    rcases hkey with h | h | h | h
    · have := ha h; omega
    · have := hd h; omega
    · have := hw h; omega
    · have := hs h; omega
  have tx := Int.toNat_of_nonneg hxy.1.1
  have ty := Int.toNat_of_nonneg hxy.2.1.1
  refine ⟨s', h1, h2, h3, h4, h5, h6, ?_, ?_, hxy.2.2.1, hxy.2.2.2, ha, hd, hw, hs, ?_, ?_⟩
  · rw [h4]; exact hxy.1
  · rw [h4]; exact hxy.2.1
  · rw [h4]; omega
  · rw [h4]; omega

/-- C37 on a 3x3 session with the cursor on row 0, column 2: `d` leaves it there and `a`
moves it to column 1. -/
theorem cursor_move_in_bounds_witness :
    removalDue.activeCellX = 2 ∧ removalDue.fieldSize = 3 ∧
      Option.map Session.activeCellX (gameInputEvent removalDue 'd' 0 0).next = some 2 ∧
      Option.map Session.activeCellX (gameInputEvent removalDue 'a' 0 0).next = some 1 := by
  obtain ⟨s', hnext, _, _, _, _, _, _, _, _, _, _, hd, _⟩ :=
    cursor_move_in_bounds removalDue 'd' 0 0 (Or.inr (Or.inl rfl)) (by decide) (by decide)
  obtain ⟨t', hnext', _, _, _, _, _, _, _, _, _, ha, _⟩ :=
    cursor_move_in_bounds removalDue 'a' 0 0 (Or.inl rfl) (by decide) (by decide)
  refine ⟨rfl, rfl, ?_, ?_⟩
  · rw [hnext, Option.map_some', (hd rfl).1]
    rfl
  · rw [hnext', Option.map_some', (ha rfl).1]
    rfl

/-! ## A single-player turn -/

/-- C36: in single-player mode with custom mode off and player 1 to move, a confirm on a
free cursor cell (x, y), on a well-formed board with another free cell in the region,
writes `x` on the cursor cell, calls `ComputerMove` exactly once, on that board, which
writes `o` on one other free cell (i, j) of the region; no other cell changes and the turn
flag is the same after the step as before. -/
theorem single_player_turn (s : Session) (key : Char) (r1 r2 x y : Nat)
    (hkey : key = lineFeed ∨ key = carriageReturn)
    (hx : s.activeCellX = x) (hy : s.activeCellY = y)
    (hxr : x < maxFieldSize) (hyr : y < maxFieldSize)
    (hfree : s.field y x = emptyChar)
    (hsingle : s.singlePlayerFlag = true) (hcustom : s.customModeFlag = false)
    (hturn : s.playerFlag = true)
    (hwf : wellFormed s.field s.fieldSize)
    (hleft : ∃ i < s.fieldSize, ∃ j < s.fieldSize, (i ≠ y ∨ j ≠ x) ∧ s.field i j = emptyChar) :
    ∃ i j : Nat, ∃ s' : Session,
      i < s.fieldSize ∧ j < s.fieldSize ∧ (i ≠ y ∨ j ≠ x) ∧ s.field i j = emptyChar ∧
      (gameInputEvent s key r1 r2).calls =
        [Call.computerMove (setCell s.field y x firstPlayerChar) s.fieldSize] ∧
      ComputerMove (setCell s.field y x firstPlayerChar) s.fieldSize =
        some (setCell (setCell s.field y x firstPlayerChar) i j secondPlayerChar) ∧
      (gameInputEvent s key r1 r2).next = some s' ∧
      s'.field = setCell (setCell s.field y x firstPlayerChar) i j secondPlayerChar ∧
      s'.field y x = firstPlayerChar ∧ s'.field i j = secondPlayerChar ∧
      (∀ a b, (a ≠ y ∨ b ≠ x) → (a ≠ i ∨ b ≠ j) → s'.field a b = s.field a b) ∧
      s'.playerFlag = s.playerFlag ∧ s'.playerFlag = true := by
  obtain ⟨_, _, d3, _, _, _⟩ := marks_distinct
  obtain ⟨placed, hplaced⟩ : ∃ b, b = setCell s.field y x firstPlayerChar := ⟨_, rfl⟩
  have hstep := confirm_free_cell s key r1 r2 x y hkey hx hy hxr hyr hfree
    (placed, s.movesToNextRemoval, []) (by rw [hcustom, hturn, hplaced]; rfl)
  rw [hsingle] at hstep
  simp only [if_true, List.nil_append] at hstep
  have hwf' : wellFormed placed s.fieldSize := by
    rw [hplaced]
    exact wellFormed_setCell _ _ _ _ _ hwf (Or.inl rfl)
  have hfreecell : ∃ i < s.fieldSize, ∃ j < s.fieldSize, placed i j = emptyChar := by
    obtain ⟨i, hi, j, hj, hne, he⟩ := hleft
    refine ⟨i, hi, j, hj, ?_⟩
    rw [hplaced, setCell_other _ _ _ _ _ _ hne]
    exact he
  obtain ⟨best, _, _, _, hbest, _, _⟩ := bestMoveOf_spec placed s.fieldSize hwf' hfreecell
  have hmove : ComputerMove placed s.fieldSize =
      some (setCell placed best.1 best.2 secondPlayerChar) := by
    rw [ComputerMove_eq, hbest]
    rfl
  obtain ⟨i, j, hi, hj, hij, hafter⟩ := ComputerMove_some _ _ _ hmove
  have hne : i ≠ y ∨ j ≠ x := by
    by_contra hcon
    push_neg at hcon
    rw [hplaced, hcon.1, hcon.2, setCell_same] at hij
    exact d3 hij
  have hold : s.field i j = emptyChar := by
    rw [hplaced, setCell_other _ _ _ _ _ _ hne] at hij
    exact hij
  obtain ⟨s', hnext, hfield⟩ : ∃ s', (gameInputEvent s key r1 r2).next = some s' ∧
      s'.field = setCell placed best.1 best.2 secondPlayerChar := by
    rw [hstep]
    exact computersTurn_some _ _ hmove
  have hflag : s'.playerFlag = s.playerFlag := by
    rw [hstep] at hnext
    exact (computersTurn_next _ s' hnext).2.2.2.2.2.1
  have hboard : s'.field =
      setCell (setCell s.field y x firstPlayerChar) i j secondPlayerChar := by
    rw [hfield, hafter, hplaced]
  refine ⟨i, j, s', hi, hj, hne, hold, ?_, ?_, hnext, hboard, ?_, ?_, ?_, hflag,
    hflag.trans hturn⟩
  · rw [hstep, hplaced]
  · rw [← hplaced, hmove, hafter]
  · rw [hboard, setCell_other _ _ _ _ _ _ (by omega)]
    exact setCell_same _ _ _ _
  · rw [hboard]
    exact setCell_same _ _ _ _
  · intro a b h1 h2
    rw [hboard, setCell_other _ _ _ _ _ _ h2, setCell_other _ _ _ _ _ _ h1]

/-- C36 on the first turn of a single-player 3x3 game: `x` goes to the corner under the
cursor and `ComputerMove` is called once. -/
theorem single_player_turn_witness :
    (gameInputEvent (stage game0 0 0 false) lineFeed 0 0).calls =
        [Call.computerMove (setCell game0 0 0 firstPlayerChar) 3] ∧
      Option.map (fun s => s.field 0 0) (gameInputEvent (stage game0 0 0 false) lineFeed 0 0).next =
        some firstPlayerChar ∧
      Option.map Session.playerFlag (gameInputEvent (stage game0 0 0 false) lineFeed 0 0).next =
        some true := by
  obtain ⟨i, j, s', _, _, _, _, hcalls, _, hnext, _, hcell, _, _, _, hflag⟩ :=
    single_player_turn (stage game0 0 0 false) lineFeed 0 0 0 0 (Or.inl rfl) rfl rfl
      (by decide) (by decide) (by decide) rfl rfl rfl (by decide)
      ⟨1, by decide, 1, by decide, by decide, by decide⟩
  refine ⟨hcalls, ?_, ?_⟩
  · rw [hnext]
    exact congrArg some hcell
  · rw [hnext]
    exact congrArg some hflag

/-! ## The window of `Minimax` -/

/-- C33 fails on the code for depths of 993 and more: on the well-formed 3x3 position
`_ o _ / _ _ o / x x _` with `x` to move, depth 993 and the window (-1000, 1000), plain
minimax gives -1002 (the win on row 2, column 2), while `Minimax` returns -1000: the first
move already returns the initial value -1000 of the maximizing loop, which closes the
window and ends the loop before the winning move is tried. -/
theorem Minimax_window_counterexample :
    wellFormed doubleThreat 3 ∧ emptyCount doubleThreat 3 < 6 ∧
      (Minimax 6 doubleThreat 3 993 false (-1000) 1000).map Prod.fst = some (-1000) ∧
      referenceMinimax 6 doubleThreat 3 993 false = -1002 := by
  refine ⟨by decide, by decide, ?_, by decide!⟩
  rw [Minimax_eq_score 6 doubleThreat 3 993 false (-1000) 1000 (by decide), Option.map_some']
  exact congrArg some (by decide!)

/-- C33 as amended: for every board, size, depth, side and window `alpha < beta`, with `v`
the value of plain minimax and `r` the result of `Minimax` (which returns, leaving the
board as it was): `r = v` when `alpha < v < beta`, `r <= alpha` when `v <= alpha` and
`r >= beta` when `v >= beta`. With the window (-1000, 1000) of `ComputerMove`, on a
well-formed board and for a depth from 0 to 989 (the depths used are 9, 4 and 3),
`r = v`. -/
theorem Minimax_window (fuel : Nat) (board : Board) (size : Nat) (depth : Int)
    (isMaximizing : Bool) (alpha beta : Int) (hfuel : emptyCount board size < fuel)
    (hab : alpha < beta) :
    (∃ r, Minimax fuel board size depth isMaximizing alpha beta = some (r, board) ∧
      (alpha < referenceMinimax fuel board size depth isMaximizing →
        referenceMinimax fuel board size depth isMaximizing < beta →
        r = referenceMinimax fuel board size depth isMaximizing) ∧
      (referenceMinimax fuel board size depth isMaximizing ≤ alpha → r ≤ alpha) ∧
      (beta ≤ referenceMinimax fuel board size depth isMaximizing → beta ≤ r)) ∧
    (wellFormed board size → 0 ≤ depth → depth ≤ 989 →
      Minimax fuel board size depth isMaximizing (-1000) 1000 =
        some (referenceMinimax fuel board size depth isMaximizing, board)) := by
  constructor
  · obtain ⟨w1, w2, w3⟩ := MinimaxScore_window fuel board size depth isMaximizing alpha beta hab
    exact ⟨_, Minimax_eq_score fuel board size depth isMaximizing alpha beta hfuel, w2, w1, w3⟩
  · intro hwf h0 h989
    rw [Minimax_eq_score fuel board size depth isMaximizing (-1000) 1000 hfuel]
    obtain ⟨w1, w2, w3⟩ := MinimaxScore_window fuel board size depth isMaximizing (-1000) 1000
      (by omega)
    have hb := MinimaxScore_bounds fuel board size depth isMaximizing (-1000) 1000 hwf h0
      (by omega)
    have : MinimaxScore fuel board size depth isMaximizing (-1000) 1000 =
        referenceMinimax fuel board size depth isMaximizing := by omega
    rw [this]

/-- C33 as amended, on the 3x3 position `_ o _ / _ _ o / x x _` with `x` to move, depth 9
and the window (-1000, 1000): `Minimax` returns the plain value, -18. -/
theorem Minimax_window_witness :
    emptyCount doubleThreat 3 < 6 ∧ referenceMinimax 6 doubleThreat 3 9 false = -18 ∧
      (Minimax 6 doubleThreat 3 9 false (-1000) 1000).map Prod.fst = some (-18) := by
  have h := (Minimax_window 6 doubleThreat 3 9 false (-1000) 1000 (by decide) (by decide)).2
    (by decide) (by decide) (by decide)
  have hv : referenceMinimax 6 doubleThreat 3 9 false = -18 := by decide!
  refine ⟨by decide, hv, ?_⟩
  rw [h, Option.map_some', hv]

/-! ## The shape of the scores -/

/-- The result of the maximizing loop is one of the scores it has seen, when these all
exceed the initial -1000. -/
theorem maxLoopScore_mem (call : Nat × Nat → Int → Int → Int) (beta : Int) (P : Int → Prop) :
    ∀ (ms : List (Nat × Nat)) (bestScore alpha : Int),
      (∀ m ∈ ms, ∀ a be, P (call m a be) ∧ -1000 < call m a be) →
      ((bestScore = -1000 ∧ ms ≠ []) ∨ P bestScore) →
      P (maxLoopScore call beta ms bestScore alpha) := by
  intro ms
  induction ms with
  | nil =>
    intro bestScore alpha _ h
    rcases h with ⟨_, h⟩ | h
    · exact absurd rfl h
    · exact h
  | cons m rest ih =>
    intro bestScore alpha hcall h
    obtain ⟨hP, hgt⟩ := hcall m (List.mem_cons_self _ _) alpha beta
    have hnew : P (max bestScore (call m alpha beta)) := by
      rcases h with ⟨h, _⟩ | h
      · rw [h, max_eq_right (by omega)]
        exact hP
      · rcases max_choice bestScore (call m alpha beta) with e | e <;> rw [e]
        · exact h
        · exact hP
    unfold maxLoopScore
    simp only
    split
    · exact hnew
    · exact ih _ _ (fun m' hm' => hcall m' (List.mem_cons_of_mem _ hm')) (Or.inr hnew)

theorem minLoopScore_mem (call : Nat × Nat → Int → Int → Int) (alpha : Int) (P : Int → Prop) :
    ∀ (ms : List (Nat × Nat)) (bestScore beta : Int),
      (∀ m ∈ ms, ∀ a be, P (call m a be) ∧ call m a be < 1000) →
      ((bestScore = 1000 ∧ ms ≠ []) ∨ P bestScore) →
      P (minLoopScore call alpha ms bestScore beta) := by
  intro ms
  induction ms with
  | nil =>
    intro bestScore beta _ h
    rcases h with ⟨_, h⟩ | h
    · exact absurd rfl h
    · exact h
  | cons m rest ih =>
    intro bestScore beta hcall h
    obtain ⟨hP, hlt⟩ := hcall m (List.mem_cons_self _ _) alpha beta
    have hnew : P (min bestScore (call m alpha beta)) := by
      rcases h with ⟨h, _⟩ | h
      · rw [h, min_eq_right (by omega)]
        exact hP
      · rcases min_choice bestScore (call m alpha beta) with e | e <;> rw [e]
        · exact h
        · exact hP
    unfold minLoopScore
    simp only
    split
    · exact hnew
    · exact ih _ _ (fun m' hm' => hcall m' (List.mem_cons_of_mem _ hm')) (Or.inr hnew)

theorem scoreShape_mono (d r : Int) (h : scoreShape (d - 1) r) : scoreShape d r := by
  rcases h with h | ⟨k, h1, h2, h3⟩
  · exact Or.inl h
  · exact Or.inr ⟨k, h1, by omega, h3⟩

theorem scoreShape_bounds (d r : Int) (h : scoreShape d r) (h0 : 0 ≤ d) :
    -10 - d ≤ r ∧ r ≤ 10 := by
  rcases h with h | ⟨k, h1, h2, h3 | h3⟩ <;> omega

/-- On a well-formed board every score of `Minimax` at a depth from 0 to 980 has the shape
0, `10 - k` or `-10 - k`, whatever the window. -/
theorem MinimaxScore_shape :
    ∀ (fuel : Nat) (board : Board) (size : Nat) (depth : Int) (isMaximizing : Bool)
      (alpha beta : Int), wellFormed board size → 0 ≤ depth → depth ≤ 980 →
      scoreShape depth (MinimaxScore fuel board size depth isMaximizing alpha beta) := by
  intro fuel
  induction fuel with
  | zero => intro board size depth isMaximizing alpha beta _ _ _; exact Or.inl rfl
  | succ fuel ih =>
    intro board size depth isMaximizing alpha beta hwf h0 h980
    unfold MinimaxScore
    simp only
    split
    · next hs =>
      refine Or.inr ⟨depth, h0, le_refl _, ?_⟩
      rcases hs with hs | hs <;> rw [hs]
      · exact Or.inl rfl
      · exact Or.inr rfl
    · split
      · exact Or.inl rfl
      · next hnot =>
        have hd0 : depth ≠ 0 := fun h => hnot (Or.inl h)
        have hnd : ¬ isDraw board size = true := fun h => hnot (Or.inr h)
        have hne := moves_ne_nil_of_not_isDraw board size hwf hnd
        have hchild : ∀ (m : Nat × Nat) (c : Char) (flag : Bool) (a be : Int),
            c = firstPlayerChar ∨ c = secondPlayerChar →
            scoreShape depth
              (MinimaxScore fuel (setCell board m.1 m.2 c) size (depth - 1) flag a be) ∧
            -1000 < MinimaxScore fuel (setCell board m.1 m.2 c) size (depth - 1) flag a be ∧
            MinimaxScore fuel (setCell board m.1 m.2 c) size (depth - 1) flag a be < 1000 := by
          intro m c flag a be hc
          have hsh := ih (setCell board m.1 m.2 c) size (depth - 1) flag a be
            (wellFormed_setCell _ _ _ _ _ hwf hc) (by omega) (by omega)
          have hb := scoreShape_bounds _ _ hsh (by omega)
          exact ⟨scoreShape_mono _ _ hsh, by omega, by omega⟩
        cases isMaximizing with
        | true =>
          simp only [if_true]
          exact maxLoopScore_mem _ beta _ _ _ _
            (fun m _ a be => ⟨(hchild m _ false a be (Or.inr rfl)).1,
              (hchild m _ false a be (Or.inr rfl)).2.1⟩)
            (Or.inl ⟨rfl, hne⟩)
        | false =>
          simp only [Bool.false_eq_true, if_false]
          exact minLoopScore_mem _ alpha _ _ _ _
            (fun m _ a be => ⟨(hchild m _ true a be (Or.inl rfl)).1,
              (hchild m _ true a be (Or.inl rfl)).2.2⟩)
            (Or.inl ⟨rfl, hne⟩)

/-- C34: on a well-formed board, for a depth `d` from 0 to 9 and any side and window,
`Minimax` returns a score `r` that is not a sentinel (-1000 or 1000) and is 0, or `10 - k`,
or `-10 - k` for some `k` from 0 to `d`; so `-19 <= r <= 10`, a positive score is a win of
`o` (`10 - k`, at least 1) and a negative score is a win of `x` (`-10 - k`, at most -10).
Consequently, when the region has an empty cell, the first candidate of `ComputerMove`
scores more than -1000 and replaces the initial best move, and `ComputerMove` places a
mark. -/
theorem Minimax_score_shape (fuel : Nat) (board : Board) (size : Nat) (depth : Int)
    (isMaximizing : Bool) (alpha beta : Int) (hfuel : emptyCount board size < fuel)
    (hwf : wellFormed board size) (h0 : 0 ≤ depth) (h9 : depth ≤ 9) :
    (∃ r, Minimax fuel board size depth isMaximizing alpha beta = some (r, board) ∧
      r ≠ -1000 ∧ r ≠ 1000 ∧ scoreShape depth r ∧ -19 ≤ r ∧ r ≤ 10 ∧
      (0 < r → ∃ k : Int, 0 ≤ k ∧ k ≤ depth ∧ r = 10 - k) ∧
      (r < 0 → r ≤ -10 ∧ ∃ k : Int, 0 ≤ k ∧ k ≤ depth ∧ r = -10 - k)) ∧
    (∀ m rest, GetAvailableMoves board size = m :: rest →
      -1000 < MinimaxScore (size * size + 1) (setCell board m.1 m.2 secondPlayerChar) size
        (maxDepthOf size) false (-1000) 1000 ∧
      bestMoveOf board size =
        pickBest (fun m => MinimaxScore (size * size + 1)
            (setCell board m.1 m.2 secondPlayerChar) size (maxDepthOf size) false (-1000) 1000)
          rest
          (MinimaxScore (size * size + 1) (setCell board m.1 m.2 secondPlayerChar) size
            (maxDepthOf size) false (-1000) 1000)
          (some m) ∧
      ∃ i j, ComputerMove board size = some (setCell board i j secondPlayerChar)) := by
  constructor
  · have hsh := MinimaxScore_shape fuel board size depth isMaximizing alpha beta hwf h0
      (by omega)
    have hb := scoreShape_bounds _ _ hsh h0
    refine ⟨_, Minimax_eq_score fuel board size depth isMaximizing alpha beta hfuel,
      by omega, by omega, hsh, by omega, by omega, ?_, ?_⟩
    · intro hpos
      rcases hsh with h | ⟨k, h1, h2, h3 | h3⟩
      · omega
      · exact ⟨k, h1, h2, h3⟩
      · omega
    · intro hneg
      rcases hsh with h | ⟨k, h1, h2, h3 | h3⟩
      · omega
      · omega
      · exact ⟨by omega, k, h1, h2, h3⟩
  · intro m rest hmoves
    have hd := maxDepthOf_bounds size
    have hb := MinimaxScore_bounds (size * size + 1) (setCell board m.1 m.2 secondPlayerChar)
      size (maxDepthOf size) false (-1000) 1000
      (wellFormed_setCell _ _ _ _ _ hwf (Or.inr rfl)) hd.1 (by omega)
    have hgt : -1000 < MinimaxScore (size * size + 1)
        (setCell board m.1 m.2 secondPlayerChar) size (maxDepthOf size) false (-1000) 1000 := by
      omega
    have hbest : bestMoveOf board size =
        pickBest (fun m => MinimaxScore (size * size + 1)
            (setCell board m.1 m.2 secondPlayerChar) size (maxDepthOf size) false (-1000) 1000)
          rest
          (MinimaxScore (size * size + 1) (setCell board m.1 m.2 secondPlayerChar) size
            (maxDepthOf size) false (-1000) 1000)
          (some m) := by
      unfold bestMoveOf
      rw [hmoves]
      conv_lhs => unfold pickBest
      rw [if_pos hgt]
    refine ⟨hgt, hbest, ?_⟩
    have hm : m ∈ GetAvailableMoves board size := by
      rw [hmoves]
      exact List.mem_cons_self _ _
    rw [mem_GetAvailableMoves] at hm
    obtain ⟨best, _, _, _, hsome, _, _⟩ := bestMoveOf_spec board size hwf
      ⟨m.1, hm.1, m.2, hm.2.1, hm.2.2⟩
    refine ⟨best.1, best.2, ?_⟩
    rw [ComputerMove_eq, hsome]
    rfl

/-- C34 on the 3x3 position `_ o _ / _ _ o / x x _` with `x` to move and depth 9: the
score is -18, the immediate win of `x`. -/
theorem Minimax_score_shape_witness :
    wellFormed doubleThreat 3 ∧
      (Minimax 6 doubleThreat 3 9 false (-1000) 1000).map Prod.fst = some (-18) ∧
      scoreShape 9 (-18) := by
  obtain ⟨r, hr, _, _, hshape, _⟩ :=
    (Minimax_score_shape 6 doubleThreat 3 9 false (-1000) 1000 (by decide) (by decide)
      (by decide) (by decide)).1
  have hv : (Minimax 6 doubleThreat 3 9 false (-1000) 1000).map Prod.fst = some (-18) := by
    rw [Minimax_eq_score 6 doubleThreat 3 9 false (-1000) 1000 (by decide), Option.map_some']
    exact congrArg some (by decide!)
  have hr18 : r = -18 := by
    rw [hr, Option.map_some'] at hv
    exact Option.some.inj hv
  rw [hr18] at hshape
  exact ⟨by decide, hv, hshape⟩

/-! ## Termination and nesting -/

/-- A nesting bound above the depth or above the number of free cells is enough for
`Minimax` to return, with the board as it was. -/
theorem Minimax_eq_score_min :
    ∀ (fuel : Nat) (board : Board) (size : Nat) (depth : Int) (isMaximizing : Bool)
      (alpha beta : Int),
      ((0 ≤ depth ∧ depth < fuel) ∨ emptyCount board size < fuel) →
      Minimax fuel board size depth isMaximizing alpha beta =
        some (MinimaxScore fuel board size depth isMaximizing alpha beta, board) := by
  intro fuel
  induction fuel with
  | zero =>
    intro board size depth isMaximizing alpha beta h
    rcases h with ⟨h1, h2⟩ | h
    · have : ((0 : Nat) : Int) = 0 := rfl
      omega
    · omega
  | succ fuel ih =>
    intro board size depth isMaximizing alpha beta hfuel
    unfold Minimax MinimaxScore
    simp only
    split
    · rfl
    · split
      · rfl
      · next hnot =>
        have hd0 : depth ≠ 0 := fun h => hnot (Or.inl h)
        have hfree : ∀ m ∈ GetAvailableMoves board size, board m.1 m.2 = emptyChar :=
          fun m hm => ((mem_GetAvailableMoves board size m).mp hm).2.2
        have hlt : ∀ m ∈ GetAvailableMoves board size, ∀ c, c ≠ emptyChar →
            ((0 ≤ depth - 1 ∧ depth - 1 < fuel) ∨
              emptyCount (setCell board m.1 m.2 c) size < fuel) := by
          intro m hm c hc
          rcases hfuel with ⟨h1, h2⟩ | h
          · left
            push_cast at h2
            omega
          · right
            have := emptyCount_setCell_lt board size m.1 m.2 c hm hc
            omega
        cases isMaximizing with
        | true =>
          simp only [if_true]
          exact maxLoop_eq _ _ beta board _ _ _ hfree
            (fun m hm a be => ih _ size (depth - 1) false a be
              (hlt m hm _ marks_distinct.2.2.2.2.1))
        | false =>
          simp only [Bool.false_eq_true, if_false]
          exact minLoop_eq _ _ alpha board _ _ _ hfree
            (fun m hm a be => ih _ size (depth - 1) true a be
              (hlt m hm _ marks_distinct.2.2.1))

/-- The score does not depend on the nesting bound, once it is above the depth or above
the number of free cells. -/
theorem MinimaxScore_fuel_min :
    ∀ (f1 f2 : Nat) (board : Board) (size : Nat) (depth : Int) (isMaximizing : Bool)
      (alpha beta : Int),
      ((0 ≤ depth ∧ depth < f1) ∨ emptyCount board size < f1) →
      ((0 ≤ depth ∧ depth < f2) ∨ emptyCount board size < f2) →
      MinimaxScore f1 board size depth isMaximizing alpha beta =
        MinimaxScore f2 board size depth isMaximizing alpha beta := by
  intro f1
  induction f1 with
  | zero =>
    intro f2 board size depth isMaximizing alpha beta h _
    rcases h with ⟨h1, h2⟩ | h
    · have : ((0 : Nat) : Int) = 0 := rfl
      omega
    · omega
  | succ f1 ih =>
    intro f2 board size depth isMaximizing alpha beta h1 h2
    cases f2 with
    | zero =>
      rcases h2 with ⟨h3, h4⟩ | h
      · have : ((0 : Nat) : Int) = 0 := rfl
        omega
      · omega
    | succ f2 =>
      unfold MinimaxScore
      simp only
      split
      · rfl
      · split
        · rfl
        · next hnot =>
          have hd0 : depth ≠ 0 := fun h => hnot (Or.inl h)
          have hlt : ∀ (f : Nat), ((0 ≤ depth ∧ depth < (f + 1 : Nat)) ∨
                emptyCount board size < f + 1) →
              ∀ m ∈ GetAvailableMoves board size, ∀ c, c ≠ emptyChar →
              ((0 ≤ depth - 1 ∧ depth - 1 < f) ∨
                emptyCount (setCell board m.1 m.2 c) size < f) := by
            intro f hf m hm c hc
            rcases hf with ⟨h3, h4⟩ | h
            · left
              push_cast at h4
              omega
            · right
              have := emptyCount_setCell_lt board size m.1 m.2 c hm hc
              omega
          cases isMaximizing with
          | true =>
            simp only [if_true]
            apply maxLoopScore_congr
            intro m hm a be
            exact ih f2 _ size (depth - 1) false a be
              (hlt f1 h1 m hm _ marks_distinct.2.2.2.2.1)
              (hlt f2 h2 m hm _ marks_distinct.2.2.2.2.1)
          | false =>
            simp only [Bool.false_eq_true, if_false]
            apply minLoopScore_congr
            intro m hm a be
            exact ih f2 _ size (depth - 1) true a be
              (hlt f1 h1 m hm _ marks_distinct.2.2.1)
              (hlt f2 h2 m hm _ marks_distinct.2.2.1)

/-- C35: `Minimax` and the loop of `ComputerMove` always return. For every board, size,
depth, side and window, a nesting bound above the number of free cells (at most
size * size) lets `Minimax` return its score with the board as it was, and for a depth of
at least 0 a bound above the smaller of the depth and the number of free cells is enough
and gives the same score: the nesting of recursive calls never exceeds that minimum. The
loop of `ComputerMove`, which calls `Minimax` with the bound size * size + 1, runs to its
end and leaves the board as it was and the best move found. -/
theorem Minimax_total (board : Board) (size : Nat) (depth : Int) (isMaximizing : Bool)
    (alpha beta : Int) :
    (∀ fuel, emptyCount board size < fuel →
      Minimax fuel board size depth isMaximizing alpha beta =
        some (MinimaxScore (emptyCount board size + 1) board size depth isMaximizing
          alpha beta, board)) ∧
    (0 ≤ depth → ∀ fuel, min depth.toNat (emptyCount board size) < fuel →
      Minimax fuel board size depth isMaximizing alpha beta =
        some (MinimaxScore (emptyCount board size + 1) board size depth isMaximizing
          alpha beta, board)) ∧
    emptyCount board size ≤ size * size ∧
    rootLoop (fun b => Minimax (size * size + 1) b size (maxDepthOf size) false (-1000) 1000)
        (GetAvailableMoves board size) board (-1000) none =
      some (board, bestMoveOf board size) := by
  refine ⟨?_, ?_, emptyCount_le board size, ?_⟩
  · intro fuel hfuel
    rw [Minimax_eq_score fuel board size depth isMaximizing alpha beta hfuel,
      MinimaxScore_fuel fuel (emptyCount board size + 1) board size depth isMaximizing alpha
        beta hfuel (by omega)]
  · intro h0 fuel hfuel
    have hcond : (0 ≤ depth ∧ depth < fuel) ∨ emptyCount board size < fuel := by
      have := Int.toNat_of_nonneg h0
      rcases Nat.lt_or_ge depth.toNat fuel with h | h
      · left
        omega
      · right
        omega
    rw [Minimax_eq_score_min fuel board size depth isMaximizing alpha beta hcond,
      MinimaxScore_fuel_min fuel (emptyCount board size + 1) board size depth isMaximizing
        alpha beta hcond (Or.inr (by omega))]
  · unfold bestMoveOf
    refine rootLoop_eq _ _ board _ _ _
      (fun m hm => ((mem_GetAvailableMoves board size m).mp hm).2.2) ?_
    intro m hm
    apply Minimax_eq_score
    have := emptyCount_le (setCell board m.1 m.2 secondPlayerChar) size
    omega

/-- C35 on the empty 3x3 board with depth 2: the nesting bound 3 is enough, although nine
cells are free. -/
theorem Minimax_total_witness :
    emptyCount emptyBoard 3 = 9 ∧
      (Minimax 3 emptyBoard 3 2 true (-1000) 1000).map Prod.snd = some emptyBoard := by
  refine ⟨by decide, ?_⟩
  rw [(Minimax_total emptyBoard 3 2 true (-1000) 1000).2.1 (by decide) 3
    (Nat.lt_of_le_of_lt (Nat.min_le_left _ _) (by decide))]
  rfl

/-! ## The board during and after `Minimax` -/

theorem maxLoopWrites_eq (call : Board → Int → Int → Option (Int × Board × List CellWrite))
    (score : Nat × Nat → Int → Int → Int) (size : Nat) (beta : Int) (board : Board) :
    ∀ (ms : List (Nat × Nat)) (bestScore alpha : Int),
      (∀ m ∈ ms, m.1 < size ∧ m.2 < size ∧ board m.1 m.2 = emptyChar) →
      (∀ m ∈ ms, ∀ a be, ∃ inner,
        call (setCell board m.1 m.2 secondPlayerChar) a be =
          some (score m a be, setCell board m.1 m.2 secondPlayerChar, inner) ∧
        ∀ w ∈ inner, placesOrRestores size w) →
      ∃ made, maxLoopWrites call beta ms board bestScore alpha =
          some (maxLoopScore score beta ms bestScore alpha, board, made) ∧
        ∀ w ∈ made, placesOrRestores size w := by
  intro ms
  induction ms with
  | nil =>
    intro bestScore alpha _ _
    exact ⟨[], rfl, fun w hw => absurd hw (List.not_mem_nil w)⟩
  | cons m rest ih =>
    intro bestScore alpha hfree hcall
    obtain ⟨x, y⟩ := m
    obtain ⟨hx, hy, he⟩ := hfree (x, y) (List.mem_cons_self _ _)
    obtain ⟨inner, hin, hP⟩ := hcall (x, y) (List.mem_cons_self _ _) alpha beta
    have hrest := ih (max bestScore (score (x, y) alpha beta))
      (max alpha (max bestScore (score (x, y) alpha beta)))
      (fun m hm => hfree m (List.mem_cons_of_mem _ hm))
      (fun m hm => hcall m (List.mem_cons_of_mem _ hm))
    obtain ⟨later, hlater, hPl⟩ := hrest
    have hmade : ∀ w ∈ (⟨true, x, y, board x y, secondPlayerChar⟩ :: inner ++
        [⟨true, x, y, setCell board x y secondPlayerChar x y, emptyChar⟩] : List CellWrite),
        placesOrRestores size w := by
      intro w hw
      simp only [List.cons_append, List.mem_cons, List.mem_append, List.mem_singleton,
        List.not_mem_nil, or_false] at hw
      rcases hw with hw | hw | hw
      · subst hw
        exact ⟨hx, hy, Or.inl ⟨he, rfl⟩⟩
      · exact hP w hw
      · subst hw
        exact ⟨hx, hy, Or.inr ⟨setCell_same _ _ _ _, rfl⟩⟩
    unfold maxLoopWrites maxLoopScore
    simp only [hin, setCell_restore board x y secondPlayerChar he]
    split
    · exact ⟨_, rfl, hmade⟩
    · rw [hlater]
      refine ⟨_, rfl, ?_⟩
      intro w hw
      rw [List.mem_append] at hw
      rcases hw with hw | hw
      · exact hmade w hw
      · exact hPl w hw

theorem minLoopWrites_eq (call : Board → Int → Int → Option (Int × Board × List CellWrite))
    (score : Nat × Nat → Int → Int → Int) (size : Nat) (alpha : Int) (board : Board) :
    ∀ (ms : List (Nat × Nat)) (bestScore beta : Int),
      (∀ m ∈ ms, m.1 < size ∧ m.2 < size ∧ board m.1 m.2 = emptyChar) →
      (∀ m ∈ ms, ∀ a be, ∃ inner,
        call (setCell board m.1 m.2 firstPlayerChar) a be =
          some (score m a be, setCell board m.1 m.2 firstPlayerChar, inner) ∧
        ∀ w ∈ inner, placesOrRestores size w) →
      ∃ made, minLoopWrites call alpha ms board bestScore beta =
          some (minLoopScore score alpha ms bestScore beta, board, made) ∧
        ∀ w ∈ made, placesOrRestores size w := by
  intro ms
  induction ms with
  | nil =>
    intro bestScore beta _ _
    exact ⟨[], rfl, fun w hw => absurd hw (List.not_mem_nil w)⟩
  | cons m rest ih =>
    intro bestScore beta hfree hcall
    obtain ⟨x, y⟩ := m
    obtain ⟨hx, hy, he⟩ := hfree (x, y) (List.mem_cons_self _ _)
    obtain ⟨inner, hin, hP⟩ := hcall (x, y) (List.mem_cons_self _ _) alpha beta
    have hrest := ih (min bestScore (score (x, y) alpha beta))
      (min beta (min bestScore (score (x, y) alpha beta)))
      (fun m hm => hfree m (List.mem_cons_of_mem _ hm))
      (fun m hm => hcall m (List.mem_cons_of_mem _ hm))
    obtain ⟨later, hlater, hPl⟩ := hrest
    have hmade : ∀ w ∈ (⟨false, x, y, board x y, firstPlayerChar⟩ :: inner ++
        [⟨false, x, y, setCell board x y firstPlayerChar x y, emptyChar⟩] : List CellWrite),
        placesOrRestores size w := by
      intro w hw
      simp only [List.cons_append, List.mem_cons, List.mem_append, List.mem_singleton,
        List.not_mem_nil, or_false] at hw
      rcases hw with hw | hw | hw
      · subst hw
        exact ⟨hx, hy, Or.inl ⟨he, rfl⟩⟩
      · exact hP w hw
      · subst hw
        exact ⟨hx, hy, Or.inr ⟨setCell_same _ _ _ _, rfl⟩⟩
    unfold minLoopWrites minLoopScore
    simp only [hin, setCell_restore board x y firstPlayerChar he]
    split
    · exact ⟨_, rfl, hmade⟩
    · rw [hlater]
      refine ⟨_, rfl, ?_⟩
      intro w hw
      rw [List.mem_append] at hw
      rcases hw with hw | hw
      · exact hmade w hw
      · exact hPl w hw

theorem MinimaxWrites_eq :
    ∀ (fuel : Nat) (board : Board) (size : Nat) (depth : Int) (isMaximizing : Bool)
      (alpha beta : Int), emptyCount board size < fuel →
      ∃ made, MinimaxWrites fuel board size depth isMaximizing alpha beta =
          some (MinimaxScore fuel board size depth isMaximizing alpha beta, board, made) ∧
        ∀ w ∈ made, placesOrRestores size w := by
  intro fuel
  induction fuel with
  | zero => intro board size depth isMaximizing alpha beta h; omega
  | succ fuel ih =>
    intro board size depth isMaximizing alpha beta hfuel
    unfold MinimaxWrites MinimaxScore
    simp only
    split
    · exact ⟨[], rfl, fun w hw => absurd hw (List.not_mem_nil w)⟩
    · split
      · exact ⟨[], rfl, fun w hw => absurd hw (List.not_mem_nil w)⟩
      · have hfree : ∀ m ∈ GetAvailableMoves board size,
            m.1 < size ∧ m.2 < size ∧ board m.1 m.2 = emptyChar :=
          fun m hm => (mem_GetAvailableMoves board size m).mp hm
        have hlt : ∀ m ∈ GetAvailableMoves board size, ∀ c, c ≠ emptyChar →
            emptyCount (setCell board m.1 m.2 c) size < fuel := by
          intro m hm c hc
          have := emptyCount_setCell_lt board size m.1 m.2 c hm hc
          omega
        cases isMaximizing with
        | true =>
          simp only [if_true]
          exact maxLoopWrites_eq _ _ size beta board _ _ _ hfree
            (fun m hm a be => ih _ size (depth - 1) false a be
              (hlt m hm _ marks_distinct.2.2.2.2.1))
        | false =>
          simp only [Bool.false_eq_true, if_false]
          exact minLoopWrites_eq _ _ size alpha board _ _ _ hfree
            (fun m hm a be => ih _ size (depth - 1) true a be
              (hlt m hm _ marks_distinct.2.2.1))

/-- C31: for every board, size, depth, side and window, `Minimax` returns with the board
cell for cell as it was before the call, also when a loop ends early through the
`beta <= alpha` break; and every assignment made during the call is inside the region and
either puts `o` (made by a maximizing call) or `x` (made by a minimizing call) on a cell
that is empty at that moment, or empties the cell on which that call had put its mark. -/
theorem Minimax_frame (fuel : Nat) (board : Board) (size : Nat) (depth : Int)
    (isMaximizing : Bool) (alpha beta : Int) (hfuel : emptyCount board size < fuel) :
    ∃ score made,
      Minimax fuel board size depth isMaximizing alpha beta = some (score, board) ∧
      MinimaxWrites fuel board size depth isMaximizing alpha beta =
        some (score, board, made) ∧
      ∀ w ∈ made, placesOrRestores size w := by
  obtain ⟨made, hmade, hP⟩ :=
    MinimaxWrites_eq fuel board size depth isMaximizing alpha beta hfuel
  exact ⟨_, made, Minimax_eq_score fuel board size depth isMaximizing alpha beta hfuel, hmade,
    hP⟩

/-- C31 on the 3x3 position `x o x / x o o / o _ _` with `o` to move and the window
(5, 3): the first move wins with score 2 and the loop breaks at once; the assignments are
`o` on row 2, column 1 and the restoring of that cell, and the board is as before. -/
theorem Minimax_frame_witness :
    emptyCount twoLeft 3 < 3 ∧
      (Minimax 3 twoLeft 3 9 true 5 3).map Prod.snd = some twoLeft ∧
      (MinimaxWrites 3 twoLeft 3 9 true 5 3).map
          (fun r => (r.1, r.2.2.map fun w => (w.row, w.col, w.before, w.after))) =
        some (2, [(2, 1, emptyChar, 'o'), (2, 1, 'o', emptyChar)]) := by
  obtain ⟨score, made, hret, _, _⟩ := Minimax_frame 3 twoLeft 3 9 true 5 3 (by decide)
  refine ⟨by decide, ?_, by decide!⟩
  rw [hret]
  rfl

/-! ## The menus -/

theorem clearSizeMarks_eq (buttons : Nat → Nat → Char) :
    clearSizeMarks buttons = setCell (setCell (setCell buttons 0 0 '-') 1 0 '-') 2 0 '-' :=
  rfl

/-- The marks of the options menu are written in column 0 only. -/
theorem clearSizeMarks_other (buttons : Nat → Nat → Char) (i j : Nat) (hj : j ≠ 0) :
    clearSizeMarks buttons i j = buttons i j := by
  rw [clearSizeMarks_eq, setCell_other _ _ _ _ _ _ (Or.inr hj),
    setCell_other _ _ _ _ _ _ (Or.inr hj), setCell_other _ _ _ _ _ _ (Or.inr hj)]

theorem toggleMark_other (buttons : Nat → Nat → Char) (k i j : Nat) (hj : j ≠ 0) :
    toggleMark buttons k i j = buttons i j := by
  unfold toggleMark
  rw [setCell_other _ _ _ _ _ _ (Or.inr hj)]

/-- What `mainMenuInputEvent` leaves alone: the options menu, the field size and the
removal counter. -/
theorem mainMenuInputEvent_frame (a : App) (key : Char) :
    (mainMenuInputEvent a key).optionsButtons = a.optionsButtons ∧
      (mainMenuInputEvent a key).activeOptionButton = a.activeOptionButton ∧
      (mainMenuInputEvent a key).session.fieldSize = a.session.fieldSize ∧
      (mainMenuInputEvent a key).session.movesToNextRemoval =
        a.session.movesToNextRemoval := by
  unfold mainMenuInputEvent
  split_ifs <;> exact ⟨rfl, rfl, rfl, rfl⟩

theorem gameResultInputEvent_frame (a : App) (key : Char) :
    (gameResultInputEvent a key).optionsButtons = a.optionsButtons ∧
      (gameResultInputEvent a key).activeOptionButton = a.activeOptionButton ∧
      (gameResultInputEvent a key).session.fieldSize = a.session.fieldSize ∧
      (gameResultInputEvent a key).session.movesToNextRemoval =
        a.session.movesToNextRemoval := by
  unfold gameResultInputEvent
  split_ifs <;> exact ⟨rfl, rfl, rfl, rfl⟩

theorem redraw_frame (a : App) :
    (redraw a).optionsButtons = a.optionsButtons ∧
      (redraw a).activeOptionButton = a.activeOptionButton ∧
      (redraw a).session.fieldSize = a.session.fieldSize ∧
      (redraw a).session.movesToNextRemoval = a.session.movesToNextRemoval ∧
      (redraw a).session.field = a.session.field := by
  unfold redraw
  split
  · exact ⟨rfl, rfl, (drawGame_step a.session).2.1, (drawGame_step a.session).2.2.2.2.1,
      (drawGame_step a.session).1⟩
  · exact ⟨rfl, rfl, rfl, rfl, rfl⟩
  · exact ⟨rfl, rfl, rfl, rfl, rfl⟩

/-- What `optionsInputEvent` does: the selected button stays between 1 and 5, the labels
change in column 0 only, the removal counter is untouched, and the field size is either
unchanged or, on a confirm with one of the three size buttons selected, set to the digit
of that label after `setupNewGame` has cleared the board. -/
theorem optionsInputEvent_step (a a' : App) (key : Char)
    (h : optionsInputEvent a key = some a')
    (hlo : 1 ≤ a.activeOptionButton) (hhi : a.activeOptionButton ≤ 5) :
    (1 ≤ a'.activeOptionButton ∧ a'.activeOptionButton ≤ 5) ∧
    (∀ i j, j ≠ 0 → a'.optionsButtons i j = a.optionsButtons i j) ∧
    a'.session.movesToNextRemoval = a.session.movesToNextRemoval ∧
    (a'.session.fieldSize = a.session.fieldSize ∨
      ((key = lineFeed ∨ key = carriageReturn) ∧ a.activeOptionButton ≤ 3 ∧
        a'.session.field = clearField a.session.field ∧
        (a'.session.fieldSize : Int) =
          max 0 (((a.optionsButtons (a.activeOptionButton - 1).toNat 1).toNat : Int) -
            (('0' : Char).toNat : Int)))) := by
  have c5 : optionsButtonsCount = 5 := rfl
  have c3 : sizeButtonsCount = 3 := rfl
  unfold optionsInputEvent at h
  by_cases hw : key = 'w'
  · rw [if_pos hw] at h
    simp only [Option.some.injEq] at h
    subst h
    refine ⟨?_, fun _ _ _ => rfl, rfl, Or.inl rfl⟩
    simp only
    split <;> omega
  rw [if_neg hw] at h
  by_cases hs : key = 's'
  · rw [if_pos hs] at h
    simp only [Option.some.injEq] at h
    subst h
    refine ⟨?_, fun _ _ _ => rfl, rfl, Or.inl rfl⟩
    simp only
    rw [c5]
    split <;> omega
  rw [if_neg hs] at h
  by_cases hc : key = lineFeed ∨ key = carriageReturn
  · rw [if_pos hc] at h
    by_cases hsize : a.activeOptionButton ≤ sizeButtonsCount
    · have hneg : ¬ a.activeOptionButton - 1 < 0 := by omega
      rw [if_pos hsize, if_neg hneg] at h
      simp only [Option.some.injEq] at h
      subst h
      refine ⟨⟨hlo, hhi⟩, ?_, rfl, Or.inr ⟨hc, by omega, rfl, ?_⟩⟩
      · intro i j hj
        show setCell (clearSizeMarks a.optionsButtons) _ 0 '+' i j = a.optionsButtons i j
        rw [setCell_other _ _ _ _ _ _ (Or.inr hj), clearSizeMarks_other _ _ _ hj]
      · show ((Int.toNat _ : Nat) : Int) = _
        rw [clearSizeMarks_other _ _ _ (by decide)]
        omega
    · rw [if_neg hsize] at h
      by_cases hcustom : a.activeOptionButton = optionsButtonsCount - 1
      · rw [if_pos hcustom] at h
        simp only [Option.some.injEq] at h
        subst h
        exact ⟨⟨hlo, hhi⟩, fun i j hj => toggleMark_other _ _ i j hj, rfl, Or.inl rfl⟩
      · rw [if_neg hcustom] at h
        simp only [Option.some.injEq] at h
        subst h
        exact ⟨⟨hlo, hhi⟩, fun i j hj => toggleMark_other _ _ i j hj, rfl, Or.inl rfl⟩
  rw [if_neg hc] at h
  by_cases hq : key = 'q'
  · rw [if_pos hq] at h
    simp only [Option.some.injEq] at h
    subst h
    exact ⟨⟨hlo, hhi⟩, fun _ _ _ => rfl, rfl, Or.inl rfl⟩
  · rw [if_neg hq] at h
    simp only [Option.some.injEq] at h
    subst h
    exact ⟨⟨hlo, hhi⟩, fun _ _ _ => rfl, rfl, Or.inl rfl⟩

/-! ## Invariants of the event loop -/

/-- The invariant of the states reached from start-up: the field size is 3, 4 or 5, the
selected options button is between 1 and 5, the three size labels still carry the digits
5, 4 and 3 at index 1, and the removal counter is between -1 and 7. -/
theorem app_invariant (a : App) (h : AppReaches a) :
    (a.session.fieldSize = 3 ∨ a.session.fieldSize = 4 ∨ a.session.fieldSize = 5) ∧
    (1 ≤ a.activeOptionButton ∧ a.activeOptionButton ≤ 5) ∧
    (a.optionsButtons 0 1 = '5' ∧ a.optionsButtons 1 1 = '4' ∧ a.optionsButtons 2 1 = '3') ∧
    (-1 ≤ a.session.movesToNextRemoval ∧ a.session.movesToNextRemoval ≤ 7) := by
  induction h with
  | start => exact ⟨Or.inr (Or.inr rfl), by decide, by decide, by decide⟩
  | input a a' key r1 r2 stray _ hstep ih =>
    obtain ⟨hsz, hbtn, hlab, hcnt⟩ := ih
    unfold inputEvent at hstep
    cases hs : a.session.currentState
    · rw [hs] at hstep
      simp only [Option.some.injEq] at hstep
      subst hstep
      obtain ⟨f1, f2, f3, f4⟩ := mainMenuInputEvent_frame a key
      rw [f1, f2, f3, f4]
      exact ⟨hsz, hbtn, hlab, hcnt⟩
    · rw [hs] at hstep
      simp only [Option.some.injEq] at hstep
      subst hstep
      obtain ⟨e1, _, _, e4⟩ := gameInputEventFlat_frame a.session key r1 r2 stray
      refine ⟨?_, hbtn, hlab, e4 hcnt⟩
      show (gameInputEventFlat a.session key r1 r2 stray).fieldSize = 3 ∨
        (gameInputEventFlat a.session key r1 r2 stray).fieldSize = 4 ∨
        (gameInputEventFlat a.session key r1 r2 stray).fieldSize = 5
      rw [e1]
      exact hsz
    · rw [hs] at hstep
      simp only at hstep
      obtain ⟨g1, g2, g3, g4⟩ := optionsInputEvent_step a a' key hstep hbtn.1 hbtn.2
      refine ⟨?_, g1, ?_, ?_⟩
      · rcases g4 with g4 | ⟨_, h3, _, g4⟩
        · rw [g4]
          exact hsz
        · have hb : a.activeOptionButton = 1 ∨ a.activeOptionButton = 2 ∨
              a.activeOptionButton = 3 := by
            have := hbtn.1
            omega
          rcases hb with hb | hb | hb <;> rw [hb] at g4
          · have e : a.optionsButtons ((1 : Int) - 1).toNat 1 = '5' := hlab.1
            rw [e] at g4
            have d : ((('5' : Char).toNat : Int) - (('0' : Char).toNat : Int)) = 5 := by decide
            rw [d] at g4
            omega
          · have e : a.optionsButtons ((2 : Int) - 1).toNat 1 = '4' := hlab.2.1
            rw [e] at g4
            have d : ((('4' : Char).toNat : Int) - (('0' : Char).toNat : Int)) = 4 := by decide
            rw [d] at g4
            omega
          · have e : a.optionsButtons ((3 : Int) - 1).toNat 1 = '3' := hlab.2.2
            rw [e] at g4
            have d : ((('3' : Char).toNat : Int) - (('0' : Char).toNat : Int)) = 3 := by decide
            rw [d] at g4
            omega
      · rw [g2 0 1 (by decide), g2 1 1 (by decide), g2 2 1 (by decide)]
        exact hlab
      · rw [g3]
        exact hcnt
    · rw [hs] at hstep
      simp only [Option.some.injEq] at hstep
      subst hstep
      obtain ⟨f1, f2, f3, f4⟩ := gameResultInputEvent_frame a key
      rw [f1, f2, f3, f4]
      exact ⟨hsz, hbtn, hlab, hcnt⟩
  | redraw a _ ih =>
    obtain ⟨f1, f2, f3, f4, _⟩ := redraw_frame a
    rw [f1, f2, f3, f4]
    exact ih

/-- With the selected options button at 1 or above, every received byte has a successor:
`optionsInputEvent` never reads before the start of `optionsButtons`, and the other
handlers always return. -/
theorem inputEvent_some (a : App) (key : Char) (r1 r2 : Nat) (stray : Char)
    (hbtn : 1 ≤ a.activeOptionButton) : ∃ a', inputEvent a key r1 r2 stray = some a' := by
  unfold inputEvent
  cases a.session.currentState
  · exact ⟨_, rfl⟩
  · exact ⟨_, rfl⟩
  · simp only
    unfold optionsInputEvent
    have hneg : ¬ a.activeOptionButton - 1 < 0 := by omega
    split_ifs <;> exact ⟨_, rfl⟩
  · exact ⟨_, rfl⟩

/-- The sessions of a game are states of the event loop: from a state reached from
start-up, the bytes handled by `gameInputEvent` and the redraws lead to states reached
from start-up. -/
theorem AppReaches_game (a : App) (s : Session) (ha : AppReaches a)
    (h : GameReaches a.session s) : AppReaches { a with session := s } := by
  induction h with
  | start => exact ha
  | input s key r1 r2 stray _ hgame ih =>
    refine AppReaches.input { a with session := s } _ key r1 r2 stray ih ?_
    unfold inputEvent
    have hg : ({ a with session := s } : App).session.currentState = gameStates.game := hgame
    rw [hg]
  | redraw s _ hgame ih =>
    have hr := AppReaches.redraw { a with session := s } ih
    unfold redraw at hr
    have hg : ({ a with session := s } : App).session.currentState = gameStates.game := hgame
    rw [hg] at hr
    exact hr
  | result s _ hres ih =>
    have hr := AppReaches.redraw { a with session := s } ih
    unfold redraw at hr
    have hg : ({ a with session := s } : App).session.currentState = gameStates.gameResult :=
      hres
    rw [hg] at hr
    exact hr

theorem clearField_clearField (field : Board) : clearField (clearField field) = clearField field := by
  funext i j
  unfold clearField
  split <;> rfl

/-- The state `drawnGamePlayed` is reached from start-up: by the bytes `s`, `s`, confirm
(the options menu), `s`, `s` (the button "3x3"), confirm, `q`, `w` (the button "New 1p"),
confirm, and then the game of `drawnGameKeys` with the last confirm. -/
theorem drawnGamePlayed_reached : AppReaches drawnGamePlayed := by
  have hmenu : AppReaches sizeThreeChosen :=
    AppReaches.input _ _ 'w' 0 0 'o'
      (AppReaches.input _ _ 'q' 0 0 'o'
        (AppReaches.input _ _ lineFeed 0 0 'o'
          (AppReaches.input _ _ 's' 0 0 'o'
            (AppReaches.input _ _ 's' 0 0 'o'
              (AppReaches.input _ _ lineFeed 0 0 'o'
                (AppReaches.input _ _ 's' 0 0 'o'
                  (AppReaches.input _ _ 's' 0 0 'o' AppReaches.start rfl) rfl) rfl) rfl)
            rfl) rfl) rfl) rfl
  have hnew : AppReaches { sizeThreeChosen with session := newSinglePlayerGame idle3 } := by
    have hstep : inputEvent sizeThreeChosen lineFeed 0 0 'o' =
        some { sizeThreeChosen with session := newSinglePlayerGame idle3 } := by
      have hfield : clearField (clearField emptyBoard) = clearField emptyBoard :=
        clearField_clearField emptyBoard
      show some ({ sizeThreeChosen with
          session := { newSinglePlayerGame idle3 with
            field := clearField (clearField emptyBoard) } } : App) = _
      rw [hfield]
      rfl
    exact AppReaches.input _ _ lineFeed 0 0 'o' hmenu hstep
  exact AppReaches_game { sizeThreeChosen with session := newSinglePlayerGame idle3 }
    boardFilled hnew boardFilled_reached

/-- C38: at start-up the field size is 5, and in every state reached through menu, options
and game input events and redraws it is 3, 4 or 5; every call of `gameInputEvent` is
followed to its end, the calls that reach outside the field array included, so that every
received byte has a successor in every state reached. The labels of the three size
buttons keep the digits 5, 4 and 3 at index 1, since every handler writes the labels at
index 0 only. A received byte leaves the field size as it was unless it is a confirm in
the options menu with one of the three size buttons selected: then the size becomes the
digit of the selected label and the whole 5x5 array has been cleared. A redraw never
changes the size. -/
theorem fieldSize_supported (a : App) (h : AppReaches a) :
    (initialApp.session.fieldSize = 5 ∧ maxFieldSize = 5) ∧
    (a.session.fieldSize = 3 ∨ a.session.fieldSize = 4 ∨ a.session.fieldSize = 5) ∧
    (a.optionsButtons 0 1 = '5' ∧ a.optionsButtons 1 1 = '4' ∧ a.optionsButtons 2 1 = '3') ∧
    (∀ key r1 r2 stray, ∃ a', inputEvent a key r1 r2 stray = some a') ∧
    (∀ key r1 r2 stray a', inputEvent a key r1 r2 stray = some a' →
      (∀ i j, j ≠ 0 → a'.optionsButtons i j = a.optionsButtons i j) ∧
      (a'.session.fieldSize = a.session.fieldSize ∨
        (a.session.currentState = gameStates.options ∧
          (key = lineFeed ∨ key = carriageReturn) ∧
          (1 ≤ a.activeOptionButton ∧ a.activeOptionButton ≤ 3) ∧
          (∀ i < maxFieldSize, ∀ j < maxFieldSize, a'.session.field i j = emptyChar) ∧
          (a'.session.fieldSize : Int) =
            ((a.optionsButtons (a.activeOptionButton - 1).toNat 1).toNat : Int) -
              (('0' : Char).toNat : Int)))) ∧
    (redraw a).session.fieldSize = a.session.fieldSize := by
  obtain ⟨hsz, hbtn, hlab, _⟩ := app_invariant a h
  refine ⟨⟨rfl, rfl⟩, hsz, hlab, fun key r1 r2 stray => inputEvent_some a key r1 r2 stray hbtn.1,
    ?_, (redraw_frame a).2.2.1⟩
  intro key r1 r2 stray a' hstep
  have hreach' : AppReaches a' := AppReaches.input a a' key r1 r2 stray h hstep
  obtain ⟨hsz', _, _, _⟩ := app_invariant a' hreach'
  unfold inputEvent at hstep
  cases hs : a.session.currentState
  · rw [hs] at hstep
    simp only [Option.some.injEq] at hstep
    subst hstep
    obtain ⟨f1, _, f3, _⟩ := mainMenuInputEvent_frame a key
    exact ⟨fun i j _ => by rw [f1], Or.inl f3⟩
  · rw [hs] at hstep
    simp only [Option.some.injEq] at hstep
    subst hstep
    exact ⟨fun _ _ _ => rfl, Or.inl (gameInputEventFlat_frame a.session key r1 r2 stray).1⟩
  · rw [hs] at hstep
    simp only at hstep
    obtain ⟨_, g2, _, g4⟩ := optionsInputEvent_step a a' key hstep hbtn.1 hbtn.2
    refine ⟨g2, ?_⟩
    rcases g4 with g4 | ⟨hkey, h3, hfield, g4⟩
    · exact Or.inl g4
    · refine Or.inr ⟨rfl, hkey, ⟨hbtn.1, h3⟩, ?_, ?_⟩
      · intro i hi j hj
        rw [hfield]
        exact clearField_cell _ i j hi hj
      · rw [g4]
        have : (0 : Int) ≤ (a'.session.fieldSize : Int) := Int.ofNat_nonneg _
        omega
  · rw [hs] at hstep
    simp only [Option.some.injEq] at hstep
    subst hstep
    obtain ⟨f1, _, f3, _⟩ := gameResultInputEvent_frame a key
    exact ⟨fun i j _ => by rw [f1], Or.inl f3⟩

/-- C38 on two states reached from start-up: after the bytes `s`, `s`, confirm (the
options menu), `s` (the button "4x4") and confirm the field size is 4; after the size 3
has been chosen and a single-player game has been played until the human filled the
board, where `ComputerMove` finds no move, the field size is still 3. -/
theorem fieldSize_supported_witness :
    (AppReaches sizeFourChosen ∧ sizeFourChosen.session.fieldSize = 4 ∧
      (sizeFourChosen.session.fieldSize = 3 ∨ sizeFourChosen.session.fieldSize = 4 ∨
        sizeFourChosen.session.fieldSize = 5)) ∧
    (AppReaches drawnGamePlayed ∧ drawnGamePlayed.session.fieldSize = 3 ∧
      (drawnGamePlayed.session.fieldSize = 3 ∨ drawnGamePlayed.session.fieldSize = 4 ∨
        drawnGamePlayed.session.fieldSize = 5)) :=
  have hreach : AppReaches sizeFourChosen :=
    AppReaches.input _ _ lineFeed 0 0 'o'
      (AppReaches.input _ _ 's' 0 0 'o'
        (AppReaches.input _ _ lineFeed 0 0 'o'
          (AppReaches.input _ _ 's' 0 0 'o'
            (AppReaches.input _ _ 's' 0 0 'o' AppReaches.start rfl) rfl) rfl) rfl) rfl
  ⟨⟨hreach, rfl, (fieldSize_supported sizeFourChosen hreach).2.1⟩,
    ⟨drawnGamePlayed_reached, rfl,
      (fieldSize_supported drawnGamePlayed drawnGamePlayed_reached).2.1⟩⟩

/-- C39: in every state reached from start-up, where the counter is -1, through any
received bytes, any values of `rand()` and any redraws, `movesToNextRemoval` is between -1
and 7; so whenever the arming branch `movesToNextRemoval <= -1` is taken the counter is
exactly -1. Every call of `gameInputEvent` is followed to its end, the calls that reach
outside the field array included, so that every received byte has a successor in every
state reached. -/
theorem removal_counter_range (a : App) (h : AppReaches a) :
    initialApp.session.movesToNextRemoval = -1 ∧
    (-1 ≤ a.session.movesToNextRemoval ∧ a.session.movesToNextRemoval ≤ 7) ∧
    (a.session.movesToNextRemoval ≤ -1 → a.session.movesToNextRemoval = -1) ∧
    (∀ key r1 r2 stray, ∃ a', inputEvent a key r1 r2 stray = some a' ∧
      -1 ≤ a'.session.movesToNextRemoval ∧ a'.session.movesToNextRemoval ≤ 7) := by
  obtain ⟨_, hbtn, _, hcnt⟩ := app_invariant a h
  refine ⟨rfl, hcnt, fun hle => by omega, fun key r1 r2 stray => ?_⟩
  obtain ⟨a', ha'⟩ := inputEvent_some a key r1 r2 stray hbtn.1
  exact ⟨a', ha', (app_invariant a' (AppReaches.input a a' key r1 r2 stray h ha')).2.2.2⟩

/-- C39 on two states reached from start-up: a two-player 5x5 game in custom mode after
the first placement, with `rand()` returning 7, where the counter was armed to 6 and
stands at 5; and the single-player 3x3 game played until the human filled the board, where
the counter is -1. -/
theorem removal_counter_range_witness :
    (AppReaches customGameStarted ∧ customGameStarted.session.movesToNextRemoval = 5 ∧
      (-1 ≤ customGameStarted.session.movesToNextRemoval ∧
        customGameStarted.session.movesToNextRemoval ≤ 7)) ∧
    (AppReaches drawnGamePlayed ∧ drawnGamePlayed.session.movesToNextRemoval = -1 ∧
      (-1 ≤ drawnGamePlayed.session.movesToNextRemoval ∧
        drawnGamePlayed.session.movesToNextRemoval ≤ 7)) :=
  have hreach : AppReaches customGameStarted :=
    AppReaches.input _ _ lineFeed 7 0 'o'
      (AppReaches.input _ _ lineFeed 0 0 'o'
        (AppReaches.input _ _ 'w' 0 0 'o'
          (AppReaches.input _ _ 'w' 0 0 'o'
            (AppReaches.input _ _ 'q' 0 0 'o'
              (AppReaches.input _ _ lineFeed 0 0 'o'
                (AppReaches.input _ _ 's' 0 0 'o'
                  (AppReaches.input _ _ 's' 0 0 'o'
                    (AppReaches.input _ _ 's' 0 0 'o'
                      (AppReaches.input _ _ lineFeed 0 0 'o'
                        (AppReaches.input _ _ 's' 0 0 'o'
                          (AppReaches.input _ _ 's' 0 0 'o' AppReaches.start rfl) rfl) rfl)
                      rfl) rfl) rfl) rfl) rfl) rfl) rfl) rfl) rfl
  ⟨⟨hreach, rfl, (removal_counter_range customGameStarted hreach).2.1⟩,
    ⟨drawnGamePlayed_reached, rfl,
      (removal_counter_range drawnGamePlayed drawnGamePlayed_reached).2.1⟩⟩

end TicTacToe
